import Mathlib

/-!
# PairingPQ: a pointer-level model of the pairing heap in `PairingPQ.h`

The C++ class keeps two data members (`root`, `num_nodes`) and a graph of
heap-allocated `Node`s linked by `child`, `sibling` and `parent` pointers.
The model keeps the free store explicit: a pointer is an `Option Nat`
(`none` is `nullptr`), a dereference of `nullptr` or of a deleted node makes
the operation return `none` (undefined behaviour in C++), and every `while`
loop over pointers is driven by a fuel counter. The fuel of a loop inside a
member function is `num_nodes`, which bounds every pointer walk of a
well-formed heap; a walk that exhausts it (a cyclic or miscounted structure,
where the C++ loop would not stop or would leave the heap) also gives `none`.
`new Node` returns the address `next` and never reuses an address, so a
pointer to a deleted node stays dangling. `num_nodes` is a `size_t`: it never
exceeds the number of live nodes, so only the decrement at zero can wrap.
-/

/-- The two data members of the class: `Node *root` and `size_t num_nodes`. -/
structure PairingPQ where
  root : Option Nat
  num_nodes : Nat

namespace PairingPQ

/-- The nested class `Node`: an element and the links `child`, `sibling`, `parent`. -/
structure Node (α : Type) where
  elt : α
  child : Option Nat
  sibling : Option Nat
  parent : Option Nat

/-- The free store. `cells a` is the node living at address `a` (`none` when no live
node is there); `next` is the address the next `new Node` returns. -/
structure Mem (α : Type) where
  cells : Nat → Option (Node α)
  next : Nat

variable {α : Type}

/-- A store without any node. -/
def Mem.empty : Mem α := ⟨fun _ => none, 0⟩

/-- Overwrite the node stored at address `a`. -/
def Mem.write (m : Mem α) (a : Nat) (n : Node α) : Mem α :=
  ⟨fun x => if x = a then some n else m.cells x, m.next⟩

/-- The statement `delete p`. -/
def Mem.free (m : Mem α) (a : Nat) : Mem α :=
  ⟨fun x => if x = a then none else m.cells x, m.next⟩

/-- The statement `p->elt = v`. -/
def setElt (m : Mem α) (a : Nat) (v : α) : Option (Mem α) :=
  match m.cells a with
  | none => none
  | some n => some (m.write a ⟨v, n.child, n.sibling, n.parent⟩)

/-- The statement `p->child = c`. -/
def setChild (m : Mem α) (a : Nat) (c : Option Nat) : Option (Mem α) :=
  match m.cells a with
  | none => none
  | some n => some (m.write a ⟨n.elt, c, n.sibling, n.parent⟩)

/-- The statement `p->sibling = s`. -/
def setSibling (m : Mem α) (a : Nat) (s : Option Nat) : Option (Mem α) :=
  match m.cells a with
  | none => none
  | some n => some (m.write a ⟨n.elt, n.child, s, n.parent⟩)

/-- The statement `p->parent = q`. -/
def setParent (m : Mem α) (a : Nat) (q : Option Nat) : Option (Mem α) :=
  match m.cells a with
  | none => none
  | some n => some (m.write a ⟨n.elt, n.child, n.sibling, q⟩)

/-- The constructor of the empty heap: `root{ nullptr }, num_nodes{ 0 }`. -/
def emptyPQ : PairingPQ := ⟨none, 0⟩

/-- Member function `meld(pa, pb)`: returns the store after the three link writes and the winner. -/
def meld (lt : α → α → Bool) (m : Mem α) (pa pb : Option Nat) :
    Option (Mem α × Option Nat) :=
  match pa with
  | none => some (m, pb)
  | some a =>
    match pb with
    | none => some (m, pa)
    | some b =>
      match m.cells a, m.cells b with
      | some na, some nb =>
        if lt na.elt nb.elt then
          -- pa->sibling = pb->child; pb->child = pa; pa->parent = pb; return pb;
          (setSibling m a nb.child).bind fun m1 =>
          (setChild m1 b (some a)).bind fun m2 =>
          (setParent m2 a (some b)).bind fun m3 =>
          some (m3, some b)
        else
          -- pb->sibling = pa->child; pa->child = pb; pb->parent = pa; return pa;
          (setSibling m b na.child).bind fun m1 =>
          (setChild m1 a (some b)).bind fun m2 =>
          (setParent m2 b (some a)).bind fun m3 =>
          some (m3, some a)
      | _, _ => none

/-- Member function `addNode(val)`: the new store, the new object state and the returned handle. -/
def addNode (lt : α → α → Bool) (m : Mem α) (q : PairingPQ) (val : α) :
    Option (Mem α × PairingPQ × Nat) :=
  let new_node := m.next
  let m1 : Mem α := ⟨fun x => if x = new_node then some ⟨val, none, none, none⟩ else m.cells x,
    m.next + 1⟩
  (meld lt m1 q.root (some new_node)).bind fun r =>
  some (r.1, ⟨r.2, q.num_nodes + 1⟩, new_node)

/-- Member function `push(val)` calls `addNode(val)` and drops the handle. -/
def push (lt : α → α → Bool) (m : Mem α) (q : PairingPQ) (val : α) :
    Option (Mem α × PairingPQ) :=
  (addNode lt m q val).bind fun r => some (r.1, r.2.1)

/-- The loop `for (Node * s = p; s != nullptr; s = s->sibling) dq.push_back(s)` of `pop`. -/
def collect : Nat → Mem α → Option Nat → Option (List Nat)
  | _, _, none => some []
  | 0, _, some _ => none
  | fuel + 1, m, some s =>
    match m.cells s with
    | none => none
    | some ns => (collect fuel m ns.sibling).bind fun rest => some (s :: rest)

/-- The loop `while (dq.size() > 1)` of `pop`: the two front trees are unlinked, melded
and the result is appended at the back. -/
def pairLoop (lt : α → α → Bool) : Nat → Mem α → List Nat → Option (Mem α × List Nat)
  | fuel + 1, m, p1 :: p2 :: rest =>
    (setSibling m p1 none).bind fun m1 =>
    (setParent m1 p1 none).bind fun m2 =>
    (setSibling m2 p2 none).bind fun m3 =>
    (setParent m3 p2 none).bind fun m4 =>
    (meld lt m4 (some p1) (some p2)).bind fun r =>
    match r.2 with
    | none => none
    | some w => pairLoop lt fuel r.1 (rest ++ [w])
  | 0, _, _ :: _ :: _ => none
  | _, m, dq => some (m, dq)

/-- The statement `--num_nodes` on a `size_t`. -/
def decr (n : Nat) : Nat := if n = 0 then 2 ^ 64 - 1 else n - 1

/-- Member function `pop()`. -/
def pop (lt : α → α → Bool) (m : Mem α) (q : PairingPQ) : Option (Mem α × PairingPQ) :=
  match q.root with
  | none => none
  | some r =>
    match m.cells r with
    | none => none
    | some nr =>
      let p := nr.child
      let m1 := m.free r
      let n := decr q.num_nodes
      if n = 0 then some (m1, ⟨none, n⟩)
      else
        (collect n m1 p).bind fun dq =>
        (pairLoop lt dq.length m1 dq).bind fun r2 =>
        match r2.2 with
        | [] => none
        | w :: _ => some (r2.1, ⟨some w, n⟩)

/-- Member function `top()`: `root->getElt()`. -/
def top (m : Mem α) (q : PairingPQ) : Option α :=
  match q.root with
  | none => none
  | some r => (m.cells r).map fun n => n.elt

/-- Member function `size()`. -/
def size (q : PairingPQ) : Nat := q.num_nodes

/-- Member function `empty()`: `root == nullptr`. -/
def empty (q : PairingPQ) : Bool := q.root.isNone

/-- The loop `while (p->sibling != node) p = p->sibling` of `updateElt`; returns the
final `p`. -/
def scan : Nat → Mem α → Option Nat → Nat → Option Nat
  | 0, _, _, _ => none
  | _ + 1, _, none, _ => none
  | fuel + 1, m, some p, node =>
    match m.cells p with
    | none => none
    | some np => if np.sibling = some node then some p else scan fuel m np.sibling node

/-- Member function `updateElt(node, new_value)`. -/
def updateElt (lt : α → α → Bool) (m : Mem α) (q : PairingPQ) (node : Nat) (new_value : α) :
    Option (Mem α × PairingPQ) :=
  (setElt m node new_value).bind fun m1 =>
  match m1.cells node with
  | none => none
  | some nd =>
    match nd.parent with
    | none => none
    | some par =>
      match m1.cells par with
      | none => none
      | some pn =>
        if lt pn.elt new_value then
          if pn.child = some node then
            (setChild m1 par nd.sibling).bind fun m2 =>
            (setSibling m2 node none).bind fun m3 =>
            (setParent m3 node none).bind fun m4 =>
            (meld lt m4 q.root (some node)).bind fun r =>
            some (r.1, ⟨r.2, q.num_nodes⟩)
          else
            (scan q.num_nodes m1 pn.child node).bind fun p =>
            (setSibling m1 p nd.sibling).bind fun m2 =>
            (setSibling m2 node none).bind fun m3 =>
            (setParent m3 node none).bind fun m4 =>
            (meld lt m4 q.root (some node)).bind fun r =>
            some (r.1, ⟨r.2, q.num_nodes⟩)
        else some (m1, q)

/-- The deque step shared by the copy constructor, the destructor and
`updatePriorities`: `if (cp->child) dq.push_front(cp->child); if (cp->sibling)
dq.push_front(cp->sibling)`, applied to the deque left after `pop_front`. -/
def pushLinks (n : Node α) (dq : List (Option Nat)) : List (Option Nat) :=
  let dq1 := if n.child.isSome then n.child :: dq else dq
  if n.sibling.isSome then n.sibling :: dq1 else dq1

/-- The loop of `updatePriorities`; the last argument is the member `root`. -/
def updLoop (lt : α → α → Bool) :
    Nat → Mem α → List (Option Nat) → Option Nat → Option (Mem α × Option Nat)
  | _, m, [], root => some (m, root)
  | 0, _, _ :: _, _ => none
  | _ + 1, _, none :: _, _ => none
  | fuel + 1, m, some cp :: dq, root =>
    match m.cells cp with
    | none => none
    | some n =>
      (setChild m cp none).bind fun m1 =>
      (setSibling m1 cp none).bind fun m2 =>
      (setParent m2 cp none).bind fun m3 =>
      (meld lt m3 root (some cp)).bind fun r =>
      updLoop lt fuel r.1 (pushLinks n dq) r.2

/-- Member function `updatePriorities()`. -/
def updatePriorities (lt : α → α → Bool) (m : Mem α) (q : PairingPQ) :
    Option (Mem α × PairingPQ) :=
  (updLoop lt q.num_nodes m [q.root] none).bind fun r => some (r.1, ⟨r.2, q.num_nodes⟩)

/-- The loop of the copy constructor; the last argument is the object under
construction. -/
def copyLoop (lt : α → α → Bool) :
    Nat → Mem α → List (Option Nat) → PairingPQ → Option (Mem α × PairingPQ)
  | _, m, [], q => some (m, q)
  | 0, _, _ :: _, _ => none
  | _ + 1, _, none :: _, _ => none
  | fuel + 1, m, some cp :: dq, q =>
    match m.cells cp with
    | none => none
    | some n =>
      (push lt m q n.elt).bind fun r => copyLoop lt fuel r.1 (pushLinks n dq) r.2

/-- The copy constructor `PairingPQ(const PairingPQ &other)`. -/
def copy (lt : α → α → Bool) (m : Mem α) (other : PairingPQ) : Option (Mem α × PairingPQ) :=
  copyLoop lt other.num_nodes m [other.root] emptyPQ

/-- The range constructor: `push(*start)` for every element of the range. -/
def pushAll (lt : α → α → Bool) : Mem α → PairingPQ → List α → Option (Mem α × PairingPQ)
  | m, q, [] => some (m, q)
  | m, q, v :: vs => (push lt m q v).bind fun r => pushAll lt r.1 r.2 vs

/-- The comparator `std::less<int>`. -/
def intLess (a b : Int) : Bool := decide (a < b)

/-! ## Specification vocabulary -/

/-- The requirement on the comparator: a strict weak ordering. -/
structure StrictWeakOrder (lt : α → α → Bool) : Prop where
  irrefl : ∀ a, lt a a = false
  trans : ∀ a b c, lt a b = true → lt b c = true → lt a c = true
  incomp : ∀ a b c, lt a b = false → lt b a = false → lt b c = false → lt c b = false →
    lt a c = false

/-- One pointer hop: `b` is the child or the sibling of the live node `a`. -/
def Link (m : Mem α) (a b : Nat) : Prop :=
  ∃ n, m.cells a = some n ∧ (n.child = some b ∨ n.sibling = some b)

/-- The node at address `a` is reachable from `root` through child and sibling links. -/
def Live (m : Mem α) (q : PairingPQ) (a : Nat) : Prop :=
  ∃ r, q.root = some r ∧ Relation.ReflTransGen (Link m) r a

/-- Heap order read off the parent links: every live node other than the root has a
live parent whose element does not compare below the node's element. -/
def HeapOrder (lt : α → α → Bool) (m : Mem α) (q : PairingPQ) : Prop :=
  ∀ a, Live m q a → q.root ≠ some a →
    ∃ nd p pn, m.cells a = some nd ∧ nd.parent = some p ∧ m.cells p = some pn ∧
      lt pn.elt nd.elt = false

/-- The element stored at an address, when a node lives there. -/
def eltAt (m : Mem α) (a : Nat) : Option α := (m.cells a).map fun n => n.elt

/-- The traversal of the destructor and of the copy constructor, recording the address
and the element of every node it visits, in visiting order. -/
def walk : Nat → Mem α → List (Option Nat) → Option (List (Nat × α))
  | _, _, [] => some []
  | 0, _, _ :: _ => none
  | _ + 1, _, none :: _ => none
  | fuel + 1, m, some cp :: dq =>
    match m.cells cp with
    | none => none
    | some n => (walk fuel m (pushLinks n dq)).bind fun l => some ((cp, n.elt) :: l)

/-- The nodes of a heap with their elements, as the destructor visits them
(`if (root) ...`). -/
def contents (m : Mem α) (q : PairingPQ) : Option (List (Nat × α)) :=
  match q.root with
  | none => some []
  | some r => walk q.num_nodes m [some r]

/-- The elements stored in a heap, in traversal order. -/
def elements (m : Mem α) (q : PairingPQ) : Option (List α) :=
  (contents m q).map fun l => l.map Prod.snd

/-- The client loop `while (!pq.empty()) { out.push_back(pq.top()); pq.pop(); }`. -/
def drain (lt : α → α → Bool) : Nat → Mem α → PairingPQ → Option (List α × Mem α × PairingPQ)
  | fuel, m, q =>
    if empty q then some ([], m, q)
    else
      match fuel with
      | 0 => none
      | fuel + 1 =>
        (top m q).bind fun x =>
        (pop lt m q).bind fun r =>
        (drain lt fuel r.1 r.2).bind fun rest => some (x :: rest.1, rest.2)

/-- The calls a client can make on a heap. -/
inductive Op (α : Type) where
  | push (v : α) : Op α
  | pop : Op α
  | updateElt (h : Nat) (v : α) : Op α
  | updatePriorities : Op α

/-- Number of `push`/`addNode` calls in a history. -/
def pushes : List (Op α) → Nat
  | [] => 0
  | Op.push _ :: ops => pushes ops + 1
  | _ :: ops => pushes ops

/-- Number of `pop` calls in a history. -/
def pops : List (Op α) → Nat
  | [] => 0
  | Op.pop :: ops => pops ops + 1
  | _ :: ops => pops ops

/-- The heap states a client can reach from a freshly constructed empty heap while
respecting the preconditions: `pop` and `updatePriorities` on a non-empty heap,
`updateElt` on a live handle that is not the root, with a new value strictly more
extreme than the old one. The list is the history, most recent call first. -/
inductive Reach (lt : α → α → Bool) : List (Op α) → Mem α → PairingPQ → Prop where
  | init : Reach lt [] Mem.empty emptyPQ
  | push {ops m q m' q'} (v : α) : Reach lt ops m q → push lt m q v = some (m', q') →
      Reach lt (Op.push v :: ops) m' q'
  | pop {ops m q m' q'} : Reach lt ops m q → empty q = false → pop lt m q = some (m', q') →
      Reach lt (Op.pop :: ops) m' q'
  | updateElt {ops m q m' q'} (h : Nat) (v : α) (old : Node α) : Reach lt ops m q →
      Live m q h → q.root ≠ some h → m.cells h = some old → lt old.elt v = true →
      updateElt lt m q h v = some (m', q') → Reach lt (Op.updateElt h v :: ops) m' q'
  | updatePriorities {ops m q m' q'} : Reach lt ops m q → empty q = false →
      updatePriorities lt m q = some (m', q') → Reach lt (Op.updatePriorities :: ops) m' q'

/-! ## The tree a heap denotes -/

/-- A forest in child/sibling form, every node tagged with its address. -/
inductive BT (α : Type) where
  | nil : BT α
  | node (a : Nat) (e : α) (c s : BT α) : BT α

/-- Addresses of a forest, in traversal order (node, later siblings, children). -/
def BT.addrs : BT α → List Nat
  | nil => []
  | node a _ c s => a :: (s.addrs ++ c.addrs)

/-- Addresses with elements, in traversal order. -/
def BT.items : BT α → List (Nat × α)
  | nil => []
  | node a e c s => (a, e) :: (s.items ++ c.items)

/-- The roots of the trees of a forest, with their elements and child forests. -/
def BT.tops : BT α → List (Nat × α × BT α)
  | nil => []
  | node a e c s => (a, e, c) :: s.tops

/-- The store holds the forest `t` at pointer `p`, every tree root of `t` having parent
link `par`. -/
def Rep (m : Mem α) : Option Nat → Option Nat → BT α → Prop
  | p, _, BT.nil => p = none
  | p, par, BT.node a e c s =>
    p = some a ∧ ∃ cp sp, m.cells a = some ⟨e, cp, sp, par⟩ ∧ Rep m cp (some a) c ∧ Rep m sp par s

/-- A detached tree: node `a` holds `e`, its child list is the forest `c`, and its own
sibling and parent links are `sp` and `pp`. -/
def Det (m : Mem α) (a : Nat) (e : α) (c : BT α) (sp pp : Option Nat) : Prop :=
  ∃ cp, m.cells a = some ⟨e, cp, sp, pp⟩ ∧ Rep m cp (some a) c

/-- Every tree root of the forest does not compare above `pe`, recursively. -/
def Ord (lt : α → α → Bool) : α → BT α → Prop
  | _, BT.nil => True
  | pe, BT.node _ e c s => lt pe e = false ∧ Ord lt e c ∧ Ord lt pe s

/-- Addresses of a heap given as root address, root element and child forest. -/
def tAddrs : Option (Nat × α × BT α) → List Nat
  | none => []
  | some (r, _, c) => r :: c.addrs

/-- Addresses with elements of a heap. -/
def tItems : Option (Nat × α × BT α) → List (Nat × α)
  | none => []
  | some (r, e, c) => (r, e) :: c.items

/-- Heap order of a heap given as a tree. -/
def tOrd (lt : α → α → Bool) : Option (Nat × α × BT α) → Prop
  | none => True
  | some (_, e, c) => Ord lt e c

/-- The pointer `p` is the root of the heap `T`: `nullptr` for the empty heap, otherwise
a node without sibling whose child list is the forest of `T`. -/
def RootRep (m : Mem α) (p : Option Nat) : Option (Nat × α × BT α) → Prop
  | none => p = none
  | some (r, e, c) => p = some r ∧ ∃ pp, Det m r e c none pp

/-- The object `q` in store `m` denotes the tree `T`: the root has no sibling, no
address occurs twice, and `num_nodes` counts the nodes. -/
def Shape (m : Mem α) (q : PairingPQ) (T : Option (Nat × α × BT α)) : Prop :=
  RootRep m q.root T ∧ (tAddrs T).Nodup ∧ q.num_nodes = (tAddrs T).length

/-- Addresses from `next` on are unused. -/
def MemOK (m : Mem α) : Prop := ∀ a, m.next ≤ a → m.cells a = none

/-- Addresses of a list of detached trees. -/
def fAddrs : List (Nat × α × BT α) → List Nat
  | [] => []
  | f :: F => (f.1 :: f.2.2.addrs) ++ fAddrs F

/-- Addresses with elements of a list of detached trees. -/
def fItems : List (Nat × α × BT α) → List (Nat × α)
  | [] => []
  | f :: F => ((f.1, f.2.1) :: f.2.2.items) ++ fItems F

/-- The deque of `pop`: every entry is a detached tree, and the last entry has no
sibling. -/
def Forest (m : Mem α) (F : List (Nat × α × BT α)) : Prop :=
  (∀ f ∈ F, ∃ sp pp, Det m f.1 f.2.1 f.2.2 sp pp) ∧
  (∀ f, F.getLast? = some f → ∃ pp, Det m f.1 f.2.1 f.2.2 none pp)

/-- Addresses of a list of pending forests. -/
def pAddrs : List (BT α) → List Nat
  | [] => []
  | t :: P => t.addrs ++ pAddrs P

/-- Addresses with elements of a list of pending forests. -/
def pItems : List (BT α) → List (Nat × α)
  | [] => []
  | t :: P => t.items ++ pItems P

/-- Put a forest in front of the pending list unless it is empty. -/
def pcons : BT α → List (BT α) → List (BT α)
  | BT.nil, P => P
  | t, P => t :: P

/-- The deque of the traversals: every entry points to a non-empty forest still to be
visited. -/
def Pending (m : Mem α) : List (Option Nat) → List (BT α) → Prop
  | [], [] => True
  | p :: dq, t :: P => t ≠ BT.nil ∧ (∃ par, Rep m p par t) ∧ Pending m dq P
  | _, _ => False

/-- Overwrite the element recorded for address `n`. -/
def BT.setElt (n : Nat) (v : α) : BT α → BT α
  | nil => nil
  | node a e c s => node a (if a = n then v else e) (c.setElt n v) (s.setElt n v)

/-- Cut the tree rooted at address `n` out of a forest; its later siblings take its
place. -/
def BT.remove (n : Nat) : BT α → BT α
  | nil => nil
  | node a e c s => if a = n then s else node a e (c.remove n) (s.remove n)

/-- The element and the child forest of the node at address `n`. -/
def BT.find (n : Nat) : BT α → Option (α × BT α)
  | nil => none
  | node a e c s => if a = n then some (e, c) else (s.find n).orElse fun _ => c.find n

/-- Addresses of the tree roots of a forest. -/
def BT.topAddrs : BT α → List Nat
  | nil => []
  | node a _ _ s => a :: s.topAddrs

/-- The detachment step of `updateElt`, both branches: the parent's `child` link or the
predecessor's `sibling` link takes over `node->sibling`. -/
def unlink (fuel : Nat) (m : Mem α) (node : Nat) : Option (Mem α) :=
  match m.cells node with
  | none => none
  | some nd =>
    match nd.parent with
    | none => none
    | some par =>
      match m.cells par with
      | none => none
      | some pn =>
        if pn.child = some node then setChild m par nd.sibling
        else (scan fuel m pn.child node).bind fun p => setSibling m p nd.sibling

/-- Structural well-formedness, whatever the elements are: the nodes reachable from `root`
form one tree (no node twice, sibling chains ending in `nullptr`, accurate parent links
below the root, a root without sibling), `num_nodes` counts them, and no node lives at or
above the allocation mark. -/
def WellFormed (m : Mem α) (q : PairingPQ) : Prop :=
  MemOK m ∧ ∃ T, Shape m q T

/-- The parent link of the root, when set, is stale: it points to a deleted node. -/
def RootDead (m : Mem α) (q : PairingPQ) : Prop :=
  ∀ r nd x, q.root = some r → m.cells r = some nd → nd.parent = some x →
    m.cells x = none ∧ x < m.next

/-- Every element of the store overwritten from outside: the node at address `a` now holds
`f a`; links are untouched. -/
def overwrite (f : Nat → α) (m : Mem α) : Mem α :=
  ⟨fun a => (m.cells a).map fun n => ⟨f a, n.child, n.sibling, n.parent⟩, m.next⟩

/-- The forest with every element replaced by the value `f` gives its address. -/
def BT.retag (f : Nat → α) : BT α → BT α
  | nil => nil
  | node a _ c s => node a (f a) (c.retag f) (s.retag f)

/-- Any number of later `push` and `pop` calls on a heap, `pop` only when non-empty. -/
inductive Later (lt : α → α → Bool) : Mem α → PairingPQ → Mem α → PairingPQ → Prop where
  | refl {m b} : Later lt m b m b
  | push {m b m1 b1 m2 b2} (v : α) : Later lt m b m1 b1 → push lt m1 b1 v = some (m2, b2) →
      Later lt m b m2 b2
  | pop {m b m1 b1 m2 b2} : Later lt m b m1 b1 → empty b1 = false →
      pop lt m1 b1 = some (m2, b2) → Later lt m b m2 b2

/-! ## Concrete heaps over `std::less<int>` used as test cases -/

/-- After `push(5)` on the empty heap. -/
def exA1 : Mem Int × PairingPQ := (push intLess Mem.empty emptyPQ 5).get (by decide)

/-- After `push(5); push(1)`. -/
def exA2 : Mem Int × PairingPQ := (push intLess exA1.1 exA1.2 1).get (by decide)

/-- After `push(5); push(1); push(9)`. -/
def exA3 : Mem Int × PairingPQ := (push intLess exA2.1 exA2.2 9).get (by decide)

/-- After `push(5); push(1); push(9); push(3)`. -/
def exA4 : Mem Int × PairingPQ := (push intLess exA3.1 exA3.2 3).get (by decide)

/-- After `push(10)`; the handle returned is address `0`. -/
def exB1 : Mem Int × PairingPQ := (push intLess Mem.empty emptyPQ 10).get (by decide)

/-- After `push(10); push(20)`; the handle of `10` is address `0`, the root is address `1`. -/
def exB2 : Mem Int × PairingPQ := (push intLess exB1.1 exB1.2 20).get (by decide)

/-- One hop along a sibling link. -/
def SibLink (m : Mem α) (a b : Nat) : Prop :=
  ∃ n, m.cells a = some n ∧ n.sibling = some b

/-- The node `n` occurs in the sibling chain that starts at `p->child`. -/
def ChildOf (m : Mem α) (p n : Nat) : Prop :=
  ∃ np c, m.cells p = some np ∧ np.child = some c ∧ Relation.ReflTransGen (SibLink m) c n

/-- The node `a` belongs to the tree below `r`: it is `r` itself or is reached from
`r->child` through child and sibling links (the sibling link of `r` is not followed). -/
def InTree (m : Mem α) (r a : Nat) : Prop :=
  a = r ∨ ∃ nd c, m.cells r = some nd ∧ nd.child = some c ∧
    Relation.ReflTransGen (Link m) c a

/-- Two detached single nodes: `10` at address `0`, `20` at address `1`. -/
def exM : Mem Int :=
  (Mem.write (Mem.write ⟨fun _ => none, 2⟩ 0 ⟨10, none, none, none⟩) 1 ⟨20, none, none, none⟩)

/-- Two detached single nodes holding the same value `10`, at addresses `0` and `1`. -/
def exTie : Mem Int :=
  (Mem.write (Mem.write ⟨fun _ => none, 2⟩ 0 ⟨10, none, none, none⟩) 1 ⟨10, none, none, none⟩)


/-- The heap states reached from a freshly constructed empty heap by any calls that have a
defined result, whatever their arguments. -/
inductive ReachAny (lt : α → α → Bool) : Mem α → PairingPQ → Prop where
  | init : ReachAny lt Mem.empty emptyPQ
  | push {m q m' q'} (v : α) : ReachAny lt m q → push lt m q v = some (m', q') →
      ReachAny lt m' q'
  | pop {m q m' q'} : ReachAny lt m q → pop lt m q = some (m', q') → ReachAny lt m' q'
  | updateElt {m q m' q'} (h : Nat) (v : α) : ReachAny lt m q →
      updateElt lt m q h v = some (m', q') → ReachAny lt m' q'
  | updatePriorities {m q m' q'} : ReachAny lt m q →
      updatePriorities lt m q = some (m', q') → ReachAny lt m' q'

/-- The states of `ReachAny` together with the history of the calls made, most recent
call first. -/
inductive RunAny (lt : α → α → Bool) : List (Op α) → Mem α → PairingPQ → Prop where
  | init : RunAny lt [] Mem.empty emptyPQ
  | push {ops m q m' q'} (v : α) : RunAny lt ops m q → push lt m q v = some (m', q') →
      RunAny lt (Op.push v :: ops) m' q'
  | pop {ops m q m' q'} : RunAny lt ops m q → pop lt m q = some (m', q') →
      RunAny lt (Op.pop :: ops) m' q'
  | updateElt {ops m q m' q'} (h : Nat) (v : α) : RunAny lt ops m q →
      updateElt lt m q h v = some (m', q') → RunAny lt (Op.updateElt h v :: ops) m' q'
  | updatePriorities {ops m q m' q'} : RunAny lt ops m q →
      updatePriorities lt m q = some (m', q') → RunAny lt (Op.updatePriorities :: ops) m' q'

/-- After `push(5); push(1); push(9); updateElt(h, -7)` with `h` the handle of `5`
(address `0`): the new value is less extreme than the old one, the call completes, and
the child holding `1` now sits below a node holding `-7`. -/
def exC1 : Mem Int × PairingPQ := (updateElt intLess exA3.1 exA3.2 0 (-7)).get (by decide)

/-- After `push(5); push(1); push(9); updateElt(h, -7); push(7)`. -/
def exC2 : Mem Int × PairingPQ := (push intLess exC1.1 exC1.2 7).get (by decide)
/-! ## Store lemmas -/

@[simp]
theorem write_cells (m : Mem α) (a : Nat) (n : Node α) (x : Nat) :
    (m.write a n).cells x = if x = a then some n else m.cells x := rfl

@[simp]
theorem write_next (m : Mem α) (a : Nat) (n : Node α) : (m.write a n).next = m.next := rfl

@[simp]
theorem free_cells (m : Mem α) (a x : Nat) :
    (m.free a).cells x = if x = a then none else m.cells x := rfl

@[simp]
theorem free_next (m : Mem α) (a : Nat) : (m.free a).next = m.next := rfl

theorem setElt_some {m : Mem α} {a : Nat} {n : Node α} (h : m.cells a = some n) (v : α) :
    setElt m a v = some (m.write a ⟨v, n.child, n.sibling, n.parent⟩) := by
  simp [setElt, h]

theorem setChild_some {m : Mem α} {a : Nat} {n : Node α} (h : m.cells a = some n)
    (c : Option Nat) : setChild m a c = some (m.write a ⟨n.elt, c, n.sibling, n.parent⟩) := by
  simp [setChild, h]

theorem setSibling_some {m : Mem α} {a : Nat} {n : Node α} (h : m.cells a = some n)
    (s : Option Nat) : setSibling m a s = some (m.write a ⟨n.elt, n.child, s, n.parent⟩) := by
  simp [setSibling, h]

theorem setParent_some {m : Mem α} {a : Nat} {n : Node α} (h : m.cells a = some n)
    (p : Option Nat) : setParent m a p = some (m.write a ⟨n.elt, n.child, n.sibling, p⟩) := by
  simp [setParent, h]

/-! ## Ordering lemmas -/

theorem StrictWeakOrder.asymm {lt : α → α → Bool} (hlt : StrictWeakOrder lt) {a b : α}
    (h : lt a b = true) : lt b a = false := by
  cases hba : lt b a with
  | false => rfl
  | true =>
    have := hlt.trans a b a h hba
    rw [hlt.irrefl a] at this
    exact absurd this (by simp)

/-- Negative transitivity: "not below" composes. -/
theorem StrictWeakOrder.not_lt_trans {lt : α → α → Bool} (hlt : StrictWeakOrder lt) {a b c : α}
    (hab : lt a b = false) (hbc : lt b c = false) : lt a c = false := by
  cases hac : lt a c with
  | false => rfl
  | true =>
    cases hba : lt b a with
    | true =>
      have := hlt.trans b a c hba hac
      rw [hbc] at this
      exact absurd this (by simp)
    | false =>
      cases hcb : lt c b with
      | true =>
        have := hlt.trans a c b hac hcb
        rw [hab] at this
        exact absurd this (by simp)
      | false =>
        have := hlt.incomp a b c hab hba hbc hcb
        rw [hac] at this
        exact absurd this (by simp)

theorem intLess_strictWeakOrder : StrictWeakOrder intLess := by
  refine ⟨?_, ?_, ?_⟩
  · intro a; simp [intLess]
  · intro a b c; simp only [intLess, decide_eq_true_eq]; omega
  · intro a b c; simp only [intLess, decide_eq_false_iff_not]; omega

/-! ## Forests in the store -/

@[simp]
theorem addrs_nil : (BT.nil : BT α).addrs = [] := rfl

@[simp]
theorem addrs_node (a : Nat) (e : α) (c s : BT α) :
    (BT.node a e c s).addrs = a :: (s.addrs ++ c.addrs) := rfl

@[simp]
theorem items_nil : (BT.nil : BT α).items = [] := rfl

@[simp]
theorem items_node (a : Nat) (e : α) (c s : BT α) :
    (BT.node a e c s).items = (a, e) :: (s.items ++ c.items) := rfl

theorem items_fst (t : BT α) : t.items.map Prod.fst = t.addrs := by
  induction t with
  | nil => rfl
  | node a e c s ihc ihs => simp [ihc, ihs]

@[simp]
theorem rep_nil (m : Mem α) (p par : Option Nat) : Rep m p par BT.nil ↔ p = none := by
  simp [Rep]

theorem rep_node (m : Mem α) (p par : Option Nat) (a : Nat) (e : α) (c s : BT α) :
    Rep m p par (BT.node a e c s) ↔
      p = some a ∧ ∃ cp sp, m.cells a = some ⟨e, cp, sp, par⟩ ∧ Rep m cp (some a) c ∧
        Rep m sp par s := by
  simp [Rep]

/-- Frame rule: a forest only depends on the cells at its own addresses. -/
theorem rep_frame {m m' : Mem α} {t : BT α} : ∀ {p par : Option Nat},
    (∀ x ∈ t.addrs, m'.cells x = m.cells x) → Rep m p par t → Rep m' p par t := by
  induction t with
  | nil => intro p par _ h; simpa using h
  | node a e c s ihc ihs =>
    intro p par hfr h
    rw [rep_node] at h ⊢
    obtain ⟨hp, cp, sp, hc, hrc, hrs⟩ := h
    refine ⟨hp, cp, sp, ?_, ihc (fun x hx => hfr x (by simp [hx])) hrc,
      ihs (fun x hx => hfr x (by simp [hx])) hrs⟩
    rw [hfr a (by simp), hc]

/-- Every address of a represented forest holds a live node. -/
theorem rep_live {m : Mem α} {t : BT α} : ∀ {p par : Option Nat}, Rep m p par t →
    ∀ x ∈ t.addrs, ∃ n, m.cells x = some n := by
  induction t with
  | nil => intro p par _ x hx; simp at hx
  | node a e c s ihc ihs =>
    intro p par h x hx
    rw [rep_node] at h
    obtain ⟨_, cp, sp, hc, hrc, hrs⟩ := h
    simp only [addrs_node, List.mem_cons, List.mem_append] at hx
    rcases hx with rfl | hx | hx
    · exact ⟨_, hc⟩
    · exact ihs hrs x hx
    · exact ihc hrc x hx

/-- The element found in the store at an address of a represented forest is the one the
forest records. -/
theorem rep_items {m : Mem α} {t : BT α} : ∀ {p par : Option Nat}, Rep m p par t →
    ∀ x e, (x, e) ∈ t.items → eltAt m x = some e := by
  induction t with
  | nil => intro p par _ x e hx; simp at hx
  | node a e c s ihc ihs =>
    intro p par h x e' hx
    rw [rep_node] at h
    obtain ⟨_, cp, sp, hc, hrc, hrs⟩ := h
    simp only [items_node, List.mem_cons, List.mem_append, Prod.mk.injEq] at hx
    rcases hx with ⟨rfl, rfl⟩ | hx | hx
    · simp [eltAt, hc]
    · exact ihs hrs x e' hx
    · exact ihc hrc x e' hx

@[simp]
theorem topAddrs_nil : (BT.nil : BT α).topAddrs = [] := rfl

@[simp]
theorem topAddrs_node (a : Nat) (e : α) (c s : BT α) :
    (BT.node a e c s).topAddrs = a :: s.topAddrs := rfl

theorem rep_top_parent {m : Mem α} {n : Nat} {t : BT α} : ∀ {p par : Option Nat},
    Rep m p par t → n ∈ t.topAddrs → ∃ nd, m.cells n = some nd ∧ nd.parent = par := by
  induction t with
  | nil => intro p par _ h; simp at h
  | node a e c s ihc ihs =>
    intro p par h hn
    rw [rep_node] at h
    obtain ⟨hp, cp, sp, hc, hrc, hrs⟩ := h
    simp only [topAddrs_node, List.mem_cons] at hn
    rcases hn with rfl | hn
    · exact ⟨_, hc, rfl⟩
    · exact ihs hrs hn

/-! ## meld -/

theorem meld_eval_lt {lt : α → α → Bool} {m : Mem α} {a b : Nat} {na nb : Node α}
    (ha : m.cells a = some na) (hb : m.cells b = some nb) (hab : a ≠ b)
    (h : lt na.elt nb.elt = true) :
    meld lt m (some a) (some b) =
      some (((m.write a ⟨na.elt, na.child, nb.child, na.parent⟩).write b
        ⟨nb.elt, some a, nb.sibling, nb.parent⟩).write a
        ⟨na.elt, na.child, nb.child, some b⟩, some b) := by
  have hba : b ≠ a := Ne.symm hab
  simp [meld, ha, hb, h, setSibling, setChild, setParent, hab, hba]

theorem meld_eval_ge {lt : α → α → Bool} {m : Mem α} {a b : Nat} {na nb : Node α}
    (ha : m.cells a = some na) (hb : m.cells b = some nb) (hab : a ≠ b)
    (h : lt na.elt nb.elt = false) :
    meld lt m (some a) (some b) =
      some (((m.write b ⟨nb.elt, nb.child, na.child, nb.parent⟩).write a
        ⟨na.elt, some b, na.sibling, na.parent⟩).write b
        ⟨nb.elt, nb.child, na.child, some a⟩, some a) := by
  have hba : b ≠ a := Ne.symm hab
  simp [meld, ha, hb, h, setSibling, setChild, setParent, hab, hba]

/-- Melding two detached trees with disjoint address sets: the loser becomes the first
child of the winner, nothing else changes. -/
theorem meld_det (lt : α → α → Bool) {m : Mem α} {a b : Nat} {ea eb : α} {ca cb : BT α}
    {sa pa sb pb : Option Nat}
    (hA : Det m a ea ca sa pa) (hB : Det m b eb cb sb pb) (hab : a ≠ b)
    (haA : a ∉ ca.addrs) (haB : a ∉ cb.addrs) (hbA : b ∉ ca.addrs) (hbB : b ∉ cb.addrs) :
    ∃ m', meld lt m (some a) (some b) = some (m', some (if lt ea eb = true then b else a)) ∧
      (lt ea eb = true → Det m' b eb (BT.node a ea ca cb) sb pb) ∧
      (lt ea eb = false → Det m' a ea (BT.node b eb cb ca) sa pa) ∧
      (∀ x, x ≠ a → x ≠ b → m'.cells x = m.cells x) ∧ m'.next = m.next ∧
      (∀ x, eltAt m' x = eltAt m x) := by
  obtain ⟨cpa, hca, hra⟩ := hA
  obtain ⟨cpb, hcb, hrb⟩ := hB
  have hba : b ≠ a := Ne.symm hab
  cases h : lt ea eb with
  | true =>
    refine ⟨((m.write a ⟨ea, cpa, cpb, pa⟩).write b ⟨eb, some a, sb, pb⟩).write a
      ⟨ea, cpa, cpb, some b⟩, ?_, ?_, ?_, ?_, ?_, ?_⟩
    · rw [meld_eval_lt hca hcb hab h]; simp
    · intro _
      refine ⟨some a, by simp [hba], ?_⟩
      rw [rep_node]
      refine ⟨rfl, cpa, cpb, by simp, ?_, ?_⟩
      · refine rep_frame (fun x hx => ?_) hra
        have h1 : x ≠ a := fun h => haA (h ▸ hx)
        have h2 : x ≠ b := fun h => hbA (h ▸ hx)
        simp [h1, h2]
      · refine rep_frame (fun x hx => ?_) hrb
        have h1 : x ≠ a := fun h => haB (h ▸ hx)
        have h2 : x ≠ b := fun h => hbB (h ▸ hx)
        simp [h1, h2]
    · intro h'; simp at h'
    · intro x h1 h2; simp [h1, h2]
    · rfl
    · intro x
      by_cases h1 : x = a
      · subst h1; simp [eltAt, hca]
      · by_cases h2 : x = b
        · subst h2; simp [eltAt, hcb, h1]
        · simp [eltAt, h1, h2]
  | false =>
    refine ⟨((m.write b ⟨eb, cpb, cpa, pb⟩).write a ⟨ea, some b, sa, pa⟩).write b
      ⟨eb, cpb, cpa, some a⟩, ?_, ?_, ?_, ?_, ?_, ?_⟩
    · rw [meld_eval_ge hca hcb hab h]; simp
    · intro h'; simp at h'
    · intro _
      refine ⟨some b, by simp [hab], ?_⟩
      rw [rep_node]
      refine ⟨rfl, cpb, cpa, by simp, ?_, ?_⟩
      · refine rep_frame (fun x hx => ?_) hrb
        have h1 : x ≠ a := fun h => haB (h ▸ hx)
        have h2 : x ≠ b := fun h => hbB (h ▸ hx)
        simp [h1, h2]
      · refine rep_frame (fun x hx => ?_) hra
        have h1 : x ≠ a := fun h => haA (h ▸ hx)
        have h2 : x ≠ b := fun h => hbA (h ▸ hx)
        simp [h1, h2]
    · intro x h1 h2; simp [h1, h2]
    · rfl
    · intro x
      by_cases h1 : x = a
      · subst h1; simp [eltAt, hca, hab]
      · by_cases h2 : x = b
        · subst h2; simp [eltAt, hcb, h1]
        · simp [eltAt, h1, h2]
/-! ## Heaps as trees, push -/

@[simp]
theorem tAddrs_none : tAddrs (none : Option (Nat × α × BT α)) = [] := rfl

@[simp]
theorem tAddrs_some (r : Nat) (e : α) (c : BT α) :
    tAddrs (some (r, e, c)) = r :: c.addrs := rfl

@[simp]
theorem tItems_none : tItems (none : Option (Nat × α × BT α)) = [] := rfl

@[simp]
theorem tItems_some (r : Nat) (e : α) (c : BT α) :
    tItems (some (r, e, c)) = (r, e) :: c.items := rfl

theorem tItems_fst (T : Option (Nat × α × BT α)) : (tItems T).map Prod.fst = tAddrs T := by
  rcases T with _ | ⟨r, e, c⟩
  · rfl
  · simp [items_fst]

theorem ord_items {lt : α → α → Bool} (hlt : StrictWeakOrder lt) {t : BT α} :
    ∀ {pe : α}, Ord lt pe t → ∀ x ∈ t.items, lt pe x.2 = false := by
  induction t with
  | nil => intro pe _ x hx; simp at hx
  | node a e c s ihc ihs =>
    intro pe h x hx
    obtain ⟨h1, h2, h3⟩ := h
    simp only [items_node, List.mem_cons, List.mem_append] at hx
    rcases hx with rfl | hx | hx
    · exact h1
    · exact ihs h3 x hx
    · exact hlt.not_lt_trans h1 (ihc h2 x hx)

/-- Melding the root of a heap with a detached tree that shares no address with it. -/
theorem meld_root (lt : α → α → Bool) {m : Mem α} {p : Option Nat}
    {T : Option (Nat × α × BT α)} {b : Nat} {eb : α} {cb : BT α} {pb : Option Nat}
    (hT : RootRep m p T) (hB : Det m b eb cb none pb) (hnd : (tAddrs T).Nodup)
    (hb : b ∉ tAddrs T) (hbB : b ∉ cb.addrs) (hdisj : ∀ x ∈ tAddrs T, x ∉ cb.addrs) :
    ∃ m' r e c, meld lt m p (some b) = some (m', some r) ∧ RootRep m' (some r) (some (r, e, c)) ∧
      (tItems (some (r, e, c))).Perm ((b, eb) :: (cb.items ++ tItems T)) ∧
      (StrictWeakOrder lt → tOrd lt T → Ord lt eb cb → Ord lt e c) ∧
      (∀ x, some x ≠ p → x ≠ b → m'.cells x = m.cells x) ∧ m'.next = m.next ∧
      (∀ x, eltAt m' x = eltAt m x) ∧
      (∀ nw, m'.cells r = some nw →
        nw.parent = pb ∨ ∃ a na, p = some a ∧ m.cells a = some na ∧ nw.parent = na.parent) := by
  rcases T with _ | ⟨a, ea, ca⟩
  · have hp : p = none := hT
    subst hp
    refine ⟨m, b, eb, cb, by simp [meld], ⟨rfl, pb, hB⟩, by simp, fun _ _ h => h,
      fun _ _ _ => rfl, rfl, fun _ => rfl, ?_⟩
    intro nw hnw
    obtain ⟨cp, hcb, _⟩ := hB
    rw [hcb] at hnw
    cases hnw
    exact Or.inl rfl
  · obtain ⟨hp, pa, hA⟩ := hT
    subst hp
    simp only [tAddrs_some, List.nodup_cons, List.mem_cons, not_or] at hnd hb hdisj
    have hab : a ≠ b := fun h => hb.1 h.symm
    obtain ⟨m', hm, h1, h2, hfr, hnext, helt⟩ :=
      meld_det lt hA hB hab hnd.1 (hdisj a (Or.inl rfl)) hb.2 hbB
    cases h : lt ea eb with
    | true =>
      refine ⟨m', b, eb, BT.node a ea ca cb, by simpa [h] using hm, ⟨rfl, pb, h1 h⟩, ?_, ?_,
        fun x hx hxb => hfr x (fun hxa => hx (by rw [hxa])) hxb, hnext, helt, ?_⟩
      rotate_left 2
      · intro nw hnw
        obtain ⟨cp, hcb', _⟩ := h1 h
        rw [hcb'] at hnw
        cases hnw
        exact Or.inl rfl
      · simp only [tItems_some, items_node]
        refine List.Perm.cons _ ?_
        exact List.perm_middle.symm
      · intro hlt hO hOb
        exact ⟨hlt.asymm h, hO, hOb⟩
    | false =>
      refine ⟨m', a, ea, BT.node b eb cb ca, by simpa [h] using hm, ⟨rfl, pa, h2 h⟩, ?_, ?_,
        fun x hx hxb => hfr x (fun hxa => hx (by rw [hxa])) hxb, hnext, helt, ?_⟩
      rotate_left 2
      · intro nw hnw
        obtain ⟨cp, hca', _⟩ := h2 h
        rw [hca'] at hnw
        cases hnw
        obtain ⟨cpa, hca, _⟩ := hA
        exact Or.inr ⟨a, _, rfl, hca, rfl⟩
      · simp only [tItems_some, items_node]
        refine (List.Perm.swap _ _ _).trans (List.Perm.cons _ ?_)
        exact (List.Perm.cons _ List.perm_append_comm).trans List.perm_middle.symm
      · intro _ hO hOb
        exact ⟨h, hOb, hO⟩

theorem shape_mk {m : Mem α} {q : PairingPQ} {T : Option (Nat × α × BT α)}
    (h1 : RootRep m q.root T) (h2 : (tAddrs T).Nodup) (h3 : q.num_nodes = (tAddrs T).length) :
    Shape m q T := ⟨h1, h2, h3⟩

theorem rootRep_root_mem {m : Mem α} {a : Nat} {T : Option (Nat × α × BT α)}
    (h : RootRep m (some a) T) : a ∈ tAddrs T := by
  rcases T with _ | ⟨r, e, c⟩
  · exact absurd h (by simp [RootRep])
  · obtain ⟨hp, _⟩ := h
    simp only [Option.some.injEq] at hp
    simp [hp]

/-- Addresses of a heap are below the allocation mark. -/
theorem shape_lt_next {m : Mem α} {p : Option Nat} {T : Option (Nat × α × BT α)}
    (hm : MemOK m) (hT : RootRep m p T) : ∀ x ∈ tAddrs T, x < m.next := by
  intro x hx
  by_contra hge
  have hnone := hm x (by omega)
  rcases T with _ | ⟨r, e, c⟩
  · simp at hx
  · obtain ⟨_, pp, cp, hc, hr⟩ := hT
    simp only [tAddrs_some, List.mem_cons] at hx
    rcases hx with rfl | hx
    · rw [hc] at hnone; exact absurd hnone (by simp)
    · obtain ⟨n, hn⟩ := rep_live hr x hx
      rw [hn] at hnone; exact absurd hnone (by simp)

/-- The effect of `push` on a well-formed heap. -/
theorem push_spec (lt : α → α → Bool) {m : Mem α} {q : PairingPQ}
    {T : Option (Nat × α × BT α)} (hm : MemOK m) (hT : Shape m q T) (v : α) :
    ∃ m' q' T', push lt m q v = some (m', q') ∧ addNode lt m q v = some (m', q', m.next) ∧
      Shape m' q' T' ∧ MemOK m' ∧
      (tItems T').Perm ((m.next, v) :: tItems T) ∧
      (StrictWeakOrder lt → tOrd lt T → tOrd lt T') ∧
      (∀ x, some x ≠ q.root → x ≠ m.next → m'.cells x = m.cells x) ∧
      m'.next = m.next + 1 ∧ (∀ x, x ≠ m.next → eltAt m' x = eltAt m x) ∧
      q'.root ≠ none ∧ q'.num_nodes = q.num_nodes + 1 ∧ (RootDead m q → RootDead m' q') := by
  obtain ⟨hR, hnd, hcount⟩ := hT
  have hfresh : m.next ∉ tAddrs T := fun h => by
    have := shape_lt_next hm hR _ h
    omega
  let m1 : Mem α := ⟨fun x => if x = m.next then some ⟨v, none, none, none⟩ else m.cells x,
    m.next + 1⟩
  have hfr1 : ∀ x, x ≠ m.next → m1.cells x = m.cells x := fun x hx => by simp [m1, hx]
  have hR1 : RootRep m1 q.root T := by
    rcases T with _ | ⟨r, e, c⟩
    · exact hR
    · obtain ⟨hp, pp, cp, hc, hr⟩ := hR
      simp only [tAddrs_some, List.mem_cons, not_or] at hfresh
      refine ⟨hp, pp, cp, ?_, rep_frame (fun x hx => hfr1 x (fun h => hfresh.2 (h ▸ hx))) hr⟩
      rw [hfr1 r (Ne.symm hfresh.1), hc]
  have hB : Det m1 m.next v BT.nil none none := ⟨none, by simp [m1], by simp⟩
  obtain ⟨m', r, e, c, hmeld, hR', hperm, hord, hfr, hnext, helt, hpar⟩ :=
    meld_root lt hR1 hB hnd hfresh (by simp) (by simp)
  have hadd : addNode lt m q v = some (m', ⟨some r, q.num_nodes + 1⟩, m.next) := by
    simp only [addNode]
    rw [hmeld]; rfl
  have hpermA : (tAddrs (some (r, e, c))).Perm (m.next :: tAddrs T) := by
    have := hperm.map Prod.fst
    simpa [tItems_fst, items_fst] using this
  refine ⟨m', ⟨some r, q.num_nodes + 1⟩, some (r, e, c), by simp [push, hadd], hadd,
    ⟨hR', ?_, ?_⟩, ?_, by simpa using hperm, fun hlt h => hord hlt h trivial, ?_, hnext, ?_,
    by simp, rfl, ?_⟩
  · exact hpermA.nodup_iff.mpr (List.nodup_cons.mpr ⟨hfresh, hnd⟩)
  · simp only [hpermA.length_eq, List.length_cons, hcount]
  · intro a ha
    rw [hnext] at ha
    have ha2 : m.next + 1 ≤ a := ha
    have ha' : a ≠ m.next := by omega
    by_cases har : some a = q.root
    · have := shape_lt_next hm hR a (rootRep_root_mem (har ▸ hR))
      omega
    · rw [hfr a har ha', hfr1 a ha']; exact hm a (by omega)
  · intro x hx hxn
    rw [hfr x hx hxn, hfr1 x hxn]
  · intro x hx
    rw [helt x]; simp [eltAt, m1, hx]
  · intro hdead r' nw x hr' hnw hx
    simp only [Option.some.injEq] at hr'
    subst hr'
    rcases hpar nw hnw with h | ⟨a, na, ha, hna, h⟩
    · rw [h] at hx
      cases hx
    · rw [h] at hx
      have han : a ≠ m.next := fun h' => hfresh (h' ▸ rootRep_root_mem (ha ▸ hR))
      rw [hfr1 a han] at hna
      obtain ⟨hx1, hx2⟩ := hdead a na x ha hna hx
      have hxn : x ≠ m.next := by omega
      have hxa : some x ≠ q.root := by
        intro h'
        rw [ha] at h'
        cases h'
        rw [hna] at hx1
        cases hx1
      rw [hfr x hxa hxn, hfr1 x hxn]
      exact ⟨hx1, by rw [hnext]; simp only [m1]; omega⟩
/-! ## pop -/

theorem det_frame {m m' : Mem α} {a : Nat} {e : α} {c : BT α} {sp pp : Option Nat}
    (ha : m'.cells a = m.cells a) (hc : ∀ x ∈ c.addrs, m'.cells x = m.cells x)
    (h : Det m a e c sp pp) : Det m' a e c sp pp := by
  obtain ⟨cp, h1, h2⟩ := h
  exact ⟨cp, by rw [ha, h1], rep_frame hc h2⟩

/-- The statements `p->sibling = nullptr; p->parent = nullptr` on a detached tree. -/
theorem clear_det {m : Mem α} {a : Nat} {e : α} {c : BT α} {sp pp : Option Nat}
    (h : Det m a e c sp pp) (hac : a ∉ c.addrs) :
    ∃ m1 m', setSibling m a none = some m1 ∧ setParent m1 a none = some m' ∧
      Det m' a e c none none ∧ (∀ x, x ≠ a → m'.cells x = m.cells x) ∧ m'.next = m.next ∧
      (∀ x, eltAt m' x = eltAt m x) := by
  obtain ⟨cp, h1, h2⟩ := h
  refine ⟨m.write a ⟨e, cp, none, pp⟩, (m.write a ⟨e, cp, none, pp⟩).write a ⟨e, cp, none, none⟩,
    ?_, ?_, ?_, ?_, rfl, ?_⟩
  · simp [setSibling, h1]
  · simp [setParent]
  · refine ⟨cp, by simp, rep_frame (fun x hx => ?_) h2⟩
    have : x ≠ a := fun h => hac (h ▸ hx)
    simp [this]
  · intro x hx; simp [hx]
  · intro x
    by_cases hx : x = a
    · subst hx; simp [eltAt, h1]
    · simp [eltAt, hx]

@[simp]
theorem fAddrs_nil : fAddrs ([] : List (Nat × α × BT α)) = [] := rfl

@[simp]
theorem fAddrs_cons (f : Nat × α × BT α) (F : List (Nat × α × BT α)) :
    fAddrs (f :: F) = f.1 :: (f.2.2.addrs ++ fAddrs F) := rfl

@[simp]
theorem fItems_nil : fItems ([] : List (Nat × α × BT α)) = [] := rfl

@[simp]
theorem fItems_cons (f : Nat × α × BT α) (F : List (Nat × α × BT α)) :
    fItems (f :: F) = (f.1, f.2.1) :: (f.2.2.items ++ fItems F) := rfl

theorem fAddrs_append (F G : List (Nat × α × BT α)) : fAddrs (F ++ G) = fAddrs F ++ fAddrs G := by
  induction F with
  | nil => rfl
  | cons f F ih => simp [ih]

theorem fItems_append (F G : List (Nat × α × BT α)) : fItems (F ++ G) = fItems F ++ fItems G := by
  induction F with
  | nil => rfl
  | cons f F ih => simp [ih]

theorem fItems_fst (F : List (Nat × α × BT α)) : (fItems F).map Prod.fst = fAddrs F := by
  induction F with
  | nil => rfl
  | cons f F ih => simp [ih, items_fst]

theorem mem_fAddrs_of_mem {F : List (Nat × α × BT α)} {f : Nat × α × BT α} (hf : f ∈ F) :
    ∀ x, (x = f.1 ∨ x ∈ f.2.2.addrs) → x ∈ fAddrs F := by
  induction F with
  | nil => simp at hf
  | cons g F ih =>
    intro x hx
    simp only [List.mem_cons] at hf
    rcases hf with rfl | hf
    · simp only [fAddrs_cons, List.mem_cons, List.mem_append]
      rcases hx with h | h
      · exact Or.inl h
      · exact Or.inr (Or.inl h)
    · simp only [fAddrs_cons, List.mem_cons, List.mem_append]
      exact Or.inr (Or.inr (ih hf x hx))

/-- The sibling chain of a represented forest, as the deque `pop` builds. -/
theorem collect_rep {m : Mem α} {t : BT α} : ∀ {p par : Option Nat} {fuel : Nat},
    Rep m p par t → t.tops.length ≤ fuel →
    collect fuel m p = some (t.tops.map fun f => f.1) := by
  induction t with
  | nil =>
    intro p par fuel h _
    have hp : p = none := by simpa using h
    subst hp
    cases fuel <;> simp [collect, BT.tops]
  | node a e c s ihc ihs =>
    intro p par fuel h hf
    rw [rep_node] at h
    obtain ⟨hp, cp, sp, hc, _, hrs⟩ := h
    subst hp
    cases fuel with
    | zero => simp [BT.tops] at hf
    | succ fuel =>
      simp only [BT.tops, List.length_cons, Nat.add_le_add_iff_right] at hf
      simp [collect, hc, ihs hrs hf, BT.tops]

theorem tops_length_le (t : BT α) : t.tops.length ≤ t.addrs.length := by
  induction t with
  | nil => simp [BT.tops]
  | node a e c s ihc ihs => simp [BT.tops]; omega

theorem tops_items (t : BT α) : (fItems t.tops).Perm t.items := by
  induction t with
  | nil => simp [BT.tops]
  | node a e c s ihc ihs =>
    simp only [BT.tops, fItems_cons, items_node]
    exact List.Perm.cons _ ((List.Perm.append_left _ ihs).trans List.perm_append_comm)

theorem tops_ord {lt : α → α → Bool} {t : BT α} : ∀ {pe : α}, Ord lt pe t →
    ∀ f ∈ t.tops, Ord lt f.2.1 f.2.2 := by
  induction t with
  | nil => intro pe _ f hf; simp [BT.tops] at hf
  | node a e c s ihc ihs =>
    intro pe h f hf
    obtain ⟨_, h2, h3⟩ := h
    simp only [BT.tops, List.mem_cons] at hf
    rcases hf with rfl | hf
    · exact h2
    · exact ihs h3 f hf

theorem tops_forest {m : Mem α} {t : BT α} : ∀ {p par : Option Nat}, Rep m p par t →
    Forest m t.tops := by
  induction t with
  | nil => intro p par _; simp [Forest, BT.tops]
  | node a e c s ihc ihs =>
    intro p par h
    rw [rep_node] at h
    obtain ⟨hp, cp, sp, hc, hrc, hrs⟩ := h
    have ih := ihs hrs
    refine ⟨?_, ?_⟩
    · intro f hf
      simp only [BT.tops, List.mem_cons] at hf
      rcases hf with rfl | hf
      · exact ⟨sp, par, cp, hc, hrc⟩
      · exact ih.1 f hf
    · intro f hf
      cases s with
      | nil =>
        simp only [BT.tops, List.getLast?_singleton, Option.some.injEq] at hf
        subst hf
        have hsp : sp = none := by simpa using hrs
        subst hsp
        exact ⟨par, cp, hc, hrc⟩
      | node a2 e2 c2 s2 =>
        apply ih.2 f
        simpa [BT.tops, List.getLast?_cons_cons] using hf

/-- One round of the pairing loop on the two front trees of the deque. -/
theorem pair_step (lt : α → α → Bool) {m : Mem α} {a b : Nat}
    {ea eb : α} {ca cb : BT α} {sa pa sb pb : Option Nat}
    (hA : Det m a ea ca sa pa) (hB : Det m b eb cb sb pb) (hab : a ≠ b)
    (haA : a ∉ ca.addrs) (haB : a ∉ cb.addrs) (hbA : b ∉ ca.addrs) (hbB : b ∉ cb.addrs) :
    ∃ m1 m2 m3 m4 m5 w e c, setSibling m a none = some m1 ∧ setParent m1 a none = some m2 ∧
      setSibling m2 b none = some m3 ∧ setParent m3 b none = some m4 ∧
      meld lt m4 (some a) (some b) = some (m5, some w) ∧ Det m5 w e c none none ∧
      ((w, e) :: c.items).Perm (((a, ea) :: ca.items) ++ ((b, eb) :: cb.items)) ∧
      (StrictWeakOrder lt → Ord lt ea ca → Ord lt eb cb → Ord lt e c) ∧
      (∀ x, x ≠ a → x ≠ b → m5.cells x = m.cells x) ∧ m5.next = m.next ∧
      (∀ x, eltAt m5 x = eltAt m x) := by
  have hba : b ≠ a := Ne.symm hab
  obtain ⟨m1, m2, h1, h2, hA2, hfr2, hn2, he2⟩ := clear_det hA haA
  have hB2 : Det m2 b eb cb sb pb :=
    det_frame (hfr2 b hba) (fun x hx => hfr2 x (fun h => haB (h ▸ hx))) hB
  obtain ⟨m3, m4, h3, h4, hB4, hfr4, hn4, he4⟩ := clear_det hB2 hbB
  have hA4 : Det m4 a ea ca none none :=
    det_frame (hfr4 a hab) (fun x hx => hfr4 x (fun h => hbA (h ▸ hx))) hA2
  obtain ⟨m5, hm, hw1, hw2, hfr5, hn5, he5⟩ := meld_det lt hA4 hB4 hab haA haB hbA hbB
  have hfr : ∀ x, x ≠ a → x ≠ b → m5.cells x = m.cells x := fun x hxa hxb => by
    rw [hfr5 x hxa hxb, hfr4 x hxb, hfr2 x hxa]
  have hel : ∀ x, eltAt m5 x = eltAt m x := fun x => by rw [he5, he4, he2]
  have hnx : m5.next = m.next := by rw [hn5, hn4, hn2]
  cases h : lt ea eb with
  | true =>
    refine ⟨m1, m2, m3, m4, m5, b, eb, BT.node a ea ca cb, h1, h2, h3, h4,
      by simpa [h] using hm, hw1 h, ?_, fun hlt hOa hOb => ⟨hlt.asymm h, hOa, hOb⟩, hfr, hnx, hel⟩
    simp only [items_node, List.cons_append]
    refine (List.Perm.swap _ _ _).trans (List.Perm.cons _ ?_)
    exact (List.Perm.cons _ List.perm_append_comm).trans List.perm_middle.symm
  | false =>
    refine ⟨m1, m2, m3, m4, m5, a, ea, BT.node b eb cb ca, h1, h2, h3, h4,
      by simpa [h] using hm, hw2 h, ?_, fun _ hOa hOb => ⟨h, hOb, hOa⟩, hfr, hnx, hel⟩
    simp only [items_node, List.cons_append]
    exact List.Perm.cons _ List.perm_middle.symm

theorem forest_nodup_head {f1 f2 : Nat × α × BT α} {rest : List (Nat × α × BT α)}
    (h : (fAddrs (f1 :: f2 :: rest)).Nodup) :
    f1.1 ≠ f2.1 ∧ f1.1 ∉ f1.2.2.addrs ∧ f1.1 ∉ f2.2.2.addrs ∧ f2.1 ∉ f1.2.2.addrs ∧
      f2.1 ∉ f2.2.2.addrs ∧ f1.1 ∉ fAddrs rest ∧ f2.1 ∉ fAddrs rest ∧ (fAddrs rest).Nodup := by
  simp only [fAddrs_cons, List.nodup_cons, List.nodup_append, List.mem_append, List.mem_cons,
    not_or, List.Disjoint] at h
  obtain ⟨⟨h1, h2, h3, h4⟩, h5, ⟨h6, h7, h8, h9⟩, h10⟩ := h
  refine ⟨h2, h1, h3, ?_, h6.1, h4, h6.2, h8⟩
  intro hmem
  exact h10 hmem (Or.inl rfl)

/-- The pairing loop of `pop` leaves exactly one tree holding every node of the deque. -/
theorem pairLoop_spec (lt : α → α → Bool) :
    ∀ (n fuel : Nat) (m : Mem α) (F : List (Nat × α × BT α)),
    F.length = n + 1 → n ≤ fuel → Forest m F → (fAddrs F).Nodup →
    ∃ m' w e c pp, pairLoop lt fuel m (F.map fun f => f.1) = some (m', [w]) ∧
      Det m' w e c none pp ∧ ((w, e) :: c.items).Perm (fItems F) ∧
      (StrictWeakOrder lt → (∀ f ∈ F, Ord lt f.2.1 f.2.2) → Ord lt e c) ∧
      (∀ x, x ∉ fAddrs F → m'.cells x = m.cells x) ∧ m'.next = m.next ∧
      (∀ x, eltAt m' x = eltAt m x) ∧
      (1 ≤ n → ∀ nd, m'.cells w = some nd → nd.parent = none) ∧
      (n = 0 → m' = m ∧ ∀ f ∈ F, w = f.1) := by
  intro n
  induction n with
  | zero =>
    intro fuel m F hlen _ hF _
    match F, hlen with
    | [f], _ =>
      obtain ⟨pp, hd⟩ := hF.2 f (by simp)
      refine ⟨m, f.1, f.2.1, f.2.2, pp, ?_, hd, by simp, fun _ h => h f (by simp),
        fun _ _ => rfl, rfl, fun _ => rfl, fun h => absurd h (by omega),
        fun _ => ⟨rfl, by simp⟩⟩
      cases fuel <;> simp [pairLoop]
  | succ n ih =>
    intro fuel m F hlen hfuel hF hnd
    match F, hlen with
    | f1 :: f2 :: rest, hlen =>
      obtain ⟨fuel, rfl⟩ : ∃ k, fuel = k + 1 := ⟨fuel - 1, by omega⟩
      obtain ⟨hne, h11, h12, h21, h22, h1r, h2r, hndr⟩ := forest_nodup_head hnd
      obtain ⟨sp1, pp1, hd1⟩ := hF.1 f1 (by simp)
      obtain ⟨sp2, pp2, hd2⟩ := hF.1 f2 (by simp)
      obtain ⟨m1, m2, m3, m4, m5, w, e, c, e1, e2, e3, e4, hmeld, hdw, hperm, hord, hfr, hnx,
        hel⟩ := pair_step lt hd1 hd2 hne h11 h12 h21 h22
      have hF' : Forest m5 (rest ++ [(w, e, c)]) := by
        refine ⟨?_, ?_⟩
        · intro f hf
          simp only [List.mem_append, List.mem_singleton] at hf
          rcases hf with hf | rfl
          · obtain ⟨sp, pp, hd⟩ := hF.1 f (by simp [hf])
            have hx : ∀ x, (x = f.1 ∨ x ∈ f.2.2.addrs) → x ≠ f1.1 ∧ x ≠ f2.1 := by
              intro x hx
              have := mem_fAddrs_of_mem hf x hx
              exact ⟨fun h => h1r (h ▸ this), fun h => h2r (h ▸ this)⟩
            exact ⟨sp, pp, det_frame (hfr _ (hx _ (Or.inl rfl)).1 (hx _ (Or.inl rfl)).2)
              (fun x hxc => hfr x (hx x (Or.inr hxc)).1 (hx x (Or.inr hxc)).2) hd⟩
          · exact ⟨none, none, hdw⟩
        · intro f hf
          simp only [List.getLast?_append, List.getLast?_singleton, Option.or,
            Option.some.injEq] at hf
          subst hf
          exact ⟨none, hdw⟩
      have hpermI : (fItems (rest ++ [(w, e, c)])).Perm (fItems (f1 :: f2 :: rest)) := by
        simp only [fItems_append, fItems_cons, fItems_nil, List.append_nil]
        refine List.perm_append_comm.trans ?_
        have := List.Perm.append_right (fItems rest) hperm
        simpa [List.append_assoc] using this
      have hpermA : (fAddrs (rest ++ [(w, e, c)])).Perm (fAddrs (f1 :: f2 :: rest)) := by
        have := hpermI.map Prod.fst
        rwa [fItems_fst, fItems_fst] at this
      obtain ⟨m', w', e', c', pp', hloop, hd', hperm', hord', hfr', hnx', hel', hpar', hz'⟩ :=
        ih fuel m5 (rest ++ [(w, e, c)]) (by simp at hlen ⊢; omega) (by omega) hF'
          (hpermA.nodup_iff.mpr hnd)
      refine ⟨m', w', e', c', pp', ?_, hd', hperm'.trans hpermI, ?_, ?_, by rw [hnx', hnx],
        fun x => by rw [hel', hel], ?_, fun h => absurd h (by omega)⟩
      rotate_left 3
      · intro _ nd hnd'
        by_cases hn0 : n = 0
        · obtain ⟨hm', hw'⟩ := hz' hn0
          have hww : w' = w := hw' (w, e, c) (by simp)
          subst hm'
          subst hww
          obtain ⟨cp, hcw, _⟩ := hdw
          rw [hcw] at hnd'
          cases hnd'
          rfl
        · exact hpar' (by omega) nd hnd'
      · simp only [List.map_cons, pairLoop, e1, e2, e3, e4, hmeld, Option.some_bind]
        simpa using hloop
      · intro hlt hO
        apply hord' hlt
        intro f hf
        simp only [List.mem_append, List.mem_singleton] at hf
        rcases hf with hf | rfl
        · exact hO f (by simp [hf])
        · exact hord hlt (hO f1 (by simp)) (hO f2 (by simp))
      · intro x hx
        have hx' : x ∉ fAddrs (rest ++ [(w, e, c)]) := fun h => hx (hpermA.subset h)
        rw [hfr' x hx']
        simp only [fAddrs_cons, List.mem_cons, List.mem_append, not_or] at hx
        exact hfr x hx.1 hx.2.2.1

theorem tops_addrs (t : BT α) : (fAddrs t.tops).Perm t.addrs := by
  have := (tops_items t).map Prod.fst
  rwa [fItems_fst, items_fst] at this

/-- The effect of `pop` on a well-formed non-empty heap. -/
theorem pop_spec (lt : α → α → Bool) {m : Mem α} {q : PairingPQ}
    {r : Nat} {e : α} {c : BT α} (hm : MemOK m) (hT : Shape m q (some (r, e, c))) :
    ∃ m' q' T', pop lt m q = some (m', q') ∧ top m q = some e ∧ Shape m' q' T' ∧ MemOK m' ∧
      (tItems T').Perm c.items ∧ (StrictWeakOrder lt → Ord lt e c → tOrd lt T') ∧
      (∀ x, x ∉ r :: c.addrs → m'.cells x = m.cells x) ∧ m'.cells r = none ∧
      m'.next = m.next ∧ (∀ x, x ≠ r → eltAt m' x = eltAt m x) ∧
      q'.num_nodes + 1 = q.num_nodes ∧ RootDead m' q' := by
  obtain ⟨⟨hroot, pp, cp, hc, hr⟩, hnd, hcount⟩ := hT
  simp only [tAddrs_some, List.nodup_cons, List.length_cons] at hnd hcount
  have hlt_next : ∀ x ∈ r :: c.addrs, x < m.next :=
    shape_lt_next hm (show RootRep m q.root (some (r, e, c)) from ⟨hroot, pp, cp, hc, hr⟩)
  have hr1 : Rep (m.free r) cp (some r) c := by
    refine rep_frame (fun x hx => ?_) hr
    have : x ≠ r := fun h => hnd.1 (h ▸ hx)
    simp [this]
  have htop : top m q = some e := by simp [top, hroot, hc]
  have hdecr : decr q.num_nodes = c.addrs.length := by simp [decr, hcount]
  have hok : ∀ m' : Mem α, (∀ x, x ∉ r :: c.addrs → m'.cells x = m.cells x) →
      m'.next = m.next → MemOK m' := by
    intro m' hfr hnx a ha
    rw [hnx] at ha
    rw [hfr a (fun h => by have := hlt_next a h; omega)]
    exact hm a ha
  by_cases hlen : c.addrs.length = 0
  · have hcnil : c = BT.nil := by
      cases c with
      | nil => rfl
      | node a e c s => simp at hlen
    subst hcnil
    have hfr : ∀ x, x ∉ r :: (BT.nil : BT α).addrs → (m.free r).cells x = m.cells x := by
      intro x hx
      simp only [addrs_nil, List.mem_singleton] at hx
      simp [hx]
    refine ⟨m.free r, ⟨none, 0⟩, none, ?_, htop, ⟨rfl, by simp, rfl⟩, hok _ hfr rfl, by simp,
      fun _ _ => trivial, hfr, by simp, rfl, ?_, by simp [hcount], ?_⟩
    · simp [pop, hroot, hc, hdecr]
    · intro x hx; simp [eltAt, hx]
    · intro r' nd x hr'
      cases hr'
  · have htl := tops_length_le c
    have hcol := collect_rep hr1 htl
    have htpos : 0 < c.tops.length := by
      cases c with
      | nil => simp at hlen
      | node a e c s => simp [BT.tops]
    obtain ⟨k, hk⟩ : ∃ k, c.tops.length = k + 1 := ⟨c.tops.length - 1, by omega⟩
    have hndF : (fAddrs c.tops).Nodup := (tops_addrs c).nodup_iff.mpr hnd.2
    obtain ⟨m', w, e', c', pp', hloop, hd', hperm', hord', hfr', hnx', hel', hpar', hz'⟩ :=
      pairLoop_spec lt k c.tops.length (m.free r) c.tops hk (by omega) (tops_forest hr1) hndF
    have hpermI : (tItems (some (w, e', c'))).Perm c.items := hperm'.trans (tops_items c)
    have hpermA : (tAddrs (some (w, e', c'))).Perm c.addrs := by
      have := hpermI.map Prod.fst
      rwa [tItems_fst, items_fst] at this
    have hfr : ∀ x, x ∉ r :: c.addrs → m'.cells x = m.cells x := by
      intro x hx
      simp only [List.mem_cons, not_or] at hx
      rw [hfr' x (fun h => hx.2 ((tops_addrs c).subset h))]
      simp [hx.1]
    refine ⟨m', ⟨some w, c.addrs.length⟩, some (w, e', c'), ?_, htop,
      ⟨⟨rfl, pp', hd'⟩, hpermA.nodup_iff.mpr hnd.2, hpermA.length_eq.symm⟩,
      hok _ hfr (by rw [hnx']; rfl), hpermI, ?_, hfr, ?_, by rw [hnx']; rfl, ?_, by simp [hcount],
      ?_⟩
    · simp only [pop, hroot, hc, hdecr, hlen, if_false, hcol, Option.some_bind, List.length_map,
        hloop]
    · intro hlt hO
      exact hord' hlt (tops_ord hO)
    · rw [hfr' r (fun h => hnd.1 ((tops_addrs c).subset h))]
      simp
    · intro x hx
      rw [hel' x]
      simp [eltAt, hx]
    · have hrnone : m'.cells r = none := by
        rw [hfr' r (fun h => hnd.1 ((tops_addrs c).subset h))]
        simp
      intro r' nd x hr' hnd' hx
      simp only [Option.some.injEq] at hr'
      subst hr'
      by_cases hk0 : k = 0
      · obtain ⟨hm', hw'⟩ := hz' hk0
        subst hm'
        have hwtop : w ∈ c.topAddrs := by
          cases c with
          | nil => simp [BT.tops] at htpos
          | node a e c s =>
            have := hw' (a, e, c) (by simp [BT.tops])
            simp only [this, topAddrs_node, List.mem_cons, true_or]
        obtain ⟨nd2, hnd2, hp2⟩ := rep_top_parent hr1 hwtop
        rw [hnd2] at hnd'
        cases hnd'
        rw [hp2] at hx
        cases hx
        exact ⟨hrnone, by simpa using hlt_next r (by simp)⟩
      · have := hpar' (by omega) nd hnd'
        rw [this] at hx
        cases hx
/-! ## updatePriorities -/

@[simp]
theorem pAddrs_nil : pAddrs ([] : List (BT α)) = [] := rfl

@[simp]
theorem pAddrs_cons (t : BT α) (P : List (BT α)) :
    pAddrs (t :: P) = t.addrs ++ pAddrs P := rfl

@[simp]
theorem pItems_nil : pItems ([] : List (BT α)) = [] := rfl

@[simp]
theorem pItems_cons (t : BT α) (P : List (BT α)) :
    pItems (t :: P) = t.items ++ pItems P := rfl

@[simp]
theorem pAddrs_pcons (t : BT α) (P : List (BT α)) :
    pAddrs (pcons t P) = t.addrs ++ pAddrs P := by
  cases t <;> simp [pcons]

@[simp]
theorem pItems_pcons (t : BT α) (P : List (BT α)) :
    pItems (pcons t P) = t.items ++ pItems P := by
  cases t <;> simp [pcons]

theorem pItems_fst (P : List (BT α)) : (pItems P).map Prod.fst = pAddrs P := by
  induction P with
  | nil => rfl
  | cons t P ih => simp [ih, items_fst]

theorem rootRep_frame {m m' : Mem α} {p : Option Nat} {T : Option (Nat × α × BT α)}
    (hfr : ∀ x ∈ tAddrs T, m'.cells x = m.cells x) (h : RootRep m p T) : RootRep m' p T := by
  rcases T with _ | ⟨r, e, c⟩
  · exact h
  · obtain ⟨hp, pp, hd⟩ := h
    exact ⟨hp, pp, det_frame (hfr r (by simp)) (fun x hx => hfr x (by simp [hx])) hd⟩

theorem pending_frame {m m' : Mem α} : ∀ {dq : List (Option Nat)} {P : List (BT α)},
    (∀ x ∈ pAddrs P, m'.cells x = m.cells x) → Pending m dq P → Pending m' dq P
  | [], [], _, _ => trivial
  | [], _ :: _, _, h => h.elim
  | _ :: _, [], _, h => h.elim
  | p :: dq, t :: P, hfr, h => by
    obtain ⟨h1, ⟨par, h2⟩, h3⟩ := h
    exact ⟨h1, ⟨par, rep_frame (fun x hx => hfr x (by simp [hx])) h2⟩,
      pending_frame (fun x hx => hfr x (by simp [hx])) h3⟩

theorem pending_pcons {m : Mem α} {p par : Option Nat} {t : BT α} {dq : List (Option Nat)}
    {P : List (BT α)} (ht : Rep m p par t) (h : Pending m dq P) :
    Pending m (if p.isSome = true then p :: dq else dq) (pcons t P) := by
  cases t with
  | nil =>
    have hp : p = none := by simpa using ht
    subst hp
    simpa [pcons] using h
  | node a e c s =>
    have hp : p = some a := ((rep_node ..).mp ht).1
    subst hp
    simp only [Option.isSome_some, if_true, pcons]
    exact ⟨by simp, ⟨par, ht⟩, h⟩

theorem pending_pushLinks {m : Mem α} {a : Nat} {e : α} {cp sp par : Option Nat} {c s : BT α}
    {dq : List (Option Nat)} {P : List (BT α)} (hc : Rep m cp (some a) c) (hs : Rep m sp par s)
    (h : Pending m dq P) :
    Pending m (pushLinks ⟨e, cp, sp, par⟩ dq) (pcons s (pcons c P)) := by
  simp only [pushLinks]
  exact pending_pcons hs (pending_pcons hc h)

/-- The loop of `updatePriorities`: every pending node is unlinked and melded into the
accumulated root, which ends up holding all nodes in heap order. -/
theorem updLoop_spec (lt : α → α → Bool) :
    ∀ (fuel : Nat) (m : Mem α) (dq : List (Option Nat)) (root : Option Nat) (P : List (BT α))
      (T : Option (Nat × α × BT α)),
    Pending m dq P → RootRep m root T → (tAddrs T ++ pAddrs P).Nodup →
    (pAddrs P).length ≤ fuel →
    (∀ r nd, root = some r → m.cells r = some nd → nd.parent = none) →
    ∃ m' r' T', updLoop lt fuel m dq root = some (m', r') ∧ RootRep m' r' T' ∧
      (tItems T').Perm (tItems T ++ pItems P) ∧
      (StrictWeakOrder lt → tOrd lt T → tOrd lt T') ∧
      (∀ x, x ∉ tAddrs T ++ pAddrs P → m'.cells x = m.cells x) ∧ m'.next = m.next ∧
      (∀ x, eltAt m' x = eltAt m x) ∧
      (∀ r nd, r' = some r → m'.cells r = some nd → nd.parent = none) := by
  intro fuel
  induction fuel with
  | zero =>
    intro m dq root P T hP hR hnd hlen hpn
    match dq, P, hP with
    | [], [], _ =>
      exact ⟨m, root, T, by simp [updLoop], hR, by simp, fun _ h => h, fun _ _ => rfl, rfl, fun _ => rfl,
        hpn⟩
    | p :: dq, BT.nil :: P, h => exact absurd rfl h.1
    | p :: dq, BT.node a e c s :: P, h => simp at hlen
  | succ fuel ih =>
    intro m dq root P T hP hR hnd hlen hpn
    match dq, P, hP with
    | [], [], _ =>
      exact ⟨m, root, T, by simp [updLoop], hR, by simp, fun _ h => h, fun _ _ => rfl, rfl, fun _ => rfl,
        hpn⟩
    | p :: dq, BT.nil :: P, h => exact absurd rfl h.1
    | p :: dq, BT.node a e c s :: P, ⟨_, ⟨par, hrep⟩, hP'⟩ =>
      rw [rep_node] at hrep
      obtain ⟨hp, cp, sp, hc, hrc, hrs⟩ := hrep
      subst hp
      simp only [pAddrs_cons, addrs_node, List.length_cons, List.length_append] at hlen
      have hndT : (tAddrs T).Nodup := (List.nodup_append.mp hnd).1
      have hndP : (a :: (s.addrs ++ c.addrs) ++ pAddrs P).Nodup := by
        simpa using (List.nodup_append.mp hnd).2.1
      have hdisj : ∀ x ∈ tAddrs T, x ∉ a :: (s.addrs ++ c.addrs) ++ pAddrs P := by
        intro x hx hx'
        exact (List.nodup_append.mp hnd).2.2 hx (by simpa using hx')
      have haT : a ∉ tAddrs T := fun h => hdisj a h (by simp)
      have haP : a ∉ (s.addrs ++ c.addrs) ++ pAddrs P := by
        simpa using (List.nodup_cons.mp hndP).1
      let m3 : Mem α := ((m.write a ⟨e, none, sp, par⟩).write a ⟨e, none, none, par⟩).write a
        ⟨e, none, none, none⟩
      have hfr3 : ∀ x, x ≠ a → m3.cells x = m.cells x := fun x hx => by simp [m3, hx]
      have hR3 : RootRep m3 root T :=
        rootRep_frame (fun x hx => hfr3 x (fun h => haT (h ▸ hx))) hR
      have hB : Det m3 a e BT.nil none none := ⟨none, by simp [m3], by simp⟩
      obtain ⟨m4, r, e', c', hmeld, hR4, hperm, hord, hfr4, hnx4, hel4, hpar4⟩ :=
        meld_root lt hR3 hB hndT haT (by simp) (by simp)
      have hpn4 : ∀ r2 nd, some r = some r2 → m4.cells r2 = some nd → nd.parent = none := by
        intro r2 nd hr2 hnd2
        cases hr2
        rcases hpar4 nd hnd2 with h | ⟨a0, na, ha0, hna, h⟩
        · exact h
        · rw [h]
          have ha0T : a0 ∈ tAddrs T := rootRep_root_mem (ha0 ▸ hR)
          rw [hfr3 a0 (fun h' => haT (h' ▸ ha0T))] at hna
          exact hpn a0 na ha0 hna
      have hfr : ∀ x, x ∉ tAddrs T → x ≠ a → m4.cells x = m.cells x := by
        intro x hxT hxa
        rw [hfr4 x (fun h => hxT (rootRep_root_mem (h ▸ hR))) hxa, hfr3 x hxa]
      have hP4 : Pending m4 (pushLinks ⟨e, cp, sp, par⟩ dq) (pcons s (pcons c P)) := by
        refine pending_frame (fun x hx => ?_) (pending_pushLinks hrc hrs hP')
        have hx' : x ∈ (s.addrs ++ c.addrs) ++ pAddrs P := by simpa using hx
        exact hfr x (fun h => hdisj x h (List.mem_cons_of_mem _ hx')) (fun h => haP (h ▸ hx'))
      have hpermI : (tItems (some (r, e', c')) ++ pItems (pcons s (pcons c P))).Perm
          (tItems T ++ pItems (BT.node a e c s :: P)) := by
        simp only [pItems_pcons, pItems_cons, items_node, items_nil, List.nil_append] at hperm ⊢
        refine (List.Perm.append_right _ hperm).trans ?_
        simp only [List.cons_append, List.append_assoc]
        exact List.perm_middle.symm
      have hpermA : (tAddrs (some (r, e', c')) ++ pAddrs (pcons s (pcons c P))).Perm
          (tAddrs T ++ pAddrs (BT.node a e c s :: P)) := by
        have := hpermI.map Prod.fst
        simpa only [List.map_append, tItems_fst, pItems_fst] using this
      obtain ⟨m', r', T', hloop, hR', hperm', hord', hfr', hnx', hel', hpn'⟩ :=
        ih m4 (pushLinks ⟨e, cp, sp, par⟩ dq) (some r) (pcons s (pcons c P)) (some (r, e', c'))
          hP4 hR4 (hpermA.nodup_iff.mpr hnd) (by simp; omega) hpn4
      refine ⟨m', r', T', ?_, hR', hperm'.trans hpermI, fun hlt h => hord' hlt (hord hlt h trivial), ?_,
        by rw [hnx', hnx4]; rfl, fun x => ?_, hpn'⟩
      · simp only [updLoop, hc, setChild, setSibling, setParent, write_cells, if_true,
          Option.some_bind]
        rw [show ((m.write a ⟨e, none, sp, par⟩).write a ⟨e, none, none, par⟩).write a
          ⟨e, none, none, none⟩ = m3 from rfl, hmeld]
        exact hloop
      · intro x hx
        rw [hfr' x (fun h => hx (hpermA.subset h))]
        simp only [pAddrs_cons, addrs_node, List.mem_append, List.mem_cons, not_or] at hx
        exact hfr x hx.1 hx.2.1.1
      · rw [hel' x, hel4 x]
        by_cases hx : x = a
        · subst hx; simp [eltAt, m3, hc]
        · simp [eltAt, m3, hx]

/-- The effect of `updatePriorities` on a non-empty heap whose links are well formed; the
elements may be in any order. -/
theorem updatePriorities_spec (lt : α → α → Bool) {m : Mem α}
    {q : PairingPQ} {r : Nat} {e : α} {c : BT α} (hm : MemOK m)
    (hT : Shape m q (some (r, e, c))) :
    ∃ m' q' T', updatePriorities lt m q = some (m', q') ∧ Shape m' q' T' ∧ MemOK m' ∧
      (tItems T').Perm ((r, e) :: c.items) ∧ (StrictWeakOrder lt → tOrd lt T') ∧
      (∀ x, x ∉ r :: c.addrs → m'.cells x = m.cells x) ∧ m'.next = m.next ∧
      (∀ x, eltAt m' x = eltAt m x) ∧ q'.num_nodes = q.num_nodes ∧ RootDead m' q' := by
  obtain ⟨⟨hroot, pp, cp, hc, hr⟩, hnd, hcount⟩ := hT
  have hlt_next : ∀ x ∈ r :: c.addrs, x < m.next :=
    shape_lt_next hm (show RootRep m q.root (some (r, e, c)) from ⟨hroot, pp, cp, hc, hr⟩)
  have hrep : Rep m (some r) pp (BT.node r e c BT.nil) := by
    rw [rep_node]
    exact ⟨rfl, cp, none, hc, hr, by simp⟩
  have hP : Pending m [some r] [BT.node r e c BT.nil] := ⟨by simp, ⟨pp, hrep⟩, trivial⟩
  obtain ⟨m', r', T', hloop, hR', hperm, hord, hfr, hnx, hel, hpn⟩ :=
    updLoop_spec lt q.num_nodes m [some r] none [BT.node r e c BT.nil] none hP rfl
      (by simpa using hnd) (by simp [hcount]) (by intro r nd h; cases h)
  have hpermI : (tItems T').Perm ((r, e) :: c.items) := by simpa using hperm
  have hpermA : (tAddrs T').Perm (r :: c.addrs) := by
    have := hpermI.map Prod.fst
    simpa [tItems_fst, items_fst] using this
  have hfr2 : ∀ x, x ∉ r :: c.addrs → m'.cells x = m.cells x := by
    intro x hx
    exact hfr x (by simpa using hx)
  refine ⟨m', ⟨r', q.num_nodes⟩, T', ?_, ⟨hR', hpermA.nodup_iff.mpr hnd, ?_⟩, ?_, hpermI,
    fun hlt => hord hlt trivial, hfr2, hnx, hel, rfl, ?_⟩
  · simp [updatePriorities, hroot, hloop]
  · simp only [hcount, hpermA.length_eq]; rfl
  · intro a ha
    rw [hnx] at ha
    rw [hfr2 a (fun h => by have := hlt_next a h; omega)]
    exact hm a ha
  · intro r2 nd x hr2 hnd2 hx
    rw [hpn r2 nd hr2 hnd2] at hx
    cases hx
/-! ## Surgery on forests -/

theorem topAddrs_subset {t : BT α} : ∀ x ∈ t.topAddrs, x ∈ t.addrs := by
  induction t with
  | nil => intro x hx; simp at hx
  | node a e c s ihc ihs =>
    intro x hx
    simp only [topAddrs_node, List.mem_cons] at hx
    rcases hx with rfl | hx
    · simp
    · simp [ihs x hx]

theorem topAddrs_length (t : BT α) : t.topAddrs.length = t.tops.length := by
  induction t with
  | nil => rfl
  | node a e c s ihc ihs => simp [BT.tops, ihs]

@[simp]
theorem setElt_addrs (n : Nat) (v : α) (t : BT α) : (t.setElt n v).addrs = t.addrs := by
  induction t with
  | nil => rfl
  | node a e c s ihc ihs => simp [BT.setElt, ihc, ihs]

theorem setElt_not_mem {n : Nat} {v : α} {t : BT α} (h : n ∉ t.addrs) : t.setElt n v = t := by
  induction t with
  | nil => rfl
  | node a e c s ihc ihs =>
    simp only [addrs_node, List.mem_cons, List.mem_append, not_or] at h
    have : a ≠ n := fun h' => h.1 h'.symm
    simp [BT.setElt, ihc h.2.2, ihs h.2.1, this]

theorem remove_not_mem {n : Nat} {t : BT α} (h : n ∉ t.addrs) : t.remove n = t := by
  induction t with
  | nil => rfl
  | node a e c s ihc ihs =>
    simp only [addrs_node, List.mem_cons, List.mem_append, not_or] at h
    have : a ≠ n := fun h' => h.1 h'.symm
    simp [BT.remove, ihc h.2.2, ihs h.2.1, this]

theorem find_not_mem {n : Nat} {t : BT α} (h : n ∉ t.addrs) : t.find n = none := by
  induction t with
  | nil => rfl
  | node a e c s ihc ihs =>
    simp only [addrs_node, List.mem_cons, List.mem_append, not_or] at h
    have : a ≠ n := fun h' => h.1 h'.symm
    simp [BT.find, ihc h.2.2, ihs h.2.1, this]

theorem find_of_mem {n : Nat} {t : BT α} (h : n ∈ t.addrs) : ∃ e c, t.find n = some (e, c) := by
  induction t with
  | nil => simp at h
  | node a e c s ihc ihs =>
    by_cases ha : a = n
    · exact ⟨e, c, by simp [BT.find, ha]⟩
    · simp only [addrs_node, List.mem_cons, List.mem_append] at h
      rcases h with h | h | h
      · exact absurd h.symm ha
      · obtain ⟨e', c', h'⟩ := ihs h
        exact ⟨e', c', by simp [BT.find, ha, h']⟩
      · obtain ⟨e', c', h'⟩ := ihc h
        cases hs : s.find n with
        | none => exact ⟨e', c', by simp [BT.find, ha, hs, h']⟩
        | some x => exact ⟨x.1, x.2, by simp [BT.find, ha, hs]⟩

/-- Cutting a tree out splits the nodes of a forest into the tree and the rest. -/
theorem remove_items {n : Nat} {t : BT α} : t.addrs.Nodup → ∀ e c, t.find n = some (e, c) →
    t.items.Perm (((n, e) :: c.items) ++ (t.remove n).items) := by
  induction t with
  | nil => intro _ e c h; simp [BT.find] at h
  | node a e c s ihc ihs =>
    intro hnd e' c' hf
    simp only [addrs_node, List.nodup_cons, List.mem_append, not_or, List.nodup_append] at hnd
    obtain ⟨⟨has, hac⟩, hns, hnc, hdisj⟩ := hnd
    by_cases ha : a = n
    · subst ha
      simp only [BT.find, if_true, Option.some.injEq, Prod.mk.injEq] at hf
      obtain ⟨rfl, rfl⟩ := hf
      simp only [BT.remove, if_true, items_node, List.cons_append]
      exact List.Perm.cons _ List.perm_append_comm
    · simp only [BT.remove, ha, if_false, items_node, List.cons_append]
      by_cases hs : n ∈ s.addrs
      · obtain ⟨e2, c2, h2⟩ := find_of_mem hs
        have hfe : (e2, c2) = (e', c') := by simpa [BT.find, ha, h2] using hf
        obtain ⟨rfl, rfl⟩ := Prod.mk.inj hfe
        have hc : n ∉ c.addrs := fun h => hdisj hs h
        rw [remove_not_mem hc]
        have := ihs hns e2 c2 h2
        refine (List.Perm.cons _ (List.Perm.append_right _ this)).trans ?_
        rw [← Multiset.coe_eq_coe]
        simp only [← Multiset.cons_coe, ← Multiset.coe_add, ← Multiset.singleton_add]
        ac_rfl
      · have hf2 : c.find n = some (e', c') := by simpa [BT.find, ha, find_not_mem hs] using hf
        rw [remove_not_mem hs]
        have := ihc hnc e' c' hf2
        refine (List.Perm.cons _ (List.Perm.append_left _ this)).trans ?_
        rw [← Multiset.coe_eq_coe]
        simp only [← Multiset.cons_coe, ← Multiset.coe_add, ← Multiset.singleton_add]
        ac_rfl
/-! ## Detaching a node from its parent's child list -/

theorem remove_addrs_subset {n : Nat} {t : BT α} : ∀ x ∈ (t.remove n).addrs, x ∈ t.addrs := by
  induction t with
  | nil => intro x hx; simp [BT.remove] at hx
  | node a e c s ihc ihs =>
    intro x hx
    by_cases ha : a = n
    · simp only [BT.remove, ha, if_true] at hx
      simp [hx]
    · simp only [BT.remove, ha, if_false, addrs_node, List.mem_cons, List.mem_append] at hx
      simp only [addrs_node, List.mem_cons, List.mem_append]
      rcases hx with h | h | h
      · exact Or.inl h
      · exact Or.inr (Or.inl (ihs x h))
      · exact Or.inr (Or.inr (ihc x h))

theorem rep_setElt {m : Mem α} {n : Nat} {nd : Node α} (hn : m.cells n = some nd) (v : α)
    {t : BT α} : ∀ {p par : Option Nat}, Rep m p par t →
    Rep (m.write n ⟨v, nd.child, nd.sibling, nd.parent⟩) p par (t.setElt n v) := by
  induction t with
  | nil => intro p par h; simpa [BT.setElt] using h
  | node a e c s ihc ihs =>
    intro p par h
    rw [rep_node] at h
    obtain ⟨hp, cp, sp, hc, hrc, hrs⟩ := h
    simp only [BT.setElt]
    rw [rep_node]
    refine ⟨hp, cp, sp, ?_, ihc hrc, ihs hrs⟩
    by_cases ha : a = n
    · subst ha
      rw [hc] at hn
      cases hn
      simp
    · simp [ha, hc]

theorem rep_find {m : Mem α} {n : Nat} {t : BT α} : ∀ {p par : Option Nat}, Rep m p par t →
    ∀ e c, t.find n = some (e, c) →
    ∃ cp sp pp, m.cells n = some ⟨e, cp, sp, pp⟩ ∧ Rep m cp (some n) c := by
  induction t with
  | nil => intro p par _ e c h; simp [BT.find] at h
  | node a e c s ihc ihs =>
    intro p par h e' c' hf
    rw [rep_node] at h
    obtain ⟨hp, cp, sp, hc, hrc, hrs⟩ := h
    by_cases ha : a = n
    · subst ha
      simp only [BT.find, if_true, Option.some.injEq, Prod.mk.injEq] at hf
      obtain ⟨rfl, rfl⟩ := hf
      exact ⟨cp, sp, par, hc, hrc⟩
    · simp only [BT.find, ha, if_false] at hf
      cases hs : s.find n with
      | none =>
        rw [hs] at hf
        exact ihc hrc e' c' (by simpa using hf)
      | some x =>
        rw [hs] at hf
        have : x = (e', c') := by simpa using hf
        subst this
        exact ihs hrs _ _ hs

/-- The scan of `updateElt` along a child list stops at the node just before the handle,
and redirecting that node's sibling link cuts the handle's tree out. -/
theorem scan_chain {m : Mem α} {n : Nat} {nd : Node α} (hn : m.cells n = some nd) :
    ∀ (t : BT α) (p par : Option Nat) (fuel : Nat), Rep m p par t → t.addrs.Nodup →
    n ∈ t.topAddrs → p ≠ some n → t.topAddrs.length ≤ fuel →
    ∃ prev np, scan fuel m p n = some prev ∧ m.cells prev = some np ∧
      prev ∈ (t.remove n).topAddrs ∧
      Rep (m.write prev ⟨np.elt, np.child, nd.sibling, np.parent⟩) p par (t.remove n) := by
  intro t
  induction t with
  | nil => intro p par fuel _ _ h; simp at h
  | node a e c s ihc ihs =>
    intro p par fuel h hnd hmem hp hfuel
    rw [rep_node] at h
    obtain ⟨hpa, cp, sp, hc, hrc, hrs⟩ := h
    subst hpa
    have han : a ≠ n := fun h => hp (by rw [h])
    simp only [topAddrs_node, List.mem_cons] at hmem
    have hns : n ∈ s.topAddrs := hmem.resolve_left (fun h => han h.symm)
    simp only [addrs_node, List.nodup_cons, List.mem_append, not_or, List.nodup_append] at hnd
    obtain ⟨⟨has, hac⟩, hnds, hndc, hdisj⟩ := hnd
    have hnc : n ∉ c.addrs := fun h => hdisj (topAddrs_subset n hns) h
    obtain ⟨fuel, rfl⟩ : ∃ k, fuel = k + 1 := ⟨fuel - 1, by simp at hfuel; omega⟩
    simp only [topAddrs_node, List.length_cons, Nat.add_le_add_iff_right] at hfuel
    by_cases hsp : sp = some n
    · subst hsp
      cases s with
      | nil => simp at hrs
      | node a2 e2 c2 s2 =>
        rw [rep_node] at hrs
        obtain ⟨ha2, cp2, sp2, hc2, hrc2, hrs2⟩ := hrs
        simp only [Option.some.injEq] at ha2
        subst ha2
        rw [hc2] at hn
        cases hn
        refine ⟨a, _, by simp [scan, hc], hc, ?_, ?_⟩
        · simp [BT.remove, han]
        · simp only [BT.remove, han, if_false, if_true, remove_not_mem hnc]
          rw [rep_node]
          refine ⟨rfl, cp, sp2, by simp, ?_, ?_⟩
          · exact rep_frame (fun x hx => by
              have : x ≠ a := fun h => hac (h ▸ hx)
              simp [this]) hrc
          · refine rep_frame (fun x hx => ?_) hrs2
            have : x ≠ a := fun h => has (h ▸ (by simp [hx]))
            simp [this]
    · obtain ⟨prev, np, hscan, hcp, hprev, hrep⟩ := ihs sp par fuel hrs hnds hns hsp hfuel
      have hprevs : prev ∈ s.addrs := remove_addrs_subset _ (topAddrs_subset _ hprev)
      have hpa : prev ≠ a := fun h => has (h ▸ hprevs)
      refine ⟨prev, np, by simp [scan, hc, hsp, hscan], hcp, ?_, ?_⟩
      · simp [BT.remove, han, hprev]
      · simp only [BT.remove, han, if_false, remove_not_mem hnc]
        rw [rep_node]
        refine ⟨rfl, cp, sp, by simp [Ne.symm hpa, hc], ?_, hrep⟩
        refine rep_frame (fun x hx => ?_) hrc
        have : x ≠ prev := fun h => hdisj hprevs (h ▸ hx)
        simp [this]

/-- The detachment step of `updateElt` on a node that is not a tree root of the forest:
one link of a remaining node is redirected, and the forest loses the node's tree. -/
theorem unlink_rep {m : Mem α} {n : Nat} {nd : Node α} (hn : m.cells n = some nd) (fuel : Nat) :
    ∀ (t : BT α) (p par : Option Nat), Rep m p par t → t.addrs.Nodup → n ∈ t.addrs →
    n ∉ t.topAddrs → t.addrs.length ≤ fuel →
    ∃ w nw ow, unlink fuel m n = some (m.write w nw) ∧ m.cells w = some ow ∧ nw.elt = ow.elt ∧
      w ∈ (t.remove n).addrs ∧ Rep (m.write w nw) p par (t.remove n) := by
  intro t
  induction t with
  | nil => intro p par _ _ h; simp at h
  | node a e c s ihc ihs =>
    intro p par h hnd hmem htop hfuel
    rw [rep_node] at h
    obtain ⟨hpa, cp, sp, hc, hrc, hrs⟩ := h
    subst hpa
    simp only [topAddrs_node, List.mem_cons, not_or] at htop
    have han : a ≠ n := fun h => htop.1 h.symm
    simp only [addrs_node, List.nodup_cons, List.mem_append, not_or, List.nodup_append] at hnd
    obtain ⟨⟨has, hac⟩, hnds, hndc, hdisj⟩ := hnd
    simp only [addrs_node, List.length_cons, List.length_append] at hfuel
    simp only [addrs_node, List.mem_cons, List.mem_append] at hmem
    rcases hmem with hmem | hmem | hmem
    · exact absurd hmem.symm han
    · -- the node sits below a later sibling
      have hnc : n ∉ c.addrs := fun h => hdisj hmem h
      obtain ⟨w, nw, ow, hun, hw, hel, hwm, hrep⟩ :=
        ihs sp par hrs hnds hmem htop.2 (by omega)
      have hws : w ∈ s.addrs := remove_addrs_subset _ hwm
      have hwa : w ≠ a := fun h => has (h ▸ hws)
      refine ⟨w, nw, ow, hun, hw, hel, ?_, ?_⟩
      · simp [BT.remove, han, hwm]
      · simp only [BT.remove, han, if_false, remove_not_mem hnc]
        rw [rep_node]
        refine ⟨rfl, cp, sp, by simp [Ne.symm hwa, hc], ?_, hrep⟩
        refine rep_frame (fun x hx => ?_) hrc
        have : x ≠ w := fun h => hdisj hws (h ▸ hx)
        simp [this]
    · have hns : n ∉ s.addrs := fun h => hdisj h hmem
      by_cases htc : n ∈ c.topAddrs
      · -- the node is a child of `a`
        obtain ⟨nd', hnd', hpar⟩ := rep_top_parent hrc htc
        rw [hn] at hnd'
        cases hnd'
        by_cases hcp : cp = some n
        · subst hcp
          cases c with
          | nil => simp at hrc
          | node a2 e2 c2 s2 =>
            rw [rep_node] at hrc
            obtain ⟨ha2, cp2, sp2, hc2, hrc2, hrs2⟩ := hrc
            simp only [Option.some.injEq] at ha2
            subst ha2
            rw [hc2] at hn
            cases hn
            refine ⟨a, ⟨e, sp2, sp, par⟩, _, ?_, hc, rfl, ?_, ?_⟩
            · simp [unlink, hc2, hc, setChild]
            · simp [BT.remove, han]
            · simp only [BT.remove, han, if_false, if_true, remove_not_mem hns]
              rw [rep_node]
              refine ⟨rfl, sp2, sp, by simp, ?_, ?_⟩
              · refine rep_frame (fun x hx => ?_) hrs2
                have : x ≠ a := fun h => hac (h ▸ (by simp [hx]))
                simp [this]
              · refine rep_frame (fun x hx => ?_) hrs
                have : x ≠ a := fun h => has (h ▸ hx)
                simp [this]
        · obtain ⟨prev, np, hscan, hcprev, hprev, hrep⟩ :=
            scan_chain hn c cp (some a) fuel hrc hndc htc hcp
              (by have := tops_length_le c; rw [topAddrs_length]; omega)
          have hprevc : prev ∈ c.addrs := remove_addrs_subset _ (topAddrs_subset _ hprev)
          have hpa : prev ≠ a := fun h => hac (h ▸ hprevc)
          refine ⟨prev, ⟨np.elt, np.child, nd.sibling, np.parent⟩, np, ?_, hcprev, rfl, ?_, ?_⟩
          · simp [unlink, hn, hpar, hc, hcp, hscan, setSibling, hcprev]
          · simp [BT.remove, han, topAddrs_subset _ hprev]
          · simp only [BT.remove, han, if_false, remove_not_mem hns]
            rw [rep_node]
            refine ⟨rfl, cp, sp, by simp [Ne.symm hpa, hc], hrep, ?_⟩
            refine rep_frame (fun x hx => ?_) hrs
            have : x ≠ prev := fun h => hdisj hx (h ▸ hprevc)
            simp [this]
      · obtain ⟨w, nw, ow, hun, hw, hel, hwm, hrep⟩ :=
          ihc cp (some a) hrc hndc hmem htc (by omega)
        have hwc : w ∈ c.addrs := remove_addrs_subset _ hwm
        have hwa : w ≠ a := fun h => hac (h ▸ hwc)
        refine ⟨w, nw, ow, hun, hw, hel, ?_, ?_⟩
        · simp [BT.remove, han, hwm]
        · simp only [BT.remove, han, if_false, remove_not_mem hns]
          rw [rep_node]
          refine ⟨rfl, cp, sp, by simp [Ne.symm hwa, hc], hrep, ?_⟩
          refine rep_frame (fun x hx => ?_) hrs
          have : x ≠ w := fun h => hdisj hx (h ▸ hwc)
          simp [this]
/-! ## Order facts used by updateElt -/

theorem ord_mono {lt : α → α → Bool} {pe pe' : α} (h : ∀ x, lt pe x = false → lt pe' x = false)
    {t : BT α} : Ord lt pe t → Ord lt pe' t := by
  induction t with
  | nil => intro _; trivial
  | node a e c s ihc ihs =>
    intro hO
    exact ⟨h e hO.1, hO.2.1, ihs hO.2.2⟩

/-- A node whose element becomes strictly more extreme still dominates its children. -/
theorem ord_raise {lt : α → α → Bool} (hlt : StrictWeakOrder lt) {e v : α}
    (hev : lt e v = true) {t : BT α} (h : Ord lt e t) : Ord lt v t := by
  refine ord_mono (fun x hx => ?_) h
  cases hvx : lt v x with
  | false => rfl
  | true =>
    have := hlt.trans e v x hev hvx
    rw [hx] at this
    exact absurd this (by simp)

theorem ord_remove {lt : α → α → Bool} {n : Nat} {t : BT α} : ∀ {pe : α}, Ord lt pe t →
    Ord lt pe (t.remove n) := by
  induction t with
  | nil => intro pe h; exact h
  | node a e c s ihc ihs =>
    intro pe h
    by_cases ha : a = n
    · simpa [BT.remove, ha] using h.2.2
    · simp only [BT.remove, ha, if_false]
      exact ⟨h.1, ihc h.2.1, ihs h.2.2⟩

theorem ord_find {lt : α → α → Bool} {n : Nat} {t : BT α} : ∀ {pe : α}, Ord lt pe t →
    ∀ e c, t.find n = some (e, c) → Ord lt e c := by
  induction t with
  | nil => intro pe _ e c h; simp [BT.find] at h
  | node a e c s ihc ihs =>
    intro pe h e' c' hf
    by_cases ha : a = n
    · simp only [BT.find, ha, if_true, Option.some.injEq, Prod.mk.injEq] at hf
      obtain ⟨rfl, rfl⟩ := hf
      exact h.2.1
    · simp only [BT.find, ha, if_false] at hf
      cases hs : s.find n with
      | none =>
        rw [hs] at hf
        exact ihc h.2.1 e' c' (by simpa using hf)
      | some x =>
        rw [hs] at hf
        have : x = (e', c') := by simpa using hf
        subst this
        exact ihs h.2.2 _ _ hs

theorem find_setElt {n : Nat} {v : α} {t : BT α} : t.addrs.Nodup → ∀ e c,
    t.find n = some (e, c) → (t.setElt n v).find n = some (v, c) := by
  induction t with
  | nil => intro _ e c h; simp [BT.find] at h
  | node a e c s ihc ihs =>
    intro hnd e' c' hf
    simp only [addrs_node, List.nodup_cons, List.mem_append, not_or, List.nodup_append] at hnd
    obtain ⟨⟨has, hac⟩, hnds, hndc, hdisj⟩ := hnd
    by_cases ha : a = n
    · subst ha
      simp only [BT.find, if_true, Option.some.injEq, Prod.mk.injEq] at hf
      obtain ⟨rfl, rfl⟩ := hf
      simp [BT.find, BT.setElt, setElt_not_mem hac]
    · simp only [BT.find, ha, if_false] at hf
      by_cases hs : n ∈ s.addrs
      · obtain ⟨e2, c2, h2⟩ := find_of_mem hs
        have hfe : (e2, c2) = (e', c') := by simpa [h2] using hf
        obtain ⟨rfl, rfl⟩ := Prod.mk.inj hfe
        simp [BT.find, BT.setElt, ha, ihs hnds _ _ h2]
      · have hf2 : c.find n = some (e', c') := by simpa [find_not_mem hs] using hf
        simp [BT.find, BT.setElt, ha, setElt_not_mem hs, find_not_mem hs, ihc hndc _ _ hf2]

theorem remove_setElt {n : Nat} {v : α} {t : BT α} : t.addrs.Nodup →
    (t.setElt n v).remove n = t.remove n := by
  induction t with
  | nil => intro _; rfl
  | node a e c s ihc ihs =>
    intro hnd
    simp only [addrs_node, List.nodup_cons, List.mem_append, not_or, List.nodup_append] at hnd
    obtain ⟨⟨has, hac⟩, hnds, hndc, hdisj⟩ := hnd
    by_cases ha : a = n
    · subst ha
      simp [BT.remove, BT.setElt, setElt_not_mem has]
    · simp [BT.remove, BT.setElt, ha, ihc hndc, ihs hnds]

/-- The parent link of every node of a represented forest points to a live node: the
parent of the forest for a tree root, a node of the forest otherwise; and under heap order
the parent's element does not compare below the node's. -/
theorem rep_parent {m : Mem α} {n : Nat} {t : BT α} : ∀ {p : Option Nat} {pa : Nat}
    {npa : Node α}, Rep m p (some pa) t → m.cells pa = some npa → pa ∉ t.addrs →
    t.addrs.Nodup → n ∈ t.addrs →
    ∃ nd q nq, m.cells n = some nd ∧ nd.parent = some q ∧ m.cells q = some nq ∧ q ≠ n ∧
      (q = pa ∨ q ∈ t.addrs) ∧ ∀ lt : α → α → Bool, Ord lt npa.elt t → lt nq.elt nd.elt = false := by
  induction t with
  | nil => intro p pa npa _ _ _ _ h; simp at h
  | node a e c s ihc ihs =>
    intro p pa npa h hpa hpat hnd hmem
    rw [rep_node] at h
    obtain ⟨_, cp, sp, hc, hrc, hrs⟩ := h
    simp only [addrs_node, List.nodup_cons, List.mem_append, not_or, List.nodup_append] at hnd
    obtain ⟨⟨has, hac⟩, hnds, hndc, hdisj⟩ := hnd
    simp only [addrs_node, List.mem_cons, List.mem_append, not_or] at hpat
    simp only [addrs_node, List.mem_cons, List.mem_append] at hmem
    rcases hmem with rfl | hmem | hmem
    · exact ⟨_, pa, npa, hc, rfl, hpa, hpat.1, Or.inl rfl, fun lt hO => hO.1⟩
    · obtain ⟨nd, q, nq, h1, h2, h3, h4, h5, h6⟩ := ihs hrs hpa hpat.2.1 hnds hmem
      refine ⟨nd, q, nq, h1, h2, h3, h4, ?_, fun lt hO => h6 lt hO.2.2⟩
      rcases h5 with h5 | h5
      · exact Or.inl h5
      · exact Or.inr (by simp [h5])
    · obtain ⟨nd, q, nq, h1, h2, h3, h4, h5, h6⟩ := ihc hrc hc hac hndc hmem
      refine ⟨nd, q, nq, h1, h2, h3, h4, ?_, fun lt hO => h6 lt hO.2.1⟩
      rcases h5 with h5 | h5
      · exact Or.inr (by simp [h5])
      · exact Or.inr (by simp [h5])

/-- Raising the element of one node keeps heap order when the new element still does not
beat the parent's element. -/
theorem ord_setElt_mem {lt : α → α → Bool} (hlt : StrictWeakOrder lt) {m : Mem α} {n : Nat}
    {v : α} {old : Node α} (hn : m.cells n = some old) (hov : lt old.elt v = true)
    (hpar : ∀ q nq, old.parent = some q → m.cells q = some nq → lt nq.elt v = false)
    {t : BT α} : ∀ {p : Option Nat} {pa : Nat} {npa : Node α}, Rep m p (some pa) t →
    m.cells pa = some npa → t.addrs.Nodup → n ∈ t.addrs → Ord lt npa.elt t →
    Ord lt npa.elt (t.setElt n v) := by
  induction t with
  | nil => intro p pa npa _ _ _ h; simp at h
  | node a e c s ihc ihs =>
    intro p pa npa h hpa hnd hmem hO
    rw [rep_node] at h
    obtain ⟨_, cp, sp, hc, hrc, hrs⟩ := h
    simp only [addrs_node, List.nodup_cons, List.mem_append, not_or, List.nodup_append] at hnd
    obtain ⟨⟨has, hac⟩, hnds, hndc, hdisj⟩ := hnd
    simp only [addrs_node, List.mem_cons, List.mem_append] at hmem
    by_cases ha : a = n
    · subst ha
      rw [hc] at hn
      cases hn
      simp only [BT.setElt, if_true, setElt_not_mem has, setElt_not_mem hac]
      exact ⟨hpar pa npa rfl hpa, ord_raise hlt hov hO.2.1, hO.2.2⟩
    · have han : n ≠ a := fun h => ha h.symm
      simp only [BT.setElt, ha, if_false]
      rcases hmem with hmem | hmem | hmem
      · exact absurd hmem han
      · have hnc : n ∉ c.addrs := fun h => hdisj hmem h
        rw [setElt_not_mem hnc]
        exact ⟨hO.1, hO.2.1, ihs hrs hpa hnds hmem hO.2.2⟩
      · have hns : n ∉ s.addrs := fun h => hdisj h hmem
        rw [setElt_not_mem hns]
        exact ⟨hO.1, ihc hrc hc hndc hmem hO.2.1, hO.2.2⟩
/-! ## updateElt -/

theorem updateElt_eq {lt : α → α → Bool} {m m1 : Mem α} {q : PairingPQ} {n par : Nat} {v : α}
    {nd pn : Node α} (h1 : setElt m n v = some m1) (h2 : m1.cells n = some nd)
    (h3 : nd.parent = some par) (h4 : m1.cells par = some pn) :
    updateElt lt m q n v =
      if lt pn.elt v = true then
        (unlink q.num_nodes m1 n).bind fun m2 =>
        (setSibling m2 n none).bind fun m3 =>
        (setParent m3 n none).bind fun m4 =>
        (meld lt m4 q.root (some n)).bind fun r => some (r.1, ⟨r.2, q.num_nodes⟩)
      else some (m1, q) := by
  simp only [updateElt, h1, Option.some_bind, h2, h3, h4, unlink]
  split_ifs
  · rfl
  · rw [Option.bind_assoc]
  · rfl

/-- The effect of `updateElt` on a node of a well-formed heap other than the root. -/
theorem updateElt_spec (lt : α → α → Bool) {m : Mem α}
    {q : PairingPQ} {r : Nat} {er : α} {c0 : BT α} {n : Nat} (hm : MemOK m)
    (hT : Shape m q (some (r, er, c0))) (hn : n ∈ c0.addrs) (v : α) :
    ∃ m' q' T' old, m.cells n = some old ∧ updateElt lt m q n v = some (m', q') ∧
      Shape m' q' T' ∧ MemOK m' ∧ (tItems T').Perm ((r, er) :: (c0.setElt n v).items) ∧
      (StrictWeakOrder lt → Ord lt er c0 → lt old.elt v = true → tOrd lt T') ∧
      (∀ x, x ∉ r :: c0.addrs → m'.cells x = m.cells x) ∧ m'.next = m.next ∧
      (∀ x, x ≠ n → eltAt m' x = eltAt m x) ∧ eltAt m' n = some v ∧
      q'.num_nodes = q.num_nodes ∧ (RootDead m q → RootDead m' q') := by
  obtain ⟨⟨hroot, pp, cp, hc, hr⟩, hnd, hcount⟩ := hT
  simp only [tAddrs_some, List.nodup_cons, List.length_cons] at hnd hcount
  obtain ⟨hrc0, hnd0⟩ := hnd
  have hrn : r ≠ n := fun h => hrc0 (h ▸ hn)
  have hlt_next : ∀ x ∈ r :: c0.addrs, x < m.next :=
    shape_lt_next hm (show RootRep m q.root (some (r, er, c0)) from ⟨hroot, pp, cp, hc, hr⟩)
  have hok : ∀ m' : Mem α, (∀ x, x ∉ r :: c0.addrs → m'.cells x = m.cells x) →
      m'.next = m.next → MemOK m' := by
    intro m' hfr hnx a ha
    rw [hnx] at ha
    rw [hfr a (fun h => by have := hlt_next a h; omega)]
    exact hm a ha
  have hlive : ∀ x ∈ r :: c0.addrs, ∃ nx, m.cells x = some nx := by
    intro x hx
    simp only [List.mem_cons] at hx
    rcases hx with rfl | hx
    · exact ⟨_, hc⟩
    · exact rep_live hr x hx
  have hdeadfr : ∀ m' : Mem α, (∀ x, x ∉ r :: c0.addrs → m'.cells x = m.cells x) →
      m'.next = m.next → ∀ x, m.cells x = none ∧ x < m.next → m'.cells x = none ∧ x < m'.next := by
    intro m' hfr hnx x hx
    have hxn : x ∉ r :: c0.addrs := fun h => by
      obtain ⟨nx, hnx'⟩ := hlive x h
      rw [hx.1] at hnx'
      cases hnx'
    exact ⟨by rw [hfr x hxn]; exact hx.1, by rw [hnx]; exact hx.2⟩
  obtain ⟨eo, cn, hfind⟩ := find_of_mem hn
  obtain ⟨nd, par, pn, hcn, hpar, hcpar, hparn, hparmem, hparord⟩ :=
    rep_parent hr hc hrc0 hnd0 hn
  obtain ⟨cpn, spn, ppn, hcn', hrcn⟩ := rep_find hr eo cn hfind
  rw [hcn] at hcn'
  cases hcn'
  simp only at hpar
  subst hpar
  have hset : setElt m n v = some (m.write n ⟨v, cpn, spn, some par⟩) := setElt_some hcn v
  have h1n : (m.write n ⟨v, cpn, spn, some par⟩).cells n = some ⟨v, cpn, spn, some par⟩ := by
    simp
  have h1par : (m.write n ⟨v, cpn, spn, some par⟩).cells par = some pn := by
    simp [hparn, hcpar]
  have hfr1 : ∀ x, x ≠ n → (m.write n ⟨v, cpn, spn, some par⟩).cells x = m.cells x :=
    fun x hx => by simp [hx]
  have hel1 : ∀ x, x ≠ n → eltAt (m.write n ⟨v, cpn, spn, some par⟩) x = eltAt m x :=
    fun x hx => by simp [eltAt, hx]
  have hr1 : Rep (m.write n ⟨v, cpn, spn, some par⟩) cp (some r) (c0.setElt n v) :=
    rep_setElt hcn v hr
  have hc1 : (m.write n ⟨v, cpn, spn, some par⟩).cells r = some ⟨er, cp, none, pp⟩ := by
    simp [hrn, hc]
  rw [updateElt_eq hset h1n rfl h1par]
  cases hlt' : lt pn.elt v with
  | false =>
    refine ⟨_, q, some (r, er, c0.setElt n v), _, hcn, by simp, ⟨⟨hroot, pp, cp, hc1, hr1⟩,
      by simpa using ⟨hrc0, hnd0⟩, by simpa using hcount⟩, hok _ ?_ rfl, by simp, ?_, ?_, rfl,
      hel1, by simp [eltAt], rfl, ?_⟩
    rotate_left 3
    · intro hdead r2 nd2 x hr2 hnd2 hx
      rw [hroot] at hr2
      cases hr2
      rw [hc1] at hnd2
      cases hnd2
      exact hdeadfr _ (fun y hy => hfr1 y (fun h => hy (by simp [h, hn]))) rfl x
        (hdead r _ x hroot hc hx)
    · intro x hx
      exact hfr1 x (fun h => hx (by simp [h, hn]))
    · intro hlt hO hov
      refine ord_setElt_mem hlt hcn hov ?_ hr hc hnd0 hn hO
      intro q' nq hq hcq
      simp only [Option.some.injEq] at hq
      subst hq
      rw [hcpar] at hcq
      cases hcq
      exact hlt'
    · intro x hx
      exact hfr1 x (fun h => hx (by simp [h, hn]))
  | true =>
    simp only [if_true]
    have hrep1 : Rep (m.write n ⟨v, cpn, spn, some par⟩) (some r) pp
        (BT.node r er (c0.setElt n v) BT.nil) := by
      rw [rep_node]
      exact ⟨rfl, cp, none, hc1, hr1, by simp⟩
    obtain ⟨w, nw, ow, hun, hw, hel, hwm, hrep2⟩ :=
      unlink_rep h1n q.num_nodes (BT.node r er (c0.setElt n v) BT.nil) (some r) pp hrep1
        (by simpa using ⟨hrc0, hnd0⟩) (by simp [hn]) (by simpa using Ne.symm hrn)
        (by simp [hcount])
    have hrem : (BT.node r er (c0.setElt n v) BT.nil).remove n =
        BT.node r er ((c0.setElt n v).remove n) BT.nil := by
      simp [BT.remove, hrn]
    rw [hrem] at hwm hrep2
    rw [remove_setElt hnd0] at hwm hrep2
    rw [rep_node] at hrep2
    obtain ⟨_, cp2, sp2, hc2, hrc2, hrs2⟩ := hrep2
    have hsp2 : sp2 = none := by simpa using hrs2
    subst hsp2
    have hfind1 : (c0.setElt n v).find n = some (v, cn) := find_setElt hnd0 _ _ hfind
    have hpermI : c0.items.Perm (((n, eo) :: cn.items) ++ (c0.remove n).items) :=
      remove_items hnd0 _ _ hfind
    have hpermI1 : (c0.setElt n v).items.Perm (((n, v) :: cn.items) ++ (c0.remove n).items) := by
      have := remove_items (by simpa using hnd0) _ _ hfind1
      rwa [remove_setElt hnd0] at this
    have hpermA : c0.addrs.Perm ((n :: cn.addrs) ++ (c0.remove n).addrs) := by
      have := hpermI.map Prod.fst
      simpa [items_fst] using this
    have hnd' := hpermA.nodup_iff.mp hnd0
    simp only [List.cons_append, List.nodup_cons, List.mem_append, not_or,
      List.nodup_append] at hnd'
    obtain ⟨⟨hncn, hnrem⟩, hndcn, hndrem, hdisj⟩ := hnd'
    have hcn_sub : ∀ x ∈ cn.addrs, x ∈ c0.addrs := fun x hx =>
      hpermA.symm.subset (by simp [hx])
    have hrem_sub : ∀ x ∈ (c0.remove n).addrs, x ∈ c0.addrs := fun x hx =>
      remove_addrs_subset x hx
    have hw' : w = r ∨ w ∈ (c0.remove n).addrs := by simpa using hwm
    have hwn : w ≠ n := by
      rcases hw' with h | h
      · rw [h]; exact hrn
      · exact fun h' => hnrem (h' ▸ h)
    have hwcn : w ∉ cn.addrs := by
      rcases hw' with h | h
      · rw [h]; exact fun h' => hrc0 (hcn_sub r h')
      · exact fun h' => hdisj h' h
    have hwmem : w ∈ r :: c0.addrs := by
      rcases hw' with h | h
      · simp [h]
      · simp [hrem_sub w h]
    have hfr2 : ∀ x, x ≠ w → ((m.write n ⟨v, cpn, spn, some par⟩).write w nw).cells x =
        (m.write n ⟨v, cpn, spn, some par⟩).cells x := fun x hx => by simp [hx]
    obtain ⟨cp', sp', pp', hcn1, hrcn1⟩ := rep_find hr1 v cn hfind1
    have hD2 : Det ((m.write n ⟨v, cpn, spn, some par⟩).write w nw) n v cn spn (some par) := by
      rw [h1n] at hcn1
      cases hcn1
      exact ⟨cpn, by rw [hfr2 n (Ne.symm hwn), h1n], rep_frame (fun x hx =>
        hfr2 x (fun h => hwcn (h ▸ hx))) hrcn1⟩
    obtain ⟨m3, m4, e3, e4, hD4, hfr4, hnx4, hel4⟩ := clear_det hD2 hncn
    have hR2 : RootRep ((m.write n ⟨v, cpn, spn, some par⟩).write w nw) (some r)
        (some (r, er, c0.remove n)) := ⟨rfl, pp, cp2, hc2, hrc2⟩
    have hR4 : RootRep m4 (some r) (some (r, er, c0.remove n)) := by
      refine rootRep_frame (fun x hx => hfr4 x ?_) hR2
      simp only [tAddrs_some, List.mem_cons] at hx
      rcases hx with h | h
      · rw [h]; exact hrn
      · exact fun h' => hnrem (h' ▸ h)
    have hrrem : r ∉ (c0.remove n).addrs := fun h => hrc0 (hrem_sub r h)
    obtain ⟨m5, r', e', c', hmeld, hR5, hperm5, hord5, hfr5, hnx5, hel5, hpar5⟩ :=
      meld_root lt hR4 hD4 (by simpa using ⟨hrrem, hndrem⟩)
        (by simpa using ⟨Ne.symm hrn, hnrem⟩) hncn (by
          intro x hx
          simp only [tAddrs_some, List.mem_cons] at hx
          rcases hx with h | h
          · rw [h]; exact fun h' => hrc0 (hcn_sub r h')
          · exact fun h' => hdisj h' h)
    have hpermT : (tItems (some (r', e', c'))).Perm ((r, er) :: (c0.setElt n v).items) := by
      refine hperm5.trans ?_
      refine List.Perm.trans ?_ (List.Perm.cons _ hpermI1.symm)
      rw [← Multiset.coe_eq_coe]
      simp only [tItems_some, ← Multiset.cons_coe, ← Multiset.coe_add, ← Multiset.singleton_add]
      ac_rfl
    have hpermTA : (tAddrs (some (r', e', c'))).Perm (r :: c0.addrs) := by
      have := hpermT.map Prod.fst
      simpa [tItems_fst, items_fst] using this
    have hfr : ∀ x, x ∉ r :: c0.addrs → m5.cells x = m.cells x := by
      intro x hx
      have hxn : x ≠ n := fun h => hx (by simp [h, hn])
      have hxr : x ≠ r := fun h => hx (by simp [h])
      have hxw : x ≠ w := fun h => hx (h ▸ hwmem)
      rw [hfr5 x (fun h => hxr (Option.some.inj h)) hxn, hfr4 x hxn, hfr2 x hxw, hfr1 x hxn]
    have helw : ∀ x, eltAt ((m.write n ⟨v, cpn, spn, some par⟩).write w nw) x =
        eltAt (m.write n ⟨v, cpn, spn, some par⟩) x := by
      intro x
      by_cases hx : x = w
      · subst hx
        have hx : ((m.write n ⟨v, cpn, spn, some par⟩).write x nw).cells x = some nw := by simp
        rw [eltAt, eltAt, hx, hw]
        simp [hel]
      · simp [eltAt, hx]
    refine ⟨m5, ⟨some r', q.num_nodes⟩, some (r', e', c'), _, hcn, ?_,
      ⟨hR5, hpermTA.nodup_iff.mpr (by simpa using ⟨hrc0, hnd0⟩), ?_⟩,
      hok _ hfr (by rw [hnx5, hnx4]; rfl), hpermT, ?_, hfr, by rw [hnx5, hnx4]; rfl, ?_, ?_, rfl,
      ?_⟩
    · simp [hun, e3, e4, hroot, hmeld]
    · simp only [hcount, hpermTA.length_eq, List.length_cons]
    · intro hlt hO hov
      exact hord5 hlt (ord_remove hO) (ord_raise hlt hov (ord_find hO _ _ hfind))
    · intro x hx
      rw [hel5, hel4, helw, hel1 x hx]
    · rw [hel5, hel4, helw]
      simp [eltAt]
    · intro hdead r2 nd2 x hr2 hnd2 hx
      simp only [Option.some.injEq] at hr2
      subst hr2
      rcases hpar5 nd2 hnd2 with h | ⟨a0, na, ha0, hna, h⟩
      · rw [h] at hx
        cases hx
      · simp only [Option.some.injEq] at ha0
        subst ha0
        rw [hfr4 r hrn, hc2] at hna
        cases hna
        rw [h] at hx
        exact hdeadfr m5 hfr (by rw [hnx5, hnx4]; rfl) x (hdead r _ x hroot hc hx)
/-! ## Reachability through links -/

theorem rep_head_mem {m : Mem α} {b : Nat} {par : Option Nat} {t : BT α}
    (h : Rep m (some b) par t) : b ∈ t.addrs := by
  cases t with
  | nil => simp at h
  | node a e c s =>
    rw [rep_node] at h
    simp only [Option.some.injEq] at h
    simp [h.1]

/-- Links never leave a represented forest. -/
theorem rep_link_closed {m : Mem α} {t : BT α} : ∀ {p par : Option Nat}, Rep m p par t →
    ∀ a b, a ∈ t.addrs → Link m a b → b ∈ t.addrs := by
  induction t with
  | nil => intro p par _ a b h; simp at h
  | node a' e c s ihc ihs =>
    intro p par h a b ha hl
    rw [rep_node] at h
    obtain ⟨_, cp, sp, hc, hrc, hrs⟩ := h
    simp only [addrs_node, List.mem_cons, List.mem_append] at ha ⊢
    rcases ha with rfl | ha | ha
    · obtain ⟨n, hn, hl⟩ := hl
      rw [hc] at hn
      cases hn
      rcases hl with hl | hl
      · simp only at hl
        subst hl
        exact Or.inr (Or.inr (rep_head_mem hrc))
      · simp only at hl
        subst hl
        exact Or.inr (Or.inl (rep_head_mem hrs))
    · exact Or.inr (Or.inl (ihs hrs a b ha hl))
    · exact Or.inr (Or.inr (ihc hrc a b ha hl))

/-- Every node of a represented forest is reached from its head pointer. -/
theorem rep_reach {m : Mem α} {t : BT α} : ∀ {p par : Option Nat}, Rep m p par t →
    ∀ a ∈ t.addrs, ∃ h, p = some h ∧ Relation.ReflTransGen (Link m) h a := by
  induction t with
  | nil => intro p par _ a h; simp at h
  | node a' e c s ihc ihs =>
    intro p par h a ha
    rw [rep_node] at h
    obtain ⟨hp, cp, sp, hc, hrc, hrs⟩ := h
    refine ⟨a', hp, ?_⟩
    simp only [addrs_node, List.mem_cons, List.mem_append] at ha
    rcases ha with rfl | ha | ha
    · exact Relation.ReflTransGen.refl
    · obtain ⟨h', hsp, hreach⟩ := ihs hrs a ha
      exact Relation.ReflTransGen.head ⟨_, hc, Or.inr hsp⟩ hreach
    · obtain ⟨h', hcp, hreach⟩ := ihc hrc a ha
      exact Relation.ReflTransGen.head ⟨_, hc, Or.inl hcp⟩ hreach

/-- The live nodes of a heap are exactly the addresses of the tree it denotes. -/
theorem live_iff {m : Mem α} {q : PairingPQ} {T : Option (Nat × α × BT α)}
    (hT : RootRep m q.root T) (a : Nat) : Live m q a ↔ a ∈ tAddrs T := by
  rcases T with _ | ⟨r, e, c⟩
  · have hroot : q.root = none := hT
    simp [Live, hroot]
  · obtain ⟨hroot, pp, cp, hc, hr⟩ := hT
    have hrep : Rep m (some r) pp (BT.node r e c BT.nil) := by
      rw [rep_node]
      exact ⟨rfl, cp, none, hc, hr, by simp⟩
    have haddr : (BT.node r e c BT.nil).addrs = r :: c.addrs := by simp
    constructor
    · rintro ⟨r', hr', hreach⟩
      rw [hroot] at hr'
      cases hr'
      rw [tAddrs_some, ← haddr]
      induction hreach with
      | refl => simp
      | tail _ hl ih => exact rep_link_closed hrep _ _ ih hl
    · intro ha
      rw [tAddrs_some, ← haddr] at ha
      obtain ⟨h, hh, hreach⟩ := rep_reach hrep a ha
      cases hh
      exact ⟨r, hroot, hreach⟩

theorem shape_nonempty {m : Mem α} {q : PairingPQ} {T : Option (Nat × α × BT α)}
    (hT : Shape m q T) (hq : empty q = false) : ∃ r e c, T = some (r, e, c) := by
  rcases T with _ | ⟨r, e, c⟩
  · have hroot : q.root = none := hT.1
    simp [empty, hroot] at hq
  · exact ⟨r, e, c, rfl⟩

theorem memOK_empty : MemOK (Mem.empty : Mem α) := fun _ _ => rfl

/-- A live handle other than the root lies in the child forest of the root. -/
theorem live_nonroot {m : Mem α} {q : PairingPQ} {r : Nat} {e : α} {c : BT α}
    (hT : Shape m q (some (r, e, c))) {h : Nat} (hl : Live m q h) (hr : q.root ≠ some h) :
    h ∈ c.addrs := by
  have := (live_iff hT.1 h).mp hl
  simp only [tAddrs_some, List.mem_cons] at this
  rcases this with rfl | this
  · exact absurd hT.1.1 hr
  · exact this

/-- Every reachable heap denotes a heap-ordered tree, its size is the number of pushes
minus the number of pops, and the parent link of its root is null or stale. -/
theorem reach_inv {lt : α → α → Bool} {ops : List (Op α)}
    {m : Mem α} {q : PairingPQ} (h : Reach lt ops m q) :
    ∃ T, Shape m q T ∧ MemOK m ∧ (StrictWeakOrder lt → tOrd lt T) ∧
      q.num_nodes + pops ops = pushes ops ∧
      RootDead m q := by
  induction h with
  | init =>
    exact ⟨none, ⟨rfl, by simp, rfl⟩, memOK_empty, fun _ => trivial, rfl, fun r nd x h => by cases h⟩
  | push v _ hstep ih =>
    obtain ⟨T, hT, hm, hO, hsz, hdead⟩ := ih
    obtain ⟨m2, q2, T2, hpush, _, hT2, hm2, _, hO2, _, _, _, _, hcnt, hd2⟩ :=
      push_spec lt hm hT v
    rw [hpush] at hstep
    cases hstep
    exact ⟨T2, hT2, hm2, fun hlt => hO2 hlt (hO hlt), by simp only [pushes, pops]; omega,
      hd2 hdead⟩
  | pop _ hne hstep ih =>
    obtain ⟨T, hT, hm, hO, hsz, hdead⟩ := ih
    obtain ⟨r, e, c, rfl⟩ := shape_nonempty hT hne
    obtain ⟨m2, q2, T2, hpop, _, hT2, hm2, _, hO2, _, _, _, _, hcnt, hd2⟩ := pop_spec lt hm hT
    rw [hpop] at hstep
    cases hstep
    exact ⟨T2, hT2, hm2, fun hlt => hO2 hlt (hO hlt), by simp only [pushes, pops]; omega, hd2⟩
  | updateElt hd v old _ hlive hnr hold hov hstep ih =>
    obtain ⟨T, hT, hm, hO, hsz, hdead⟩ := ih
    rcases T with _ | ⟨r, e, c⟩
    · have hroot : _ = none := hT.1
      obtain ⟨r, hr, _⟩ := hlive
      rw [hroot] at hr
      cases hr
    · obtain ⟨m2, q2, T2, old2, hold2, hupd, hT2, hm2, _, hO2, _, _, _, _, hcnt, hd2⟩ :=
        updateElt_spec lt hm hT (live_nonroot hT hlive hnr) v
      rw [hupd] at hstep
      cases hstep
      rw [hold] at hold2
      cases hold2
      exact ⟨T2, hT2, hm2, fun hlt => hO2 hlt (hO hlt) hov, by simp only [pushes, pops]; omega,
        hd2 hdead⟩
  | updatePriorities _ hne hstep ih =>
    obtain ⟨T, hT, hm, hO, hsz, hdead⟩ := ih
    obtain ⟨r, e, c, rfl⟩ := shape_nonempty hT hne
    obtain ⟨m2, q2, T2, hupd, hT2, hm2, _, hO2, _, _, _, hcnt, hd2⟩ :=
      updatePriorities_spec lt hm hT
    rw [hupd] at hstep
    cases hstep
    exact ⟨T2, hT2, hm2, hO2, by simp only [pushes, pops]; omega, hd2⟩

/-- On a heap whose root has a null or stale parent link, `updateElt` on the root
dereferences that link: the call has no defined result. -/
theorem updateElt_root_none {lt : α → α → Bool} {m : Mem α} {q : PairingPQ} {r : Nat}
    (hroot : q.root = some r) (hdead : RootDead m q) (v : α) :
    updateElt lt m q r v = none := by
  cases hc : m.cells r with
  | none => simp [updateElt, setElt, hc]
  | some nd =>
    cases hp : nd.parent with
    | none => simp [updateElt, setElt, hc, hp]
    | some x =>
      obtain ⟨hx, _⟩ := hdead r nd x hroot hc hp
      have hxr : x ≠ r := fun h => by
        rw [h, hc] at hx
        cases hx
      simp [updateElt, setElt, hc, hp, hxr, hx]
/-! ## Traversal, draining, bulk insertion -/

/-- The traversal visits every pending node once, in the order recorded by `items`. -/
theorem walk_spec : ∀ (fuel : Nat) (m : Mem α) (dq : List (Option Nat)) (P : List (BT α)),
    Pending m dq P → (pAddrs P).length ≤ fuel → walk fuel m dq = some (pItems P) := by
  intro fuel
  induction fuel with
  | zero =>
    intro m dq P hP hlen
    match dq, P, hP with
    | [], [], _ => simp [walk]
    | p :: dq, BT.nil :: P, h => exact absurd rfl h.1
    | p :: dq, BT.node a e c s :: P, h => simp at hlen
  | succ fuel ih =>
    intro m dq P hP hlen
    match dq, P, hP with
    | [], [], _ => simp [walk]
    | p :: dq, BT.nil :: P, h => exact absurd rfl h.1
    | p :: dq, BT.node a e c s :: P, ⟨_, ⟨par, hrep⟩, hP'⟩ =>
      rw [rep_node] at hrep
      obtain ⟨hp, cp, sp, hc, hrc, hrs⟩ := hrep
      subst hp
      simp only [pAddrs_cons, addrs_node, List.length_cons, List.length_append] at hlen
      have := ih m (pushLinks ⟨e, cp, sp, par⟩ dq) (pcons s (pcons c P))
        (pending_pushLinks hrc hrs hP') (by simp; omega)
      simp [walk, hc, this]

theorem contents_shape {m : Mem α} {q : PairingPQ} {T : Option (Nat × α × BT α)}
    (hT : Shape m q T) : contents m q = some (tItems T) := by
  obtain ⟨hR, hnd, hcount⟩ := hT
  rcases T with _ | ⟨r, e, c⟩
  · have hroot : q.root = none := hR
    simp [contents, hroot]
  · obtain ⟨hroot, pp, cp, hc, hr⟩ := hR
    have hrep : Rep m (some r) pp (BT.node r e c BT.nil) := by
      rw [rep_node]
      exact ⟨rfl, cp, none, hc, hr, by simp⟩
    have := walk_spec q.num_nodes m [some r] [BT.node r e c BT.nil]
      ⟨by simp, ⟨pp, hrep⟩, trivial⟩ (by simp [hcount])
    simp [contents, hroot, this]

theorem elements_shape {m : Mem α} {q : PairingPQ} {T : Option (Nat × α × BT α)}
    (hT : Shape m q T) : elements m q = some ((tItems T).map Prod.snd) := by
  simp [elements, contents_shape hT]

theorem shape_empty_iff {m : Mem α} {q : PairingPQ} {T : Option (Nat × α × BT α)}
    (hT : Shape m q T) : empty q = true ↔ T = none := by
  rcases T with _ | ⟨r, e, c⟩
  · have hroot : q.root = none := hT.1
    simp [empty, hroot]
  · have hroot : q.root = some r := hT.1.1
    simp [empty, hroot]

/-- Draining a heap-ordered heap returns all its elements, most extreme first. -/
theorem drain_spec {lt : α → α → Bool} (hlt : StrictWeakOrder lt) :
    ∀ (fuel : Nat) (m : Mem α) (q : PairingPQ) (T : Option (Nat × α × BT α)),
    Shape m q T → MemOK m → tOrd lt T → q.num_nodes ≤ fuel →
    ∃ out m' q', drain lt fuel m q = some (out, m', q') ∧
      out.Perm ((tItems T).map Prod.snd) ∧ out.Pairwise (fun x y => lt x y = false) ∧
      empty q' = true ∧ size q' = 0 := by
  intro fuel
  induction fuel with
  | zero =>
    intro m q T hT hm hO hfuel
    rcases T with _ | ⟨r, e, c⟩
    · have hroot : q.root = none := hT.1
      refine ⟨[], m, q, by simp [drain, empty, hroot], by simp, by simp, by simp [empty, hroot],
        hT.2.2⟩
    · have := hT.2.2
      simp at this
      omega
  | succ fuel ih =>
    intro m q T hT hm hO hfuel
    rcases T with _ | ⟨r, e, c⟩
    · have hroot : q.root = none := hT.1
      refine ⟨[], m, q, by simp [drain, empty, hroot], by simp, by simp, by simp [empty, hroot],
        hT.2.2⟩
    · have hroot : q.root = some r := hT.1.1
      obtain ⟨m2, q2, T2, hpop, htop, hT2, hm2, hperm, hO2, _, _, _, _, hcnt, _⟩ :=
        pop_spec lt hm hT
      obtain ⟨out, m3, q3, hdr, hperm3, hsorted, hemp, hsz⟩ :=
        ih m2 q2 T2 hT2 hm2 (hO2 hlt hO) (by omega)
      have hpermO : out.Perm (c.items.map Prod.snd) := hperm3.trans (hperm.map Prod.snd)
      refine ⟨e :: out, m3, q3, ?_, ?_, ?_, hemp, hsz⟩
      · rw [drain]
        simp [empty, hroot, htop, hpop, hdr]
      · simpa using hpermO
      · refine List.Pairwise.cons ?_ hsorted
        intro y hy
        have hy' := hpermO.subset hy
        obtain ⟨x, hx, rfl⟩ := List.mem_map.mp hy'
        exact ord_items hlt hO x hx

/-- Pushing a list of values, one after the other. -/
theorem pushAll_spec {lt : α → α → Bool} (hlt : StrictWeakOrder lt) :
    ∀ (xs : List α) (m : Mem α) (q : PairingPQ) (T : Option (Nat × α × BT α)),
    Shape m q T → MemOK m → tOrd lt T →
    ∃ m' q' T', pushAll lt m q xs = some (m', q') ∧ Shape m' q' T' ∧ MemOK m' ∧ tOrd lt T' ∧
      ((tItems T').map Prod.snd).Perm (xs ++ (tItems T).map Prod.snd) ∧
      q'.num_nodes = q.num_nodes + xs.length := by
  intro xs
  induction xs with
  | nil =>
    intro m q T hT hm hO
    exact ⟨m, q, T, rfl, hT, hm, hO, by simp, by simp⟩
  | cons x xs ih =>
    intro m q T hT hm hO
    obtain ⟨m1, q1, T1, hpush, _, hT1, hm1, hperm1, hO1, _, _, _, _, hcnt1, _⟩ :=
      push_spec lt hm hT x
    obtain ⟨m2, q2, T2, hall, hT2, hm2, hO2, hperm2, hcnt2⟩ := ih m1 q1 T1 hT1 hm1 (hO1 hlt hO)
    refine ⟨m2, q2, T2, by simp [pushAll, hpush, hall], hT2, hm2, hO2, ?_,
      by simp [hcnt2, hcnt1]; omega⟩
    refine hperm2.trans ?_
    have := hperm1.map Prod.snd
    simp only [List.map_cons] at this
    refine (List.Perm.append_left xs this).trans ?_
    simp only [List.cons_append]
    exact List.perm_middle
/-! ## Copy construction -/

/-- The loop of the copy constructor: the source nodes (below `lo`) are only read, every
element is pushed into the heap under construction (whose nodes sit at `lo` or above). -/
theorem copyLoop_spec {lt : α → α → Bool} (hlt : StrictWeakOrder lt) (lo : Nat) :
    ∀ (fuel : Nat) (m : Mem α) (dq : List (Option Nat)) (b : PairingPQ) (P : List (BT α))
      (Tb : Option (Nat × α × BT α)),
    Pending m dq P → Shape m b Tb → MemOK m → tOrd lt Tb → (∀ x ∈ pAddrs P, x < lo) →
    (∀ x ∈ tAddrs Tb, lo ≤ x) → lo ≤ m.next → (pAddrs P).length ≤ fuel →
    ∃ m' b' Tb', copyLoop lt fuel m dq b = some (m', b') ∧ Shape m' b' Tb' ∧ MemOK m' ∧
      tOrd lt Tb' ∧
      ((tItems Tb').map Prod.snd).Perm ((pItems P).map Prod.snd ++ (tItems Tb).map Prod.snd) ∧
      (∀ x, x < lo → m'.cells x = m.cells x) ∧ (∀ x ∈ tAddrs Tb', lo ≤ x) ∧
      lo ≤ m'.next ∧ b'.num_nodes = b.num_nodes + (pAddrs P).length := by
  intro fuel
  induction fuel with
  | zero =>
    intro m dq b P Tb hP hT hm hO hlo hhi hnx hlen
    match dq, P, hP with
    | [], [], _ =>
      exact ⟨m, b, Tb, by simp [copyLoop], hT, hm, hO, by simp, fun _ _ => rfl, hhi, hnx,
        by simp⟩
    | p :: dq, BT.nil :: P, h => exact absurd rfl h.1
    | p :: dq, BT.node a e c s :: P, h => simp at hlen
  | succ fuel ih =>
    intro m dq b P Tb hP hT hm hO hlo hhi hnx hlen
    match dq, P, hP with
    | [], [], _ =>
      exact ⟨m, b, Tb, by simp [copyLoop], hT, hm, hO, by simp, fun _ _ => rfl, hhi, hnx,
        by simp⟩
    | p :: dq, BT.nil :: P, h => exact absurd rfl h.1
    | p :: dq, BT.node a e c s :: P, ⟨_, ⟨par, hrep⟩, hP'⟩ =>
      rw [rep_node] at hrep
      obtain ⟨hp, cp, sp, hc, hrc, hrs⟩ := hrep
      subst hp
      simp only [pAddrs_cons, addrs_node, List.length_cons, List.length_append] at hlen
      obtain ⟨m1, b1, T1, hpush, _, hT1, hm1, hperm1, hO1, hfr1, hnx1, _, _, hcnt1, _⟩ :=
        push_spec lt hm hT e
      have hfrlo : ∀ x, x < lo → m1.cells x = m.cells x := by
        intro x hx
        refine hfr1 x (fun h => ?_) (by omega)
        have := hhi x (rootRep_root_mem (h ▸ hT.1))
        omega
      have hP1 : Pending m1 (pushLinks ⟨e, cp, sp, par⟩ dq) (pcons s (pcons c P)) := by
        refine pending_frame (fun x hx => hfrlo x (hlo x ?_)) (pending_pushLinks hrc hrs hP')
        simp only [pAddrs_pcons, List.mem_append] at hx
        simp only [pAddrs_cons, addrs_node, List.mem_append, List.mem_cons]
        tauto
      have hpermA1 : (tAddrs T1).Perm (m.next :: tAddrs Tb) := by
        have := hperm1.map Prod.fst
        simpa [tItems_fst] using this
      have hhi1 : ∀ x ∈ tAddrs T1, lo ≤ x := by
        intro x hx
        have := hpermA1.subset hx
        simp only [List.mem_cons] at this
        rcases this with rfl | h
        · exact hnx
        · exact hhi x h
      obtain ⟨m2, b2, T2, hloop, hT2, hm2, hO2, hperm2, hfr2, hhi2, hnx2, hcnt2⟩ :=
        ih m1 (pushLinks ⟨e, cp, sp, par⟩ dq) b1 (pcons s (pcons c P)) T1 hP1 hT1 hm1 (hO1 hlt hO)
          (by
            intro x hx
            apply hlo
            simp only [pAddrs_pcons, List.mem_append] at hx
            simp only [pAddrs_cons, addrs_node, List.mem_append, List.mem_cons]
            tauto)
          hhi1 (by omega) (by simp; omega)
      refine ⟨m2, b2, T2, ?_, hT2, hm2, hO2, ?_, fun x hx => by rw [hfr2 x hx, hfrlo x hx],
        hhi2, hnx2, ?_⟩
      · simp [copyLoop, hc, hpush, hloop]
      · refine hperm2.trans ?_
        have h1 := hperm1.map Prod.snd
        refine (List.Perm.append_left _ h1).trans ?_
        rw [← Multiset.coe_eq_coe]
        simp only [pItems_pcons, pItems_cons, items_node, List.map_append, List.map_cons,
          ← Multiset.cons_coe, ← Multiset.coe_add, ← Multiset.singleton_add]
        ac_rfl
      · simp only [hcnt2, hcnt1, pAddrs_pcons, pAddrs_cons, addrs_node, List.length_append,
          List.length_cons]
        omega

/-- The copy constructor on a well-formed non-empty source: a fresh heap-ordered heap with
the same elements, built above the allocation mark without writing below it. -/
theorem copy_spec {lt : α → α → Bool} (hlt : StrictWeakOrder lt) {m : Mem α} {a : PairingPQ}
    {r : Nat} {e : α} {c : BT α} (hm : MemOK m) (hT : Shape m a (some (r, e, c))) :
    ∃ m' b Tb, copy lt m a = some (m', b) ∧ Shape m' b Tb ∧ MemOK m' ∧ tOrd lt Tb ∧
      ((tItems Tb).map Prod.snd).Perm ((tItems (some (r, e, c))).map Prod.snd) ∧
      (∀ x, x < m.next → m'.cells x = m.cells x) ∧ (∀ x ∈ tAddrs Tb, m.next ≤ x) ∧
      m.next ≤ m'.next ∧ b.num_nodes = a.num_nodes := by
  obtain ⟨⟨hroot, pp, cp, hc, hr⟩, hnd, hcount⟩ := hT
  have hlt_next : ∀ x ∈ r :: c.addrs, x < m.next :=
    shape_lt_next hm (show RootRep m a.root (some (r, e, c)) from ⟨hroot, pp, cp, hc, hr⟩)
  have hrep : Rep m (some r) pp (BT.node r e c BT.nil) := by
    rw [rep_node]
    exact ⟨rfl, cp, none, hc, hr, by simp⟩
  obtain ⟨m', b, Tb, hloop, hTb, hm', hO, hperm, hfr, hhi, hnx, hcnt⟩ :=
    copyLoop_spec hlt m.next a.num_nodes m [some r] emptyPQ [BT.node r e c BT.nil] none
      ⟨by simp, ⟨pp, hrep⟩, trivial⟩ ⟨rfl, by simp, rfl⟩ hm trivial
      (by simpa using hlt_next) (by simp) (le_refl _) (by simp [hcount])
  refine ⟨m', b, Tb, by simp [copy, hroot, hloop], hTb, hm', hO, by simpa using hperm, hfr,
    hhi, hnx, ?_⟩
  simp only [hcnt, emptyPQ, hcount, tAddrs_some, List.length_cons, pAddrs_cons, addrs_node,
    addrs_nil, pAddrs_nil, List.append_nil, List.nil_append]
  omega

/-- Later pushes and pops on a heap living at `lo` or above never write below `lo`. -/
theorem later_inv {lt : α → α → Bool} (hlt : StrictWeakOrder lt) (lo : Nat) {m : Mem α}
    {b : PairingPQ} {m2 : Mem α} {b2 : PairingPQ} (h : Later lt m b m2 b2) :
    ∀ Tb, Shape m b Tb → MemOK m → tOrd lt Tb → (∀ x ∈ tAddrs Tb, lo ≤ x) → lo ≤ m.next →
    ∃ T2, Shape m2 b2 T2 ∧ MemOK m2 ∧ tOrd lt T2 ∧ (∀ x ∈ tAddrs T2, lo ≤ x) ∧ lo ≤ m2.next ∧
      ∀ x, x < lo → m2.cells x = m.cells x := by
  induction h with
  | refl => intro Tb hT hm hO hhi hnx; exact ⟨Tb, hT, hm, hO, hhi, hnx, fun _ _ => rfl⟩
  | push v _ hstep ih =>
    intro Tb hT hm hO hhi hnx
    obtain ⟨T1, hT1, hm1, hO1, hhi1, hnx1, hfr1⟩ := ih Tb hT hm hO hhi hnx
    obtain ⟨m3, b3, T3, hpush, _, hT3, hm3, hperm3, hO3, hfr3, hnx3, _, _, _, _⟩ :=
      push_spec lt hm1 hT1 v
    rw [hpush] at hstep
    cases hstep
    have hpermA := hperm3.map Prod.fst
    simp only [tItems_fst, List.map_cons] at hpermA
    refine ⟨T3, hT3, hm3, hO3 hlt hO1, ?_, by omega, ?_⟩
    · intro x hx
      have := hpermA.subset hx
      simp only [List.mem_cons] at this
      rcases this with rfl | h
      · exact hnx1
      · exact hhi1 x h
    · intro x hx
      rw [← hfr1 x hx]
      refine hfr3 x (fun h => ?_) (by omega)
      have := hhi1 x (rootRep_root_mem (h ▸ hT1.1))
      omega
  | pop _ hne hstep ih =>
    intro Tb hT hm hO hhi hnx
    obtain ⟨T1, hT1, hm1, hO1, hhi1, hnx1, hfr1⟩ := ih Tb hT hm hO hhi hnx
    obtain ⟨r, e, c, rfl⟩ := shape_nonempty hT1 hne
    obtain ⟨m3, b3, T3, hpop, _, hT3, hm3, hperm3, hO3, hfr3, _, hnx3, _, _, _⟩ :=
      pop_spec lt hm1 hT1
    rw [hpop] at hstep
    cases hstep
    have hpermA : (tAddrs T3).Perm c.addrs := by
      have := hperm3.map Prod.fst
      simpa [tItems_fst, items_fst] using this
    refine ⟨T3, hT3, hm3, hO3 hlt hO1, ?_, by omega, ?_⟩
    · intro x hx
      exact hhi1 x (by simp [hpermA.subset hx])
    · intro x hx
      rw [← hfr1 x hx]
      refine hfr3 x (fun h => ?_)
      have := hhi1 x h
      omega
/-! ## From trees back to the store -/

/-- Heap order of the denoted tree is heap order along the parent links. -/
theorem heapOrder_of_shape {lt : α → α → Bool} {m : Mem α} {q : PairingPQ}
    {T : Option (Nat × α × BT α)} (hT : Shape m q T) (hO : tOrd lt T) : HeapOrder lt m q := by
  intro a hlive hnr
  rcases T with _ | ⟨r, e, c⟩
  · have hroot : q.root = none := hT.1
    obtain ⟨r, hr, _⟩ := hlive
    rw [hroot] at hr
    cases hr
  · have ha := live_nonroot hT hlive hnr
    obtain ⟨⟨hroot, pp, cp, hc, hr⟩, hnd, _⟩ := hT
    simp only [tAddrs_some, List.nodup_cons] at hnd
    obtain ⟨nd, p, pn, h1, h2, h3, _, _, h6⟩ := rep_parent hr hc hnd.1 hnd.2 ha
    exact ⟨nd, p, pn, h1, h2, h3, h6 lt hO⟩

/-- In a heap-ordered heap no live element beats the element at the root. -/
theorem top_extreme_of_shape {lt : α → α → Bool} (hlt : StrictWeakOrder lt) {m : Mem α}
    {q : PairingPQ} {r : Nat} {e : α} {c : BT α} (hT : Shape m q (some (r, e, c)))
    (hO : Ord lt e c) :
    top m q = some e ∧ ∀ a nd, Live m q a → m.cells a = some nd → lt e nd.elt = false := by
  have hR := hT.1
  obtain ⟨⟨hroot, pp, cp, hc, hr⟩, hnd, _⟩ := hT
  refine ⟨by simp [top, hroot, hc], ?_⟩
  intro a nd hlive hnd'
  have ha := (live_iff hR a).mp hlive
  simp only [tAddrs_some, List.mem_cons] at ha
  rcases ha with rfl | ha
  · rw [hc] at hnd'
    cases hnd'
    exact hlt.irrefl e
  · have : a ∈ c.items.map Prod.fst := by rw [items_fst]; exact ha
    obtain ⟨x, hx, hxa⟩ := List.mem_map.mp this
    have hel := rep_items hr x.1 x.2 hx
    rw [hxa] at hel
    simp only [eltAt, hnd', Option.map_some', Option.some.injEq] at hel
    rw [hel]
    exact ord_items hlt hO x hx

@[simp]
theorem retag_addrs (f : Nat → α) (t : BT α) : (t.retag f).addrs = t.addrs := by
  induction t with
  | nil => rfl
  | node a e c s ihc ihs => simp [BT.retag, ihc, ihs]

theorem retag_items (f : Nat → α) (t : BT α) :
    (t.retag f).items = t.addrs.map fun a => (a, f a) := by
  induction t with
  | nil => rfl
  | node a e c s ihc ihs => simp [BT.retag, ihc, ihs]

theorem rep_overwrite (f : Nat → α) {m : Mem α} {t : BT α} : ∀ {p par : Option Nat},
    Rep m p par t → Rep (overwrite f m) p par (t.retag f) := by
  induction t with
  | nil => intro p par h; simpa [BT.retag] using h
  | node a e c s ihc ihs =>
    intro p par h
    rw [rep_node] at h
    obtain ⟨hp, cp, sp, hc, hrc, hrs⟩ := h
    simp only [BT.retag]
    rw [rep_node]
    exact ⟨hp, cp, sp, by simp [overwrite, hc], ihc hrc, ihs hrs⟩

/-- Overwriting the elements keeps the shape of a non-empty heap. -/
theorem shape_overwrite (f : Nat → α) {m : Mem α} {q : PairingPQ} {r : Nat} {e : α} {c : BT α}
    (hT : Shape m q (some (r, e, c))) :
    Shape (overwrite f m) q (some (r, f r, c.retag f)) := by
  obtain ⟨⟨hroot, pp, cp, hc, hr⟩, hnd, hcount⟩ := hT
  exact ⟨⟨hroot, pp, cp, by simp [overwrite, hc], rep_overwrite f hr⟩, by simpa using hnd,
    by simpa using hcount⟩

theorem memOK_overwrite (f : Nat → α) {m : Mem α} (hm : MemOK m) : MemOK (overwrite f m) := by
  intro a ha
  have := hm a ha
  simp [overwrite, this]

theorem live_of_addrs {m m' : Mem α} {q q' : PairingPQ} {T T' : Option (Nat × α × BT α)}
    (hT : Shape m q T) (hT' : Shape m' q' T') (h : ∀ a, a ∈ tAddrs T' ↔ a ∈ tAddrs T) (a : Nat) :
    Live m' q' a ↔ Live m q a := by
  rw [live_iff hT'.1, live_iff hT.1, h]

/-- The outputs of `updateElt` and `updatePriorities` carry the old `num_nodes`. -/
theorem updatePriorities_size {lt : α → α → Bool} {m m' : Mem α} {q q' : PairingPQ}
    (h : updatePriorities lt m q = some (m', q')) : size q' = size q := by
  simp only [updatePriorities, Option.bind_eq_some] at h
  obtain ⟨r, _, hr⟩ := h
  cases hr
  rfl

theorem updateElt_size {lt : α → α → Bool} {m m' : Mem α} {q q' : PairingPQ} {hd : Nat} {v : α}
    (h : updateElt lt m q hd v = some (m', q')) : size q' = size q := by
  simp only [updateElt, Option.bind_eq_some] at h
  obtain ⟨m1, _, h⟩ := h
  split at h
  · cases h
  · split at h
    · cases h
    · split at h
      · cases h
      · split_ifs at h
        · simp only [Option.bind_eq_some] at h
          obtain ⟨_, _, _, _, _, _, _, _, h⟩ := h
          cases h
          rfl
        · simp only [Option.bind_eq_some] at h
          obtain ⟨_, _, _, _, _, _, _, _, _, _, h⟩ := h
          cases h
          rfl
        · cases h
          rfl
/-! ## Test heaps are reachable -/

theorem exA1_eq : push intLess Mem.empty emptyPQ 5 = some (exA1.1, exA1.2) :=
  (Option.some_get (by decide : (push intLess Mem.empty emptyPQ 5).isSome = true)).symm

theorem exA2_eq : push intLess exA1.1 exA1.2 1 = some (exA2.1, exA2.2) :=
  (Option.some_get (by decide : (push intLess exA1.1 exA1.2 1).isSome = true)).symm

theorem exA3_eq : push intLess exA2.1 exA2.2 9 = some (exA3.1, exA3.2) :=
  (Option.some_get (by decide : (push intLess exA2.1 exA2.2 9).isSome = true)).symm

theorem exA4_eq : push intLess exA3.1 exA3.2 3 = some (exA4.1, exA4.2) :=
  (Option.some_get (by decide : (push intLess exA3.1 exA3.2 3).isSome = true)).symm

theorem exB1_eq : push intLess Mem.empty emptyPQ 10 = some (exB1.1, exB1.2) :=
  (Option.some_get (by decide : (push intLess Mem.empty emptyPQ 10).isSome = true)).symm

theorem exB2_eq : push intLess exB1.1 exB1.2 20 = some (exB2.1, exB2.2) :=
  (Option.some_get (by decide : (push intLess exB1.1 exB1.2 20).isSome = true)).symm

theorem exA4_reach :
    Reach intLess [Op.push 3, Op.push 9, Op.push 1, Op.push 5] exA4.1 exA4.2 :=
  Reach.push 3 (Reach.push 9 (Reach.push 1 (Reach.push 5 Reach.init exA1_eq) exA2_eq) exA3_eq)
    exA4_eq

theorem exB2_reach : Reach intLess [Op.push 20, Op.push 10] exB2.1 exB2.2 :=
  Reach.push 20 (Reach.push 10 Reach.init exB1_eq) exB2_eq

theorem exB2_live0 : Live exB2.1 exB2.2 0 :=
  ⟨1, rfl, Relation.ReflTransGen.single ⟨⟨20, some 0, none, none⟩, rfl, Or.inl rfl⟩⟩

/-! ## The claims -/

/-- C1. Heap order is an invariant of every reachable heap: with a strict weak ordering as
comparator, after any sequence of push, pop (non-empty), updateElt (live non-root handle,
strictly more extreme value) and updatePriorities (non-empty) from the empty heap, every
live node other than the root has a parent `p` with `compare(p.elt, n.elt)` false. -/
theorem heap_order_invariant (lt : α → α → Bool) (hlt : StrictWeakOrder lt) (ops : List (Op α))
    (m : Mem α) (q : PairingPQ) (h : Reach lt ops m q) : HeapOrder lt m q := by
  obtain ⟨T, hT, _, hO, _, _⟩ := reach_inv h
  exact heapOrder_of_shape hT (hO hlt)

theorem heap_order_invariant_witness : HeapOrder intLess exA4.1 exA4.2 :=
  heap_order_invariant intLess intLess_strictWeakOrder _ _ _ exA4_reach

/-- C2. Extraction order: pushing any list of values into the empty heap and then reading
`top()` and calling `pop()` until `empty()` returns a permutation of the values in which no
output compares below a later one; the drained heap is empty. -/
theorem extraction_order (lt : α → α → Bool) (hlt : StrictWeakOrder lt) (xs : List α) :
    ∃ m q out m' q', pushAll lt Mem.empty emptyPQ xs = some (m, q) ∧
      drain lt (size q) m q = some (out, m', q') ∧ out.Perm xs ∧
      out.Chain' (fun x y => lt x y = false) ∧ out.Pairwise (fun x y => lt x y = false) ∧
      empty q' = true := by
  obtain ⟨m, q, T, hall, hT, hm, hO, hperm, _⟩ :=
    pushAll_spec hlt xs Mem.empty emptyPQ none ⟨rfl, by simp, rfl⟩ memOK_empty trivial
  obtain ⟨out, m', q', hdr, hperm', hsorted, hemp, _⟩ :=
    drain_spec hlt (size q) m q T hT hm hO (le_refl _)
  refine ⟨m, q, out, m', q', hall, hdr, ?_, hsorted.chain', hsorted, hemp⟩
  exact hperm'.trans (by simpa using hperm)

theorem extraction_order_witness :
    ∃ m q m' q', pushAll intLess Mem.empty emptyPQ [5, 1, 9, 3] = some (m, q) ∧
      drain intLess (size q) m q = some ([9, 5, 3, 1], m', q') ∧ empty q' = true := by
  obtain ⟨m, q, out, m', q', h1, h2, h3, _, h5, h6⟩ :=
    extraction_order intLess intLess_strictWeakOrder [5, 1, 9, 3]
  haveI : IsAntisymm Int (fun x y => intLess x y = false) :=
    ⟨fun a b hab hba => by
      simp only [intLess, decide_eq_false_iff_not] at hab hba
      omega⟩
  have hout : out = [9, 5, 3, 1] :=
    List.eq_of_perm_of_sorted (h3.trans (by decide)) h5 (by decide)
  subst hout
  exact ⟨m, q, m', q', h1, h2, h6⟩

/-- C3. `top()` is the most extreme live element: in every non-empty reachable heap, with a
strict weak ordering as comparator, `compare(top(), e)` is false for every element `e`
stored in a live node. -/
theorem top_most_extreme (lt : α → α → Bool) (hlt : StrictWeakOrder lt) (ops : List (Op α))
    (m : Mem α) (q : PairingPQ) (h : Reach lt ops m q) (hne : empty q = false) :
    ∃ t, top m q = some t ∧ ∀ a nd, Live m q a → m.cells a = some nd → lt t nd.elt = false := by
  obtain ⟨T, hT, _, hO, _, _⟩ := reach_inv h
  obtain ⟨r, e, c, rfl⟩ := shape_nonempty hT hne
  exact ⟨e, top_extreme_of_shape hlt hT (hO hlt)⟩

theorem top_most_extreme_witness :
    ∃ t, top exA4.1 exA4.2 = some t ∧
      ∀ a nd, Live exA4.1 exA4.2 a → exA4.1.cells a = some nd → intLess t nd.elt = false :=
  top_most_extreme intLess intLess_strictWeakOrder _ _ _ exA4_reach (by decide)

/-- C4. `pop()` on a non-empty reachable heap removes exactly the root node: the elements
before are the old `top()` plus the elements after, the live nodes after are the live nodes
before without the root, every surviving node keeps its element, the root node is deleted,
and `size()` drops by one. -/
theorem pop_removes_root (lt : α → α → Bool) (ops : List (Op α)) (m : Mem α) (q : PairingPQ)
    (h : Reach lt ops m q) (hne : empty q = false) :
    ∃ m' q' r t l l', q.root = some r ∧ top m q = some t ∧ pop lt m q = some (m', q') ∧
      elements m q = some l ∧ elements m' q' = some l' ∧ l.Perm (t :: l') ∧
      (∀ a, Live m' q' a ↔ (Live m q a ∧ a ≠ r)) ∧ (∀ a, a ≠ r → eltAt m' a = eltAt m a) ∧
      m'.cells r = none ∧ size q' + 1 = size q := by
  obtain ⟨T, hT, hm, _, _, _⟩ := reach_inv h
  obtain ⟨r, e, c, rfl⟩ := shape_nonempty hT hne
  obtain ⟨m', q', T', hpop, htop, hT', _, hperm, _, _, hfree, _, hel, hcnt, _⟩ :=
    pop_spec lt hm hT
  have hpermA : (tAddrs T').Perm c.addrs := by
    have := hperm.map Prod.fst
    rwa [tItems_fst, items_fst] at this
  have hnd : r ∉ c.addrs := (List.nodup_cons.mp hT.2.1).1
  refine ⟨m', q', r, e, _, _, hT.1.1, htop, hpop, elements_shape hT, elements_shape hT', ?_, ?_,
    hel, hfree, hcnt⟩
  · simpa using (hperm.map Prod.snd).symm
  · intro a
    rw [live_iff hT'.1, live_iff hT.1]
    simp only [tAddrs_some, List.mem_cons]
    constructor
    · intro ha
      have hac := hpermA.subset ha
      exact ⟨Or.inr hac, fun h => hnd (h ▸ hac)⟩
    · rintro ⟨ha | ha, hne⟩
      · exact absurd ha hne
      · exact hpermA.symm.subset ha

theorem pop_removes_root_witness :
    ∃ m' q' r t l l', exA4.2.root = some r ∧ top exA4.1 exA4.2 = some t ∧
      pop intLess exA4.1 exA4.2 = some (m', q') ∧
      elements exA4.1 exA4.2 = some l ∧ elements m' q' = some l' ∧ l.Perm (t :: l') ∧
      (∀ a, Live m' q' a ↔ (Live exA4.1 exA4.2 a ∧ a ≠ r)) ∧
      (∀ a, a ≠ r → eltAt m' a = eltAt exA4.1 a) ∧
      m'.cells r = none ∧ size q' + 1 = size exA4.2 :=
  pop_removes_root intLess _ _ _ exA4_reach (by decide)
theorem shape_frame {m m' : Mem α} {q : PairingPQ} {T : Option (Nat × α × BT α)}
    (hfr : ∀ x ∈ tAddrs T, m'.cells x = m.cells x) (hT : Shape m q T) : Shape m' q T :=
  ⟨rootRep_frame hfr hT.1, hT.2.1, hT.2.2⟩

/-- In a heap-ordered tree the root element is not beaten by any element of the tree. -/
theorem root_max {lt : α → α → Bool} (hlt : StrictWeakOrder lt) {r : Nat} {e : α} {c : BT α}
    (hO : Ord lt e c) : ∀ x ∈ (tItems (some (r, e, c))).map Prod.snd, lt e x = false := by
  intro x hx
  simp only [tItems_some, List.map_cons, List.mem_cons] at hx
  rcases hx with rfl | hx
  · exact hlt.irrefl _
  · obtain ⟨y, hy, rfl⟩ := List.mem_map.mp hx
    exact ord_items hlt hO y hy

theorem exB1_reach : Reach intLess [Op.push 10] exB1.1 exB1.2 :=
  Reach.push 10 Reach.init exB1_eq

/-- On every reachable heap `updateElt` applied to the root handle dereferences a null or
stale parent link. -/
theorem updateElt_root_reach (lt : α → α → Bool) {ops : List (Op α)} {m : Mem α}
    {q : PairingPQ} (h : Reach lt ops m q) {r : Nat} (hr : q.root = some r) (v : α) :
    updateElt lt m q r v = none := by
  obtain ⟨_, _, _, _, _, hdead⟩ := reach_inv h
  exact updateElt_root_none hr hdead v

/-- C6. `updateElt(h, v)` on a live non-root handle of a reachable heap, with `v` strictly
more extreme than the old element, stores `v` at `h` and creates or destroys no node: the
live nodes are the same, every other element is unchanged, `size()` is unchanged, and
`top()` is not beaten by any element of the updated heap. -/
theorem updateElt_effect (lt : α → α → Bool) (hlt : StrictWeakOrder lt) (ops : List (Op α))
    (m : Mem α) (q : PairingPQ) (h : Reach lt ops m q) (hd : Nat) (v : α) (old : Node α)
    (hlive : Live m q hd) (hnr : q.root ≠ some hd) (hold : m.cells hd = some old)
    (hov : lt old.elt v = true) :
    ∃ m' q' t, updateElt lt m q hd v = some (m', q') ∧ eltAt m' hd = some v ∧
      (∀ a, Live m' q' a ↔ Live m q a) ∧ (∀ a, a ≠ hd → eltAt m' a = eltAt m a) ∧
      (∀ a, (m'.cells a).isSome = (m.cells a).isSome) ∧ m'.next = m.next ∧
      size q' = size q ∧ top m' q' = some t ∧
      (∀ a nd, Live m' q' a → m'.cells a = some nd → lt t nd.elt = false) := by
  obtain ⟨T, hT, hm, hO, _, _⟩ := reach_inv h
  rcases T with _ | ⟨r, e, c⟩
  · have hroot : q.root = none := hT.1
    obtain ⟨r, hr, _⟩ := hlive
    rw [hroot] at hr
    cases hr
  · obtain ⟨m', q', T', old', hold', hupd, hT', _, hperm, hO', _, hnx, hel, helv, hcnt, _⟩ :=
      updateElt_spec lt hm hT (live_nonroot hT hlive hnr) v
    rw [hold] at hold'
    cases hold'
    have hpermA : (tAddrs T').Perm (r :: c.addrs) := by
      have := hperm.map Prod.fst
      simpa [tItems_fst, items_fst] using this
    have hne' : ∃ r' e' c', T' = some (r', e', c') := by
      rcases T' with _ | ⟨r', e', c'⟩
      · have := hpermA.length_eq
        simp at this
      · exact ⟨r', e', c', rfl⟩
    obtain ⟨r', e', c', rfl⟩ := hne'
    obtain ⟨htop, hmax⟩ := top_extreme_of_shape hlt hT' (hO' hlt (hO hlt) hov)
    refine ⟨m', q', e', hupd, helv, ?_, hel, ?_, hnx, hcnt, htop, hmax⟩
    · exact live_of_addrs hT hT' (fun a => ⟨fun h => hpermA.subset h,
        fun h => hpermA.symm.subset h⟩)
    · intro a
      by_cases ha : a = hd
      · subst ha
        have h1 : (eltAt m' a).isSome = true := by rw [helv]; rfl
        have h2 : (m.cells a).isSome = true := by rw [hold]; rfl
        rw [h2, ← h1]
        simp [eltAt]
      · have := hel a ha
        have h1 : (eltAt m' a).isSome = (eltAt m a).isSome := by rw [this]
        simpa [eltAt] using h1

theorem updateElt_effect_witness :
    (∃ m' q' t, updateElt intLess exB2.1 exB2.2 0 25 = some (m', q') ∧ eltAt m' 0 = some 25 ∧
      (∀ a, Live m' q' a ↔ Live exB2.1 exB2.2 a) ∧
      (∀ a, a ≠ 0 → eltAt m' a = eltAt exB2.1 a) ∧
      (∀ a, (m'.cells a).isSome = (exB2.1.cells a).isSome) ∧ m'.next = exB2.1.next ∧
      size q' = size exB2.2 ∧ top m' q' = some t ∧
      (∀ a nd, Live m' q' a → m'.cells a = some nd → intLess t nd.elt = false)) ∧
    ((updateElt intLess exB2.1 exB2.2 0 25).bind fun s => top s.1 s.2) = some 25 :=
  ⟨updateElt_effect intLess intLess_strictWeakOrder _ _ _ exB2_reach 0 25 ⟨10, none, none, some 1⟩
    exB2_live0 (by decide) rfl (by decide), by decide⟩

/-- C7. Evaluated on the code: after `push(10)` the handle `0` is the root, and
`updateElt(0, 25)` reads `node->parent->getElt()` through the root's null parent link, so
the call has no defined result (it does not complete as a no-structural-change case). -/
theorem updateElt_on_root_undefined : updateElt intLess exB1.1 exB1.2 0 25 = none :=
  updateElt_root_reach intLess exB1_reach rfl 25
/-- A reachable heap stays structurally well formed when its elements are overwritten. -/
theorem wellFormed_overwrite {lt : α → α → Bool} {ops : List (Op α)} {m : Mem α}
    {q : PairingPQ} (h : Reach lt ops m q) (f : Nat → α) : WellFormed (overwrite f m) q := by
  obtain ⟨T, hT, hm, _, _, _⟩ := reach_inv h
  refine ⟨memOK_overwrite f hm, ?_⟩
  rcases T with _ | ⟨r, e, c⟩
  · exact ⟨none, hT⟩
  · exact ⟨_, shape_overwrite f hT⟩

/-- C8. `updatePriorities` restores heap order after arbitrary external mutation: on every
non-empty structurally well-formed heap, whatever its element values are, it returns a
single well-formed tree (root without sibling) over the same live nodes, each holding the
element it held, in heap order and with `size()` unchanged; draining it afterwards yields
exactly those elements, `size()` many, none compared below a later one. -/
theorem updatePriorities_restores (lt : α → α → Bool) (hlt : StrictWeakOrder lt)
    (m : Mem α) (q : PairingPQ) (hwf : WellFormed m q) (hne : empty q = false) :
    ∃ m' q', updatePriorities lt m q = some (m', q') ∧ WellFormed m' q' ∧
      HeapOrder lt m' q' ∧
      (∀ r nd, q'.root = some r → m'.cells r = some nd → nd.sibling = none) ∧
      (∀ a, Live m' q' a ↔ Live m q a) ∧ (∀ a, eltAt m' a = eltAt m a) ∧ size q' = size q ∧
      ∃ out m'' q'' l, drain lt (size q') m' q' = some (out, m'', q'') ∧
        elements m q = some l ∧ out.Perm l ∧ out.length = size q ∧
        out.Chain' (fun x y => lt x y = false) ∧ empty q'' = true := by
  obtain ⟨hm, T, hT⟩ := hwf
  obtain ⟨r, e, c, rfl⟩ := shape_nonempty hT hne
  obtain ⟨m', q', T', hupd, hT', hm', hperm, hO', _, _, hel, hcnt, _⟩ :=
    updatePriorities_spec lt hm hT
  have hpermA : (tAddrs T').Perm (r :: c.addrs) := by
    have := hperm.map Prod.fst
    simpa [tItems_fst, items_fst] using this
  obtain ⟨out, m'', q'', hdr, hpermO, hsorted, hemp, _⟩ :=
    drain_spec hlt (size q') m' q' T' hT' hm' (hO' hlt) (le_refl _)
  have hlive : ∀ a, Live m' q' a ↔ Live m q a :=
    live_of_addrs hT hT' (fun a => ⟨fun h => hpermA.subset h, fun h => hpermA.symm.subset h⟩)
  refine ⟨m', q', hupd, ⟨hm', T', hT'⟩, heapOrder_of_shape hT' (hO' hlt), ?_, hlive, hel, hcnt,
    out, m'', q'', _, hdr, elements_shape hT, ?_, ?_, hsorted.chain', hemp⟩
  · intro r' nd hr' hnd
    rcases T' with _ | ⟨r2, e2, c2⟩
    · have hroot : q'.root = none := hT'.1
      rw [hroot] at hr'
      cases hr'
    · obtain ⟨⟨hroot, pp, cp, hc, _⟩, _, _⟩ := hT'
      rw [hroot] at hr'
      cases hr'
      rw [hc] at hnd
      cases hnd
      rfl
  · exact hpermO.trans (hperm.map Prod.snd)
  · have h1 := hpermO.length_eq
    have h2 := hT'.2.2
    have h3 : (tAddrs T').length = (tItems T').length := by
      rw [← tItems_fst, List.length_map]
    simp only [List.length_map] at h1
    simp only [size]
    omega

theorem updatePriorities_restores_witness :
    ∃ m' q', updatePriorities intLess (overwrite (fun a => 7 - (a : Int)) exA4.1) exA4.2 =
        some (m', q') ∧ WellFormed m' q' ∧ HeapOrder intLess m' q' ∧
      (∀ r nd, q'.root = some r → m'.cells r = some nd → nd.sibling = none) ∧
      (∀ a, Live m' q' a ↔ Live (overwrite (fun a => 7 - (a : Int)) exA4.1) exA4.2 a) ∧
      (∀ a, eltAt m' a = eltAt (overwrite (fun a => 7 - (a : Int)) exA4.1) a) ∧
      size q' = size exA4.2 ∧
      ∃ out m'' q'' l, drain intLess (size q') m' q' = some (out, m'', q'') ∧
        elements (overwrite (fun a => 7 - (a : Int)) exA4.1) exA4.2 = some l ∧ out.Perm l ∧
        out.length = size exA4.2 ∧ out.Chain' (fun x y => intLess x y = false) ∧
        empty q'' = true :=
  updatePriorities_restores intLess intLess_strictWeakOrder _ _
    (wellFormed_overwrite exA4_reach (fun a => 7 - (a : Int))) (by decide)

/-- C9. Copy construction from a non-empty reachable heap `a` gives a heap `b` of the same
size with the same multiset of elements, in heap order under the same comparator and with
a `top()` equivalent to `a.top()`; the copy and any later pushes and pops on `b` leave
every node of `a` (links and element), hence its live set, `top()` and elements, as they
were. -/
theorem copy_independent (lt : α → α → Bool) (hlt : StrictWeakOrder lt) (ops : List (Op α))
    (m : Mem α) (a : PairingPQ) (h : Reach lt ops m a) (hne : empty a = false) :
    ∃ m' b la lb ta tb, copy lt m a = some (m', b) ∧ size b = size a ∧
      elements m a = some la ∧ elements m' b = some lb ∧ lb.Perm la ∧ HeapOrder lt m' b ∧
      top m a = some ta ∧ top m' b = some tb ∧ lt ta tb = false ∧ lt tb ta = false ∧
      ∀ m'' b', Later lt m' b m'' b' →
        (∀ x, Live m a x → m''.cells x = m.cells x) ∧ (∀ x, Live m'' a x ↔ Live m a x) ∧
        top m'' a = top m a ∧ elements m'' a = elements m a := by
  obtain ⟨T, hT, hm, hO, _, _⟩ := reach_inv h
  obtain ⟨r, e, c, rfl⟩ := shape_nonempty hT hne
  obtain ⟨m', b, Tb, hcopy, hTb, hm', hOb, hperm, hfr, hhi, hnx, hcnt⟩ := copy_spec hlt hm hT
  have hTbne : ∃ rb eb cb, Tb = some (rb, eb, cb) := by
    rcases Tb with _ | ⟨rb, eb, cb⟩
    · have := hperm.length_eq
      simp at this
    · exact ⟨rb, eb, cb, rfl⟩
  obtain ⟨rb, eb, cb, rfl⟩ := hTbne
  have hlo : ∀ x ∈ tAddrs (some (r, e, c)), x < m.next := shape_lt_next hm hT.1
  have htopa : top m a = some e := by
    obtain ⟨⟨hroot, pp, cp, hc, _⟩, _, _⟩ := hT
    simp [top, hroot, hc]
  have htopb : top m' b = some eb := by
    obtain ⟨⟨hroot, pp, cp, hc, _⟩, _, _⟩ := hTb
    simp [top, hroot, hc]
  refine ⟨m', b, _, _, e, eb, hcopy, hcnt, elements_shape hT, elements_shape hTb, hperm,
    heapOrder_of_shape hTb hOb, htopa, htopb, ?_, ?_, ?_⟩
  · exact root_max hlt (hO hlt) eb (hperm.subset (by simp))
  · exact root_max hlt hOb e (hperm.symm.subset (by simp))
  · intro m'' b' hlater
    obtain ⟨T2, _, _, _, _, _, hfr2⟩ := later_inv hlt m.next hlater _ hTb hm' hOb hhi hnx
    have hsame : ∀ x ∈ tAddrs (some (r, e, c)), m''.cells x = m.cells x := by
      intro x hx
      rw [hfr2 x (hlo x hx), hfr x (hlo x hx)]
    have hT'' : Shape m'' a (some (r, e, c)) := shape_frame hsame hT
    refine ⟨fun x hx => hsame x ((live_iff hT.1 x).mp hx),
      live_of_addrs hT hT'' (fun _ => Iff.rfl), ?_, ?_⟩
    · have hroot : a.root = some r := hT.1.1
      simp only [top, hroot]
      rw [hsame r (by simp)]
    · rw [elements_shape hT'', elements_shape hT]

theorem copy_independent_witness :
    ∃ m' b la lb ta tb, copy intLess exA4.1 exA4.2 = some (m', b) ∧ size b = size exA4.2 ∧
      elements exA4.1 exA4.2 = some la ∧ elements m' b = some lb ∧ lb.Perm la ∧
      HeapOrder intLess m' b ∧ top exA4.1 exA4.2 = some ta ∧ top m' b = some tb ∧
      intLess ta tb = false ∧ intLess tb ta = false ∧
      ∀ m'' b', Later intLess m' b m'' b' →
        (∀ x, Live exA4.1 exA4.2 x → m''.cells x = exA4.1.cells x) ∧
        (∀ x, Live m'' exA4.2 x ↔ Live exA4.1 exA4.2 x) ∧
        top m'' exA4.2 = top exA4.1 exA4.2 ∧ elements m'' exA4.2 = elements exA4.1 exA4.2 :=
  copy_independent intLess intLess_strictWeakOrder _ _ _ exA4_reach (by decide)
/-- C11. Evaluated on the code: `updatePriorities` on the empty heap pushes the null
`root` into the deque and then reads `cp->child` through it, so the loop has no defined
result whatever the fuel, and neither has the call (it does not complete and leave the
heap empty). -/
theorem updatePriorities_empty_undefined (lt : α → α → Bool) (m : Mem α) (fuel : Nat) :
    updLoop lt fuel m [emptyPQ.root] none = none ∧ updatePriorities lt m emptyPQ = none := by
  constructor
  · cases fuel <;> rfl
  · rfl

/-- C12. Evaluated on the code: the copy constructor applied to an empty heap pushes the
null `other.root` into the deque and then reads `cp->child` through it, so the loop has no
defined result whatever the fuel, and neither has the constructor (it does not yield an
empty heap). -/
theorem copy_empty_undefined (lt : α → α → Bool) (m : Mem α) (fuel : Nat) :
    copyLoop lt fuel m [emptyPQ.root] emptyPQ = none ∧ copy lt m emptyPQ = none := by
  constructor
  · cases fuel <;> rfl
  · rfl

theorem heapOrder_root {lt : α → α → Bool} {m : Mem α} {r : Option Nat} {k : Nat}
    (h : HeapOrder lt m ⟨r, k⟩) (j : Nat) : HeapOrder lt m ⟨r, j⟩ :=
  fun a hl hr => h a hl hr

/-- C14. The contract of `meld`: for two roots (either may be null) of heap-ordered trees
that share no node, each root without sibling, and an asymmetric comparator, `meld(a, b)`
returns null exactly when both are null, and otherwise the root of one heap-ordered tree
whose nodes are the nodes of the two trees, none lost and none twice. -/
theorem meld_contract (lt : α → α → Bool) (hasym : ∀ x y, lt x y = true → lt y x = false)
    (m : Mem α) (pa pb : Option Nat) (Ta Tb : Option (Nat × α × BT α))
    (hA : RootRep m pa Ta) (hB : RootRep m pb Tb) (hnd : (tAddrs Ta ++ tAddrs Tb).Nodup)
    (hOa : tOrd lt Ta) (hOb : tOrd lt Tb) :
    ∃ m' r T, meld lt m pa pb = some (m', r) ∧ (r = none ↔ pa = none ∧ pb = none) ∧
      RootRep m' r T ∧ tOrd lt T ∧ (∀ k, HeapOrder lt m' ⟨r, k⟩) ∧
      (tAddrs T).Perm (tAddrs Ta ++ tAddrs Tb) ∧ (tAddrs T).Nodup ∧
      (tItems T).Perm (tItems Ta ++ tItems Tb) ∧
      (∀ x, Live m' ⟨r, 0⟩ x ↔ (Live m ⟨pa, 0⟩ x ∨ Live m ⟨pb, 0⟩ x)) := by
  have key : ∀ (m' : Mem α) (r : Option Nat) (T : Option (Nat × α × BT α)),
      meld lt m pa pb = some (m', r) → (r = none ↔ pa = none ∧ pb = none) → RootRep m' r T →
      tOrd lt T → (tItems T).Perm (tItems Ta ++ tItems Tb) →
      ∃ m' r T, meld lt m pa pb = some (m', r) ∧ (r = none ↔ pa = none ∧ pb = none) ∧
        RootRep m' r T ∧ tOrd lt T ∧ (∀ k, HeapOrder lt m' ⟨r, k⟩) ∧
        (tAddrs T).Perm (tAddrs Ta ++ tAddrs Tb) ∧ (tAddrs T).Nodup ∧
        (tItems T).Perm (tItems Ta ++ tItems Tb) ∧
        (∀ x, Live m' ⟨r, 0⟩ x ↔ (Live m ⟨pa, 0⟩ x ∨ Live m ⟨pb, 0⟩ x)) := by
    intro m' r T hmeld hnone hR hO hperm
    have hpermA : (tAddrs T).Perm (tAddrs Ta ++ tAddrs Tb) := by
      have := hperm.map Prod.fst
      simpa [tItems_fst] using this
    have hndT : (tAddrs T).Nodup := hpermA.nodup_iff.mpr hnd
    have hS : Shape m' ⟨r, (tAddrs T).length⟩ T := ⟨hR, hndT, rfl⟩
    refine ⟨m', r, T, hmeld, hnone, hR, hO, fun k => heapOrder_root (heapOrder_of_shape hS hO) k,
      hpermA, hndT, hperm, ?_⟩
    intro x
    have h1 : Live m' ⟨r, 0⟩ x ↔ x ∈ tAddrs T := @live_iff α m' ⟨r, 0⟩ T hR x
    have h2 : Live m ⟨pa, 0⟩ x ↔ x ∈ tAddrs Ta := @live_iff α m ⟨pa, 0⟩ Ta hA x
    have h3 : Live m ⟨pb, 0⟩ x ↔ x ∈ tAddrs Tb := @live_iff α m ⟨pb, 0⟩ Tb hB x
    rw [h1, h2, h3, hpermA.mem_iff, List.mem_append]
  rcases Ta with _ | ⟨a, ea, ca⟩
  · have hpa : pa = none := hA
    subst hpa
    refine key m pb Tb (by simp [meld]) (by simp) hB hOb (by simp)
  · obtain ⟨hpa, ppa, hDa⟩ := hA
    subst hpa
    rcases Tb with _ | ⟨b, eb, cb⟩
    · have hpb : pb = none := hB
      subst hpb
      exact key m (some a) (some (a, ea, ca)) (by simp [meld]) (by simp) ⟨rfl, ppa, hDa⟩ hOa
        (by simp)
    · obtain ⟨hpb, ppb, hDb⟩ := hB
      subst hpb
      simp only [tAddrs_some, List.cons_append, List.nodup_cons, List.mem_append, List.mem_cons,
        not_or, List.nodup_append] at hnd
      obtain ⟨⟨haca, hab, hacb⟩, hndca, ⟨hbcb, hndcb⟩, hdisj⟩ := hnd
      have hbca : b ∉ ca.addrs := fun h => hdisj h (List.mem_cons_self _ _)
      obtain ⟨m', hm, h1, h2, _, _, _⟩ := meld_det lt hDa hDb hab haca hacb hbca hbcb
      cases hlt : lt ea eb with
      | true =>
        refine key m' (some b) (some (b, eb, BT.node a ea ca cb)) (by simpa [hlt] using hm)
          (by simp) ⟨rfl, ppb, h1 hlt⟩ ⟨hasym _ _ hlt, hOa, hOb⟩ ?_
        rw [← Multiset.coe_eq_coe]
        simp only [tItems_some, items_node, ← Multiset.cons_coe, ← Multiset.coe_add,
          ← Multiset.singleton_add]
        ac_rfl
      | false =>
        refine key m' (some a) (some (a, ea, BT.node b eb cb ca)) (by simpa [hlt] using hm)
          (by simp) ⟨rfl, ppa, h2 hlt⟩ ⟨hlt, hOb, hOa⟩ ?_
        rw [← Multiset.coe_eq_coe]
        simp only [tItems_some, items_node, ← Multiset.cons_coe, ← Multiset.coe_add,
          ← Multiset.singleton_add]
        ac_rfl

theorem exM_cell0 : exM.cells 0 = some ⟨10, none, none, none⟩ := rfl

theorem exM_cell1 : exM.cells 1 = some ⟨20, none, none, none⟩ := rfl

theorem exTie_cell0 : exTie.cells 0 = some ⟨10, none, none, none⟩ := rfl

theorem exTie_cell1 : exTie.cells 1 = some ⟨10, none, none, none⟩ := rfl

theorem meld_contract_witness :
    ∃ m' r T, meld intLess exM (some 0) (some 1) = some (m', r) ∧
      (r = none ↔ (some 0 : Option Nat) = none ∧ (some 1 : Option Nat) = none) ∧
      RootRep m' r T ∧ tOrd intLess T ∧ (∀ k, HeapOrder intLess m' ⟨r, k⟩) ∧
      (tAddrs T).Perm (tAddrs (some (0, (10 : Int), BT.nil)) ++ tAddrs (some (1, 20, BT.nil))) ∧
      (tAddrs T).Nodup ∧
      (tItems T).Perm (tItems (some (0, (10 : Int), BT.nil)) ++ tItems (some (1, 20, BT.nil))) ∧
      (∀ x, Live m' ⟨r, 0⟩ x ↔ (Live exM ⟨some 0, 0⟩ x ∨ Live exM ⟨some 1, 0⟩ x)) :=
  meld_contract intLess (fun _ _ h => intLess_strictWeakOrder.asymm h) exM (some 0) (some 1)
    (some (0, 10, BT.nil)) (some (1, 20, BT.nil))
    ⟨rfl, none, none, exM_cell0, rfl⟩ ⟨rfl, none, none, exM_cell1, rfl⟩ (by decide) trivial
    trivial

/-- C15. The exact effect of `meld`: a null argument returns the other argument and writes
nothing; for two distinct live nodes the loser of the comparison becomes the first child
of the winner through exactly three link writes (loser.sibling := winner's old child,
winner.child := loser, loser.parent := winner), the winner is returned with sibling and
parent untouched, no element and no other cell changes; when `compare(a.elt, b.elt)` is
false (ties included) the second argument `b` becomes the child of `a`. -/
theorem meld_exact_effect (lt : α → α → Bool) (m : Mem α) (a b : Nat) (na nb : Node α)
    (hab : a ≠ b) (ha : m.cells a = some na) (hb : m.cells b = some nb) :
    (∀ pb, meld lt m none pb = some (m, pb)) ∧ meld lt m (some a) none = some (m, some a) ∧
    (lt na.elt nb.elt = true →
      ∃ m', meld lt m (some a) (some b) = some (m', some b) ∧
        m'.cells a = some ⟨na.elt, na.child, nb.child, some b⟩ ∧
        m'.cells b = some ⟨nb.elt, some a, nb.sibling, nb.parent⟩ ∧
        (∀ x, x ≠ a → x ≠ b → m'.cells x = m.cells x) ∧ m'.next = m.next) ∧
    (lt na.elt nb.elt = false →
      ∃ m', meld lt m (some a) (some b) = some (m', some a) ∧
        m'.cells b = some ⟨nb.elt, nb.child, na.child, some a⟩ ∧
        m'.cells a = some ⟨na.elt, some b, na.sibling, na.parent⟩ ∧
        (∀ x, x ≠ a → x ≠ b → m'.cells x = m.cells x) ∧ m'.next = m.next) := by
  have hba : b ≠ a := Ne.symm hab
  refine ⟨fun pb => by simp [meld], by simp [meld], ?_, ?_⟩
  · intro h
    refine ⟨_, meld_eval_lt ha hb hab h, by simp, by simp [hba], ?_, rfl⟩
    intro x hxa hxb
    simp [hxa, hxb]
  · intro h
    refine ⟨_, meld_eval_ge ha hb hab h, by simp, by simp [hab], ?_, rfl⟩
    intro x hxa hxb
    simp [hxa, hxb]

theorem meld_exact_effect_witness :
    (∀ pb, meld intLess exM none pb = some (exM, pb)) ∧
    meld intLess exM (some 0) none = some (exM, some 0) ∧
    (intLess 10 20 = true →
      ∃ m', meld intLess exM (some 0) (some 1) = some (m', some 1) ∧
        m'.cells 0 = some ⟨10, none, none, some 1⟩ ∧
        m'.cells 1 = some ⟨20, some 0, none, none⟩ ∧
        (∀ x, x ≠ 0 → x ≠ 1 → m'.cells x = exM.cells x) ∧ m'.next = exM.next) ∧
    (intLess 10 20 = false →
      ∃ m', meld intLess exM (some 0) (some 1) = some (m', some 0) ∧
        m'.cells 1 = some ⟨20, none, none, some 0⟩ ∧
        m'.cells 0 = some ⟨10, some 1, none, none⟩ ∧
        (∀ x, x ≠ 0 → x ≠ 1 → m'.cells x = exM.cells x) ∧ m'.next = exM.next) :=
  meld_exact_effect intLess exM 0 1 ⟨10, none, none, none⟩ ⟨20, none, none, none⟩ (by decide)
    exM_cell0 exM_cell1

/-- C16, as stated, fails on the code: two distinct nodes both holding `10` tie under
`std::less<int>`, and `meld(a, b)` does not return `b`. -/
theorem meld_tie_counterexample :
    intLess 10 10 = false ∧ ¬ ∃ m', meld intLess exTie (some 0) (some 1) = some (m', some 1) := by
  refine ⟨by decide, ?_⟩
  rintro ⟨m', h⟩
  have h2 := @meld_eval_ge Int intLess exTie 0 1 _ _ exTie_cell0 exTie_cell1 (by decide) (by decide)
  rw [h2] at h
  simp at h

/-- C16, amended. On a tie (neither element compares below the other) `meld(a, b)` on two
distinct live nodes takes the `else` branch: it returns the first argument `a`, and the
second argument `b` becomes the first child of `a` (in front of the old children of `a`),
with parent link `a`. -/
theorem meld_tie (lt : α → α → Bool) (m : Mem α) (a b : Nat) (na nb : Node α) (hab : a ≠ b)
    (ha : m.cells a = some na) (hb : m.cells b = some nb) (h1 : lt na.elt nb.elt = false)
    (_h2 : lt nb.elt na.elt = false) :
    ∃ m', meld lt m (some a) (some b) = some (m', some a) ∧
      m'.cells a = some ⟨na.elt, some b, na.sibling, na.parent⟩ ∧
      m'.cells b = some ⟨nb.elt, nb.child, na.child, some a⟩ := by
  refine ⟨_, meld_eval_ge ha hb hab h1, by simp [hab], by simp⟩

theorem meld_tie_witness :
    ∃ m', meld intLess exTie (some 0) (some 1) = some (m', some 0) ∧
      m'.cells 0 = some ⟨10, some 1, none, none⟩ ∧
      m'.cells 1 = some ⟨10, none, none, some 0⟩ :=
  meld_tie intLess exTie 0 1 ⟨10, none, none, none⟩ ⟨10, none, none, none⟩ (by decide)
    exTie_cell0 exTie_cell1 (by decide) (by decide)
/-! ## The live nodes form a tree -/

theorem rep_reach_closed {m : Mem α} {t : BT α} {p par : Option Nat} (h : Rep m p par t)
    {a b : Nat} (ha : a ∈ t.addrs) (hab : Relation.ReflTransGen (Link m) a b) :
    b ∈ t.addrs := by
  induction hab with
  | refl => exact ha
  | tail _ hl ih => exact rep_link_closed h _ _ ih hl

/-- No node of a forest links to the first tree root of the forest. -/
theorem rep_head_no_pred {m : Mem α} {t : BT α} {h : Nat} {par : Option Nat}
    (hrep : Rep m (some h) par t) (hnd : t.addrs.Nodup) {a : Nat} (ha : a ∈ t.addrs) :
    ¬ Link m a h := by
  intro hl
  cases t with
  | nil => simp at hrep
  | node x e c s =>
    rw [rep_node] at hrep
    obtain ⟨hx, cp, sp, hc, hrc, hrs⟩ := hrep
    simp only [Option.some.injEq] at hx
    subst hx
    simp only [addrs_node, List.nodup_cons, List.mem_append, not_or, List.nodup_append] at hnd
    obtain ⟨⟨hxs, hxc⟩, hnds, hndc, hdisj⟩ := hnd
    simp only [addrs_node, List.mem_cons, List.mem_append] at ha
    rcases ha with rfl | ha | ha
    · obtain ⟨n, hn, hl⟩ := hl
      rw [hc] at hn
      cases hn
      rcases hl with hl | hl
      · simp only at hl
        subst hl
        exact hxc (rep_head_mem hrc)
      · simp only at hl
        subst hl
        exact hxs (rep_head_mem hrs)
    · exact hxs (rep_link_closed hrs _ _ ha hl)
    · exact hxc (rep_link_closed hrc _ _ ha hl)

/-- Every node of a forest has at most one predecessor in the forest. -/
theorem rep_link_unique {m : Mem α} {t : BT α} : ∀ {p par : Option Nat}, Rep m p par t →
    t.addrs.Nodup → ∀ a a' b, a ∈ t.addrs → a' ∈ t.addrs → Link m a b → Link m a' b →
    a = a' := by
  induction t with
  | nil => intro p par _ _ a a' b h; simp at h
  | node x e c s ihc ihs =>
    intro p par hrep hnd a a' b ha ha' hl hl'
    rw [rep_node] at hrep
    obtain ⟨_, cp, sp, hc, hrc, hrs⟩ := hrep
    simp only [addrs_node, List.nodup_cons, List.mem_append, not_or, List.nodup_append] at hnd
    obtain ⟨⟨hxs, hxc⟩, hnds, hndc, hdisj⟩ := hnd
    -- where a link out of `x` lands
    have hx : ∀ y, Link m x y → (cp = some y ∧ y ∈ c.addrs) ∨ (sp = some y ∧ y ∈ s.addrs) := by
      intro y hy
      obtain ⟨n, hn, hy⟩ := hy
      rw [hc] at hn
      cases hn
      rcases hy with hy | hy
      · simp only at hy
        subst hy
        exact Or.inl ⟨rfl, rep_head_mem hrc⟩
      · simp only at hy
        subst hy
        exact Or.inr ⟨rfl, rep_head_mem hrs⟩
    have hxin : ∀ y z, Link m x y → ((z ∈ c.addrs ∧ y ∈ c.addrs) ∨ (z ∈ s.addrs ∧ y ∈ s.addrs)) →
        ¬ Link m z y := by
      intro y z hxy hz hzy
      rcases hx y hxy with ⟨hcp, hyc⟩ | ⟨hsp, hys⟩
      · rcases hz with ⟨hzc, _⟩ | ⟨_, hys⟩
        · exact rep_head_no_pred (hcp ▸ hrc) hndc hzc hzy
        · exact hdisj hys hyc
      · rcases hz with ⟨_, hyc⟩ | ⟨hzs, _⟩
        · exact hdisj hys hyc
        · exact rep_head_no_pred (hsp ▸ hrs) hnds hzs hzy
    simp only [addrs_node, List.mem_cons, List.mem_append] at ha ha'
    rcases ha with rfl | ha | ha
    · rcases ha' with rfl | ha' | ha'
      · rfl
      · exact absurd hl' (hxin b a' hl (Or.inr ⟨ha', rep_link_closed hrs _ _ ha' hl'⟩))
      · exact absurd hl' (hxin b a' hl (Or.inl ⟨ha', rep_link_closed hrc _ _ ha' hl'⟩))
    · have hbs := rep_link_closed hrs _ _ ha hl
      rcases ha' with rfl | ha' | ha'
      · exact absurd hl (hxin b a hl' (Or.inr ⟨ha, hbs⟩))
      · exact ihs hrs hnds a a' b ha ha' hl hl'
      · exact absurd (rep_link_closed hrc _ _ ha' hl') (fun h => hdisj hbs h)
    · have hbc := rep_link_closed hrc _ _ ha hl
      rcases ha' with rfl | ha' | ha'
      · exact absurd hl (hxin b a hl' (Or.inl ⟨ha, hbc⟩))
      · exact absurd hbc (fun h => hdisj (rep_link_closed hrs _ _ ha' hl') h)
      · exact ihc hrc hndc a a' b ha ha' hl hl'

/-- No node of a forest reaches itself through one or more links. -/
theorem rep_acyclic {m : Mem α} {t : BT α} : ∀ {p par : Option Nat}, Rep m p par t →
    t.addrs.Nodup → ∀ a ∈ t.addrs, ¬ Relation.TransGen (Link m) a a := by
  induction t with
  | nil => intro p par _ _ a h; simp at h
  | node x e c s ihc ihs =>
    intro p par hrep hnd a ha hcyc
    rw [rep_node] at hrep
    obtain ⟨_, cp, sp, hc, hrc, hrs⟩ := hrep
    simp only [addrs_node, List.nodup_cons, List.mem_append, not_or, List.nodup_append] at hnd
    obtain ⟨⟨hxs, hxc⟩, hnds, hndc, hdisj⟩ := hnd
    simp only [addrs_node, List.mem_cons, List.mem_append] at ha
    rcases ha with rfl | ha | ha
    · obtain ⟨b, hab, hba⟩ := Relation.TransGen.head'_iff.mp hcyc
      obtain ⟨n, hn, hl⟩ := hab
      rw [hc] at hn
      cases hn
      rcases hl with hl | hl
      · simp only at hl
        subst hl
        exact hxc (rep_reach_closed hrc (rep_head_mem hrc) hba)
      · simp only at hl
        subst hl
        exact hxs (rep_reach_closed hrs (rep_head_mem hrs) hba)
    · exact ihs hrs hnds a ha hcyc
    · exact ihc hrc hndc a ha hcyc

/-- The child link and the sibling link of a node of a forest never coincide. -/
theorem rep_child_ne_sibling {m : Mem α} {t : BT α} : ∀ {p par : Option Nat}, Rep m p par t →
    t.addrs.Nodup → ∀ a nd y, a ∈ t.addrs → m.cells a = some nd → nd.child = some y →
    nd.sibling ≠ some y := by
  induction t with
  | nil => intro p par _ _ a nd y h; simp at h
  | node x e c s ihc ihs =>
    intro p par hrep hnd a nd y ha hcell hch hsib
    rw [rep_node] at hrep
    obtain ⟨_, cp, sp, hc, hrc, hrs⟩ := hrep
    simp only [addrs_node, List.nodup_cons, List.mem_append, not_or, List.nodup_append] at hnd
    obtain ⟨⟨hxs, hxc⟩, hnds, hndc, hdisj⟩ := hnd
    simp only [addrs_node, List.mem_cons, List.mem_append] at ha
    rcases ha with rfl | ha | ha
    · rw [hc] at hcell
      cases hcell
      simp only at hch hsib
      subst hch
      subst hsib
      exact hdisj (rep_head_mem hrs) (rep_head_mem hrc)
    · exact ihs hrs hnds a nd y ha hcell hch hsib
    · exact ihc hrc hndc a nd y ha hcell hch hsib

/-- The whole heap as one represented forest. -/
theorem shape_rep {m : Mem α} {q : PairingPQ} {r : Nat} {e : α} {c : BT α}
    (hT : Shape m q (some (r, e, c))) :
    ∃ pp, Rep m (some r) pp (BT.node r e c BT.nil) ∧ (BT.node r e c BT.nil).addrs.Nodup ∧
      ∀ a, Live m q a ↔ a ∈ (BT.node r e c BT.nil).addrs := by
  have hR := hT.1
  obtain ⟨⟨hroot, pp, cp, hc, hr⟩, hnd, _⟩ := hT
  refine ⟨pp, ?_, by simpa using hnd, fun a => ?_⟩
  · rw [rep_node]
    exact ⟨rfl, cp, none, hc, hr, by simp⟩
  · rw [live_iff hR a]
    simp

/-- C17. `count` matches the structure: in every reachable state the traversal from the
root visits every live node exactly once, `size()` is the number of nodes visited, no live
node lies on a cycle of links, no node has two live predecessors, nothing links to the
root, and no node has the same node as child and as sibling. -/
theorem count_matches_structure (lt : α → α → Bool) (ops : List (Op α)) (m : Mem α)
    (q : PairingPQ) (h : Reach lt ops m q) :
    ∃ l : List (Nat × α), contents m q = some l ∧ (l.map Prod.fst).Nodup ∧
      (∀ a, Live m q a ↔ a ∈ l.map Prod.fst) ∧ size q = l.length ∧
      (∀ a, Live m q a → ¬ Relation.TransGen (Link m) a a) ∧
      (∀ a a' b, Live m q a → Live m q a' → Link m a b → Link m a' b → a = a') ∧
      (∀ a r, q.root = some r → Live m q a → ¬ Link m a r) ∧
      (∀ a nd y, Live m q a → m.cells a = some nd → nd.child = some y →
        nd.sibling ≠ some y) := by
  obtain ⟨T, hT, _, _, _, _⟩ := reach_inv h
  have hlive : ∀ a, Live m q a ↔ a ∈ (tItems T).map Prod.fst := by
    intro a
    rw [tItems_fst]
    exact live_iff hT.1 a
  have hsz : size q = (tItems T).length := by
    have := hT.2.2
    rw [← tItems_fst, List.length_map] at this
    exact this
  have hnd : ((tItems T).map Prod.fst).Nodup := by
    rw [tItems_fst]
    exact hT.2.1
  refine ⟨tItems T, contents_shape hT, hnd, hlive, hsz, ?_⟩
  rcases T with _ | ⟨r, e, c⟩
  · have hno : ∀ a, ¬ Live m q a := fun a ha => by simpa using (hlive a).mp ha
    exact ⟨fun a ha => absurd ha (hno a), fun a _ _ ha => absurd ha (hno a),
      fun a _ _ ha => absurd ha (hno a), fun a _ _ ha => absurd ha (hno a)⟩
  · obtain ⟨pp, hrep, hndt, hl⟩ := shape_rep hT
    refine ⟨fun a ha => rep_acyclic hrep hndt a ((hl a).mp ha),
      fun a a' b ha ha' => rep_link_unique hrep hndt a a' b ((hl a).mp ha) ((hl a').mp ha'),
      ?_, fun a nd y ha => rep_child_ne_sibling hrep hndt a nd y ((hl a).mp ha)⟩
    intro a r' hr' ha
    rw [hT.1.1] at hr'
    cases hr'
    exact rep_head_no_pred hrep hndt ((hl a).mp ha)

theorem count_matches_structure_witness :
    ∃ l : List (Nat × Int), contents exA4.1 exA4.2 = some l ∧ (l.map Prod.fst).Nodup ∧
      (∀ a, Live exA4.1 exA4.2 a ↔ a ∈ l.map Prod.fst) ∧ size exA4.2 = l.length ∧
      (∀ a, Live exA4.1 exA4.2 a → ¬ Relation.TransGen (Link exA4.1) a a) ∧
      (∀ a a' b, Live exA4.1 exA4.2 a → Live exA4.1 exA4.2 a' → Link exA4.1 a b →
        Link exA4.1 a' b → a = a') ∧
      (∀ a r, exA4.2.root = some r → Live exA4.1 exA4.2 a → ¬ Link exA4.1 a r) ∧
      (∀ a nd y, Live exA4.1 exA4.2 a → exA4.1.cells a = some nd → nd.child = some y →
        nd.sibling ≠ some y) :=
  count_matches_structure intLess _ _ _ exA4_reach
/-! ## Parent links and sibling chains -/

/-- Every tree root of a forest lies on the sibling chain from the forest's head. -/
theorem rep_top_chain {m : Mem α} {n : Nat} {t : BT α} : ∀ {p par : Option Nat},
    Rep m p par t → n ∈ t.topAddrs →
    ∃ c, p = some c ∧ Relation.ReflTransGen (SibLink m) c n := by
  induction t with
  | nil => intro p par _ h; simp at h
  | node x e c s ihc ihs =>
    intro p par h hn
    rw [rep_node] at h
    obtain ⟨hp, cp, sp, hc, hrc, hrs⟩ := h
    refine ⟨x, hp, ?_⟩
    simp only [topAddrs_node, List.mem_cons] at hn
    rcases hn with rfl | hn
    · exact Relation.ReflTransGen.refl
    · obtain ⟨y, hy, hreach⟩ := ihs hrs hn
      exact Relation.ReflTransGen.head ⟨_, hc, hy⟩ hreach

/-- The sibling chain from the head of a forest only meets tree roots of the forest. -/
theorem chain_top {m : Mem α} {n : Nat} {t : BT α} : ∀ {c0 : Nat} {par : Option Nat},
    Rep m (some c0) par t → Relation.ReflTransGen (SibLink m) c0 n → n ∈ t.topAddrs := by
  induction t with
  | nil => intro c0 par h; simp at h
  | node x e c s ihc ihs =>
    intro c0 par h hreach
    rw [rep_node] at h
    obtain ⟨hp, cp, sp, hc, hrc, hrs⟩ := h
    simp only [Option.some.injEq] at hp
    subst hp
    rcases Relation.ReflTransGen.cases_head hreach with rfl | ⟨y, hy, hrest⟩
    · simp
    · obtain ⟨nd, hnd, hsib⟩ := hy
      rw [hc] at hnd
      cases hnd
      simp only at hsib
      subst hsib
      simp [ihs hrs hrest]

/-- Below the parent `pa` of the forest `full`, every node of a sub-forest `t` has a live
parent whose whole child list contains the node as a tree root. -/
theorem parent_forest_rep {m : Mem α} {n : Nat} {t : BT α} :
    ∀ {p : Option Nat} {pa : Nat} {npa : Node α} {full : BT α}, Rep m p (some pa) t →
    m.cells pa = some npa → Rep m npa.child (some pa) full → full.addrs.Nodup →
    pa ∉ full.addrs → (∀ x ∈ t.topAddrs, x ∈ full.topAddrs) → (∀ x ∈ t.addrs, x ∈ full.addrs) →
    t.addrs.Nodup → n ∈ t.addrs →
    ∃ nd par pn cpar, m.cells n = some nd ∧ nd.parent = some par ∧ m.cells par = some pn ∧
      Rep m pn.child (some par) cpar ∧ n ∈ cpar.topAddrs ∧ cpar.addrs.Nodup ∧
      par ∉ cpar.addrs ∧ (par = pa ∨ par ∈ t.addrs) ∧ ∀ x ∈ cpar.addrs, x ∈ full.addrs := by
  induction t with
  | nil => intro p pa npa full _ _ _ _ _ _ _ _ h; simp at h
  | node x e c s ihc ihs =>
    intro p pa npa full h hpa hfull hndf hpaf htop hsub hnd hmem
    rw [rep_node] at h
    obtain ⟨_, cp, sp, hc, hrc, hrs⟩ := h
    simp only [addrs_node, List.nodup_cons, List.mem_append, not_or, List.nodup_append] at hnd
    obtain ⟨⟨hxs, hxc⟩, hnds, hndc, hdisj⟩ := hnd
    simp only [addrs_node, List.mem_cons, List.mem_append] at hmem
    rcases hmem with rfl | hmem | hmem
    · exact ⟨_, pa, npa, full, hc, rfl, hpa, hfull, htop _ (by simp), hndf, hpaf, Or.inl rfl,
        fun _ h => h⟩
    · obtain ⟨nd, par, pn, cpar, h1, h2, h3, h4, h5, h6, h7, h8, h9⟩ :=
        ihs hrs hpa hfull hndf hpaf (fun y hy => htop y (by simp [hy]))
          (fun y hy => hsub y (by simp [hy])) hnds hmem
      refine ⟨nd, par, pn, cpar, h1, h2, h3, h4, h5, h6, h7, ?_, h9⟩
      rcases h8 with h8 | h8
      · exact Or.inl h8
      · exact Or.inr (by simp [h8])
    · obtain ⟨nd, par, pn, cpar, h1, h2, h3, h4, h5, h6, h7, h8, h9⟩ :=
        ihc hrc hc hrc hndc hxc (fun _ h => h) (fun _ h => h) hndc hmem
      refine ⟨nd, par, pn, cpar, h1, h2, h3, h4, h5, h6, h7, ?_,
        fun y hy => hsub y (by simp [h9 y hy])⟩
      rcases h8 with h8 | h8
      · exact Or.inr (by simp [h8])
      · exact Or.inr (by simp [h8])

/-- The parent of a node of a heap other than the root, with the parent's child list. -/
theorem parent_forest {m : Mem α} {q : PairingPQ} {r : Nat} {e : α} {c : BT α}
    (hT : Shape m q (some (r, e, c))) {n : Nat} (hn : n ∈ c.addrs) :
    ∃ nd par pn cpar, m.cells n = some nd ∧ nd.parent = some par ∧ m.cells par = some pn ∧
      Rep m pn.child (some par) cpar ∧ n ∈ cpar.topAddrs ∧ cpar.addrs.Nodup ∧
      par ∉ cpar.addrs ∧ par ∈ r :: c.addrs ∧ ∀ x ∈ cpar.addrs, x ∈ c.addrs := by
  obtain ⟨⟨hroot, pp, cp, hc, hr⟩, hnd, _⟩ := hT
  simp only [tAddrs_some, List.nodup_cons] at hnd
  obtain ⟨nd, par, pn, cpar, h1, h2, h3, h4, h5, h6, h7, h8, h9⟩ :=
    parent_forest_rep hr hc hr hnd.2 hnd.1 (fun _ h => h) (fun _ h => h) hnd.2 hn
  refine ⟨nd, par, pn, cpar, h1, h2, h3, h4, h5, h6, h7, ?_, h9⟩
  rcases h8 with h8 | h8
  · simp [h8]
  · simp [h8]

/-- The child list of any node of a heap. -/
theorem child_forest {m : Mem α} {q : PairingPQ} {r : Nat} {e : α} {c : BT α}
    (hT : Shape m q (some (r, e, c))) {p : Nat} (hp : p ∈ r :: c.addrs) :
    ∃ np cp, m.cells p = some np ∧ Rep m np.child (some p) cp := by
  obtain ⟨⟨hroot, pp, cp, hc, hr⟩, hnd, _⟩ := hT
  simp only [List.mem_cons] at hp
  rcases hp with rfl | hp
  · exact ⟨_, c, hc, hr⟩
  · obtain ⟨e', c', hf⟩ := find_of_mem hp
    obtain ⟨cp', sp', pp', hcell, hrep⟩ := rep_find hr e' c' hf
    exact ⟨_, c', hcell, hrep⟩

/-- C18. Parent links are accurate below the root: in every reachable state each live node
`n` other than the root has a parent link to a live node `p` such that `n` occurs in the
sibling chain starting at `p->child`, and `p` is the only live node with that property. -/
theorem parent_links_accurate (lt : α → α → Bool) (ops : List (Op α)) (m : Mem α)
    (q : PairingPQ) (h : Reach lt ops m q) (n : Nat) (hlive : Live m q n)
    (hnr : q.root ≠ some n) :
    ∃ nd p, m.cells n = some nd ∧ nd.parent = some p ∧ Live m q p ∧ ChildOf m p n ∧
      ∀ p', Live m q p' → ChildOf m p' n → p' = p := by
  obtain ⟨T, hT, _, _, _, _⟩ := reach_inv h
  rcases T with _ | ⟨r, e, c⟩
  · have hroot : q.root = none := hT.1
    obtain ⟨r, hr, _⟩ := hlive
    rw [hroot] at hr
    cases hr
  · have hn := live_nonroot hT hlive hnr
    obtain ⟨nd, par, pn, cpar, h1, h2, h3, h4, h5, _, _, h8, _⟩ := parent_forest hT hn
    obtain ⟨c0, hc0, hchain⟩ := rep_top_chain h4 h5
    refine ⟨nd, par, h1, h2, (live_iff hT.1 par).mpr h8, ⟨pn, c0, h3, hc0, hchain⟩, ?_⟩
    intro p' hp' hch
    obtain ⟨np', c0', hcell', hchild', hchain'⟩ := hch
    obtain ⟨np2, cp2, hcell2, hrep2⟩ := child_forest hT ((live_iff hT.1 p').mp hp')
    rw [hcell'] at hcell2
    cases hcell2
    rw [hchild'] at hrep2
    obtain ⟨nd', hnd', hpar'⟩ := rep_top_parent hrep2 (chain_top hrep2 hchain')
    rw [h1] at hnd'
    cases hnd'
    rw [h2] at hpar'
    exact (Option.some.inj hpar').symm

theorem parent_links_accurate_witness :
    ∃ nd p, exB2.1.cells 0 = some nd ∧ nd.parent = some p ∧ Live exB2.1 exB2.2 p ∧
      ChildOf exB2.1 p 0 ∧ ∀ p', Live exB2.1 exB2.2 p' → ChildOf exB2.1 p' 0 → p' = p :=
  parent_links_accurate intLess _ _ _ exB2_reach 0 exB2_live0 (by decide)
/-! ## The detachment scan of updateElt -/

theorem topAddrs_eq_tops (t : BT α) : t.topAddrs = t.tops.map fun f => f.1 := by
  induction t with
  | nil => simp [BT.tops]
  | node a e c s ihc ihs => simp [BT.tops, ihs]

theorem setElt_topAddrs (n : Nat) (v : α) (t : BT α) : (t.setElt n v).topAddrs = t.topAddrs := by
  induction t with
  | nil => simp [BT.setElt]
  | node a e c s ihc ihs => simp [BT.setElt, ihs]

theorem remove_topAddrs (n : Nat) (t : BT α) : (t.remove n).topAddrs = t.topAddrs.erase n := by
  induction t with
  | nil => simp [BT.remove]
  | node a e c s ihc ihs =>
    by_cases h : a = n
    · simp [BT.remove, h]
    · simp [BT.remove, h, ihs, List.erase_cons_tail]

theorem topAddrs_nodup {t : BT α} (h : t.addrs.Nodup) : t.topAddrs.Nodup := by
  induction t with
  | nil => simp
  | node a e c s ihc ihs =>
    simp only [addrs_node, List.nodup_cons, List.mem_append, not_or, List.nodup_append] at h
    obtain ⟨⟨has, _⟩, hnds, _, _⟩ := h
    simp only [topAddrs_node, List.nodup_cons]
    exact ⟨fun h => has (topAddrs_subset _ h), ihs hnds⟩

/-- The scan of `updateElt` stops on a live node whose sibling link is the handle. -/
theorem scan_some {m : Mem α} {n prev : Nat} : ∀ (fuel : Nat) (p : Option Nat),
    scan fuel m p n = some prev → ∃ np, m.cells prev = some np ∧ np.sibling = some n := by
  intro fuel
  induction fuel with
  | zero => intro p h; simp [scan] at h
  | succ k ih =>
    intro p h
    cases p with
    | none => simp [scan] at h
    | some a =>
      simp only [scan] at h
      cases hc : m.cells a with
      | none => simp [hc] at h
      | some na =>
        simp only [hc] at h
        by_cases hs : na.sibling = some n
        · simp only [hs, if_true, Option.some.injEq] at h
          subst h
          exact ⟨na, hc, hs⟩
        · simp only [hs, if_false] at h
          exact ih _ h

/-- The detachment step of `updateElt` seen from the parent `par` of the handle `n`: the
child list `t` of `par` loses the tree of `n`, and only one link is rewritten. -/
theorem detach_top {m : Mem α} {n par : Nat} {nd pn : Node α} {t : BT α}
    (hn : m.cells n = some nd) (hpar : nd.parent = some par) (hp : m.cells par = some pn)
    (hrep : Rep m pn.child (some par) t) (hnd : t.addrs.Nodup) (hpt : par ∉ t.addrs)
    (htop : n ∈ t.topAddrs) (fuel : Nat) (hfuel : t.topAddrs.length ≤ fuel) :
    ∃ m2 pn2, unlink fuel m n = some m2 ∧ m2.cells par = some pn2 ∧
      Rep m2 pn2.child (some par) (t.remove n) ∧ m2.cells n = some nd ∧
      (∀ x, x ≠ par → x ∉ t.topAddrs.erase n → m2.cells x = m.cells x) ∧
      (pn.child = some n ∨ ∃ prev np, pn.child ≠ some n ∧
        scan fuel m pn.child n = some prev ∧ m.cells prev = some np ∧
        np.sibling = some n ∧ prev ∈ t.topAddrs ∧ prev ≠ n) := by
  have hnpar : n ≠ par := fun h => hpt (h ▸ topAddrs_subset n htop)
  by_cases hc : pn.child = some n
  · rw [hc] at hrep
    cases t with
    | nil => simp at hrep
    | node a e c s =>
      rw [rep_node] at hrep
      obtain ⟨ha, cp, sp, hcell, hrc, hrs⟩ := hrep
      simp only [Option.some.injEq] at ha
      subst ha
      rw [hn] at hcell
      simp only [Option.some.injEq] at hcell
      subst hcell
      refine ⟨m.write par ⟨pn.elt, sp, pn.sibling, pn.parent⟩, ⟨pn.elt, sp, pn.sibling, pn.parent⟩,
        ?_, by simp, ?_, by simp [hnpar, hn], ?_, Or.inl hc⟩
      · simp [unlink, hn, hp, hc, setChild]
      · simp only [BT.remove, if_true]
        refine rep_frame (fun x hx => ?_) hrs
        have : x ≠ par := fun h => hpt (h ▸ (by simp [hx]))
        simp [this]
      · intro x hx _
        simp [hx]
  · obtain ⟨prev, np, hscan, hcp, hprev, hrep2⟩ :=
      scan_chain hn t pn.child (some par) fuel hrep hnd htop hc hfuel
    have hprev2 := hprev
    rw [remove_topAddrs, (topAddrs_nodup hnd).mem_erase_iff] at hprev2
    have hprevpar : prev ≠ par := fun h => hpt (h ▸ topAddrs_subset _ hprev2.2)
    obtain ⟨np', hnp', hsib⟩ := scan_some _ _ hscan
    rw [hcp] at hnp'
    cases hnp'
    refine ⟨m.write prev ⟨np.elt, np.child, nd.sibling, np.parent⟩, pn, ?_,
      by simp [Ne.symm hprevpar, hp], hrep2, by simp [Ne.symm hprev2.1, hn], ?_,
      Or.inr ⟨prev, np, hc, hscan, hcp, hsib, hprev2.2, hprev2.1⟩⟩
    · simp [unlink, hn, hpar, hp, hc, hscan, setSibling, hcp]
    · intro x _ hx
      have : x ≠ prev := fun h => hx (by
        rw [(topAddrs_nodup hnd).mem_erase_iff]
        exact h ▸ hprev2)
      simp [this]

/-- C19. The detachment scan of `updateElt` is safe and terminates. In a reachable heap, for
a live handle `node` other than the root whose new value `v` is more extreme than its
parent's element: the sibling chain from `node->parent->child` ends in `nullptr` and
contains `node`; either `node` is the first child or the scan stops, without stepping onto
`nullptr`, on a sibling `prev` with `prev->sibling == node`; after the splice the parent's
child list is the old one with `node` erased, the other siblings in their old order; `node`
then holds `v`, its old child link, and null sibling and parent links; every node below
`node` is untouched; and `meld(root, node)` runs on that store and gives the result. -/
theorem updateElt_scan_safe (lt : α → α → Bool) (ops : List (Op α)) (m : Mem α)
    (q : PairingPQ) (h : Reach lt ops m q) (node : Nat) (v : α) (nd pn : Node α) (par : Nat)
    (hlive : Live m q node) (hnr : q.root ≠ some node) (hn : m.cells node = some nd)
    (hpar : nd.parent = some par) (hp : m.cells par = some pn) (hlt : lt pn.elt v = true) :
    ∃ m1 l m2 pn2 m3 m4 m5 r5,
      setElt m node v = some m1 ∧ m1.cells par = some pn ∧
      collect q.num_nodes m1 pn.child = some l ∧ node ∈ l ∧ l.Nodup ∧
      (pn.child = some node ∨ ∃ prev np, pn.child ≠ some node ∧
        scan q.num_nodes m1 pn.child node = some prev ∧ m1.cells prev = some np ∧
        np.sibling = some node ∧ prev ∈ l ∧ prev ≠ node) ∧
      unlink q.num_nodes m1 node = some m2 ∧ m2.cells par = some pn2 ∧
      collect q.num_nodes m2 pn2.child = some (l.erase node) ∧
      setSibling m2 node none = some m3 ∧ setParent m3 node none = some m4 ∧
      m4.cells node = some ⟨v, nd.child, none, none⟩ ∧
      (∀ x, InTree m node x → x ≠ node → m4.cells x = m.cells x) ∧
      meld lt m4 q.root (some node) = some (m5, r5) ∧
      updateElt lt m q node v = some (m5, ⟨r5, q.num_nodes⟩) := by
  obtain ⟨T, hT, hm, _, _, _⟩ := reach_inv h
  rcases T with _ | ⟨r, e, c⟩
  · have hroot : q.root = none := hT.1
    obtain ⟨r, hr, _⟩ := hlive
    rw [hroot] at hr
    cases hr
  · have hmem := live_nonroot hT hlive hnr
    obtain ⟨nd', par', pn', cpar, h1, h2, h3, h4, h5, h6, h7, _, h9⟩ := parent_forest hT hmem
    rw [hn] at h1
    cases h1
    rw [hpar] at h2
    cases h2
    rw [hp] at h3
    cases h3
    have hcount : q.num_nodes = (r :: c.addrs).length := by simpa using hT.2.2
    have hlen : cpar.topAddrs.length ≤ q.num_nodes := by
      have h1 : cpar.topAddrs.length ≤ cpar.addrs.length := by
        rw [topAddrs_length]
        exact tops_length_le cpar
      have h2 : cpar.addrs.length ≤ c.addrs.length :=
        (List.subperm_of_subset h6 h9).length_le
      simp only [List.length_cons] at hcount
      omega
    have hnpar : node ≠ par := fun h => h7 (h ▸ topAddrs_subset node h5)
    -- the store after `node->elt = new_value`
    have hset := setElt_some hn v
    have h1n : (m.write node ⟨v, nd.child, nd.sibling, nd.parent⟩).cells node =
        some ⟨v, nd.child, nd.sibling, nd.parent⟩ := by simp
    have h1par : (m.write node ⟨v, nd.child, nd.sibling, nd.parent⟩).cells par = some pn := by
      simp [Ne.symm hnpar, hp]
    have hrep1 := rep_setElt hn v h4
    obtain ⟨m2, pn2, hun, hpar2, hrep2, hn2, hfr2, hscan⟩ :=
      detach_top h1n hpar h1par hrep1 (by rw [setElt_addrs]; exact h6)
        (by rw [setElt_addrs]; exact h7) (by rw [setElt_topAddrs]; exact h5) q.num_nodes
        (by rw [setElt_topAddrs]; exact hlen)
    rw [setElt_topAddrs] at hfr2 hscan
    -- the subtree below the handle
    obtain ⟨e0, cn, hfind⟩ := find_of_mem (topAddrs_subset node h5)
    obtain ⟨cpn, spn, ppn, hcell, hrcn⟩ := rep_find h4 e0 cn hfind
    rw [hn] at hcell
    simp only [Option.some.injEq] at hcell
    subst hcell
    simp only at hpar
    subst hpar
    have hpermA : cpar.addrs.Perm ((node :: cn.addrs) ++ (cpar.remove node).addrs) := by
      have := (remove_items h6 _ _ hfind).map Prod.fst
      simpa [items_fst] using this
    have hnd' := hpermA.nodup_iff.mp h6
    simp only [List.cons_append, List.nodup_cons, List.mem_append, not_or,
      List.nodup_append] at hnd'
    obtain ⟨⟨hncn, _⟩, _, _, hdisj⟩ := hnd'
    have hbelow : ∀ x, InTree m node x → x ≠ node → x ∈ cn.addrs := by
      intro x hx hxn
      rcases hx with hx | ⟨nd', c0, hnd', hc0, hreach⟩
      · exact absurd hx hxn
      · rw [hn] at hnd'
        cases hnd'
        simp only at hc0
        subst hc0
        exact rep_reach_closed hrcn (rep_head_mem hrcn) hreach
    -- the result of the call
    obtain ⟨m', q', T', old, _, hupd, _⟩ := updateElt_spec lt hm hT hmem v
    have hss : setSibling m2 node none = some (m2.write node ⟨v, cpn, none, some par⟩) :=
      setSibling_some hn2 none
    have hsp : setParent (m2.write node ⟨v, cpn, none, some par⟩) node none =
        some ((m2.write node ⟨v, cpn, none, some par⟩).write node ⟨v, cpn, none, none⟩) :=
      setParent_some (show ((m2.write node ⟨v, cpn, none, some par⟩).cells node =
        some ⟨v, cpn, none, some par⟩) by simp) none
    have hcalc : updateElt lt m q node v =
        (meld lt ((m2.write node ⟨v, cpn, none, some par⟩).write node ⟨v, cpn, none, none⟩)
          q.root (some node)).bind fun r => some (r.1, ⟨r.2, q.num_nodes⟩) := by
      rw [updateElt_eq hset h1n rfl h1par, hlt]
      simp only [if_true, hun, Option.some_bind, hss, hsp]
    cases hmeld : meld lt ((m2.write node ⟨v, cpn, none, some par⟩).write node
        ⟨v, cpn, none, none⟩) q.root (some node) with
    | none =>
      rw [hcalc, hmeld] at hupd
      simp at hupd
    | some res =>
      refine ⟨_, cpar.topAddrs, m2, pn2, _, _, res.1, res.2, hset, h1par, ?_, h5,
        topAddrs_nodup h6, hscan, hun, hpar2, ?_, hss, hsp, by simp, ?_, hmeld, ?_⟩
      · rw [collect_rep hrep1 (by rw [← topAddrs_length, setElt_topAddrs]; exact hlen),
          ← topAddrs_eq_tops, setElt_topAddrs]
      · rw [collect_rep hrep2 (by
            rw [← topAddrs_length, remove_topAddrs, setElt_topAddrs]
            exact le_trans (List.length_erase_le _ _) hlen),
          ← topAddrs_eq_tops, remove_topAddrs, setElt_topAddrs]
      · intro x hx hxn
        have hxc := hbelow x hx hxn
        have hxpar : x ≠ par := fun h =>
          h7 (hpermA.symm.subset (by simp [h ▸ hxc]))
        have hxl : x ∉ cpar.topAddrs.erase node := by
          rw [← remove_topAddrs]
          exact fun h => hdisj hxc (topAddrs_subset _ h)
        simp only [write_cells, hxn, if_false]
        rw [hfr2 x hxpar hxl]
        simp [hxn]
      · rw [hcalc, hmeld]
        rfl

theorem updateElt_scan_safe_witness :
    ∃ m1 l m2 pn2 m3 m4 m5 r5,
      setElt exA4.1 0 10 = some m1 ∧ m1.cells 2 = some ⟨9, some 3, none, none⟩ ∧
      collect exA4.2.num_nodes m1 (some 3) = some l ∧ 0 ∈ l ∧ l.Nodup ∧
      ((some 3 : Option Nat) = some 0 ∨ ∃ prev np, (some 3 : Option Nat) ≠ some 0 ∧
        scan exA4.2.num_nodes m1 (some 3) 0 = some prev ∧ m1.cells prev = some np ∧
        np.sibling = some 0 ∧ prev ∈ l ∧ prev ≠ 0) ∧
      unlink exA4.2.num_nodes m1 0 = some m2 ∧ m2.cells 2 = some pn2 ∧
      collect exA4.2.num_nodes m2 pn2.child = some (l.erase 0) ∧
      setSibling m2 0 none = some m3 ∧ setParent m3 0 none = some m4 ∧
      m4.cells 0 = some ⟨10, some 1, none, none⟩ ∧
      (∀ x, InTree exA4.1 0 x → x ≠ 0 → m4.cells x = exA4.1.cells x) ∧
      meld intLess m4 exA4.2.root (some 0) = some (m5, r5) ∧
      updateElt intLess exA4.1 exA4.2 0 10 = some (m5, ⟨r5, exA4.2.num_nodes⟩) :=
  updateElt_scan_safe intLess _ _ _ exA4_reach 0 10 ⟨5, some 1, none, some 2⟩
    ⟨9, some 3, none, none⟩ 2
    ⟨2, rfl, Relation.ReflTransGen.tail
      (Relation.ReflTransGen.single ⟨⟨9, some 3, none, none⟩, rfl, Or.inl rfl⟩)
      ⟨⟨3, none, some 0, some 2⟩, rfl, Or.inr rfl⟩⟩
    (by decide) rfl rfl rfl (by decide)
/-! ## States reached by calls with a defined result -/

/-- Every state reached by calls with a defined result is one tree counted by `num_nodes`,
and the store holds no node outside it. -/
theorem reachAny_inv {lt : α → α → Bool} {m : Mem α} {q : PairingPQ} (h : ReachAny lt m q) :
    ∃ T, Shape m q T ∧ MemOK m ∧ RootDead m q ∧ ∀ x nd, m.cells x = some nd → x ∈ tAddrs T := by
  induction h with
  | init =>
    exact ⟨none, ⟨rfl, by simp, rfl⟩, memOK_empty, fun r nd x h => (by cases h),
      fun x nd h => (by cases h)⟩
  | @push m q m' q' v _ hstep ih =>
    obtain ⟨T, hT, hm, hdead, hg⟩ := ih
    obtain ⟨m2, q2, T2, hpush, _, hT2, hm2, hperm, _, hfr, _, _, _, _, hd2⟩ :=
      push_spec lt hm hT v
    rw [hpush] at hstep
    cases hstep
    refine ⟨T2, hT2, hm2, hd2 hdead, ?_⟩
    intro x nd hx
    have hA : (tAddrs T2).Perm (m.next :: tAddrs T) := by
      have := hperm.map Prod.fst
      simpa [tItems_fst] using this
    rw [hA.mem_iff]
    by_cases hxn : x = m.next
    · simp [hxn]
    · by_cases hxr : some x = q.root
      · have hroot := hT.1
        rcases T with _ | ⟨r, e, c⟩
        · have h0 : q.root = none := hroot
          rw [h0] at hxr
          cases hxr
        · have h0 : q.root = some r := hroot.1
          rw [h0] at hxr
          cases hxr
          simp
      · rw [hfr x hxr hxn] at hx
        exact List.mem_cons_of_mem _ (hg x nd hx)
  | @pop m q m' q' _ hstep ih =>
    obtain ⟨T, hT, hm, hdead, hg⟩ := ih
    rcases T with _ | ⟨r, e, c⟩
    · have hroot : q.root = none := hT.1
      simp [pop, hroot] at hstep
    · obtain ⟨m2, q2, T2, hpop, _, hT2, hm2, hperm, _, hfr, hfree, _, _, _, hd2⟩ :=
        pop_spec lt hm hT
      rw [hpop] at hstep
      cases hstep
      refine ⟨T2, hT2, hm2, hd2, ?_⟩
      intro x nd hx
      have hA : (tAddrs T2).Perm c.addrs := by
        have := hperm.map Prod.fst
        simpa [tItems_fst, items_fst] using this
      rw [hA.mem_iff]
      by_cases hxm : x ∈ r :: c.addrs
      · simp only [List.mem_cons] at hxm
        rcases hxm with rfl | hxm
        · rw [hfree] at hx
          cases hx
        · exact hxm
      · rw [hfr x hxm] at hx
        exact absurd (hg x nd hx) hxm
  | @updateElt m q m' q' hd v _ hstep ih =>
    obtain ⟨T, hT, hm, hdead, hg⟩ := ih
    cases hc : m.cells hd with
    | none => simp [PairingPQ.updateElt, setElt, hc] at hstep
    | some old =>
      have hmem := hg hd old hc
      rcases T with _ | ⟨r, e, c⟩
      · simp at hmem
      · simp only [tAddrs_some, List.mem_cons] at hmem
        rcases hmem with rfl | hmem
        · rw [updateElt_root_none hT.1.1 hdead v] at hstep
          cases hstep
        · obtain ⟨m2, q2, T2, _, _, hupd, hT2, hm2, hperm, _, hfr, _, _, _, _, hd2⟩ :=
            updateElt_spec lt hm hT hmem v
          rw [hupd] at hstep
          cases hstep
          refine ⟨T2, hT2, hm2, hd2 hdead, ?_⟩
          intro x nd hx
          have hA : (tAddrs T2).Perm (r :: c.addrs) := by
            have := hperm.map Prod.fst
            simpa [tItems_fst, items_fst, setElt_addrs] using this
          rw [hA.mem_iff]
          by_contra hxm
          rw [hfr x hxm] at hx
          exact hxm (hg x nd hx)
  | @updatePriorities m q m' q' _ hstep ih =>
    obtain ⟨T, hT, hm, hdead, hg⟩ := ih
    rcases T with _ | ⟨r, e, c⟩
    · have hroot : q.root = none := hT.1
      cases hn : q.num_nodes with
      | zero => simp [PairingPQ.updatePriorities, hroot, hn, updLoop] at hstep
      | succ k => simp [PairingPQ.updatePriorities, hroot, hn, updLoop] at hstep
    · obtain ⟨m2, q2, T2, hupd, hT2, hm2, hperm, _, hfr, _, _, _, hd2⟩ :=
        updatePriorities_spec lt hm hT
      rw [hupd] at hstep
      cases hstep
      refine ⟨T2, hT2, hm2, hd2, ?_⟩
      intro x nd hx
      have hA : (tAddrs T2).Perm (r :: c.addrs) := by
        have := hperm.map Prod.fst
        simpa [tItems_fst, items_fst] using this
      rw [hA.mem_iff]
      by_contra hxm
      rw [hfr x hxm] at hx
      exact hxm (hg x nd hx)

/-- The states of `Reach` are states of `ReachAny`. -/
theorem reach_reachAny {lt : α → α → Bool} {ops : List (Op α)} {m : Mem α} {q : PairingPQ}
    (h : Reach lt ops m q) : ReachAny lt m q := by
  induction h with
  | init => exact ReachAny.init
  | push v _ hstep ih => exact ReachAny.push v ih hstep
  | pop _ _ hstep ih => exact ReachAny.pop ih hstep
  | updateElt hd v _ _ _ _ _ _ hstep ih => exact ReachAny.updateElt hd v ih hstep
  | updatePriorities _ _ hstep ih => exact ReachAny.updatePriorities ih hstep

/-- C13. `empty()` agrees with `size()`: in every state reached from the empty heap by
`push`/`addNode`, `pop`, `updateElt` and `updatePriorities` calls that have a defined
result, whatever their arguments, `empty()` (the test `root == nullptr`) is true exactly
when `size()` is zero. -/
theorem empty_iff_size_zero (lt : α → α → Bool) (m : Mem α) (q : PairingPQ)
    (h : ReachAny lt m q) : empty q = true ↔ size q = 0 := by
  obtain ⟨T, hT, _, _, _⟩ := reachAny_inv h
  rw [shape_empty_iff hT]
  obtain ⟨_, _, hcount⟩ := hT
  rcases T with _ | ⟨r, e, c⟩
  · simp [size, hcount]
  · simp [size, hcount]

theorem empty_iff_size_zero_witness : empty exA4.2 = true ↔ size exA4.2 = 0 :=
  empty_iff_size_zero intLess _ _ (reach_reachAny exA4_reach)
/-! ## Claims over every state with a defined history -/

theorem runAny_reachAny {lt : α → α → Bool} {ops : List (Op α)} {m : Mem α} {q : PairingPQ}
    (h : RunAny lt ops m q) : ReachAny lt m q := by
  induction h with
  | init => exact ReachAny.init
  | push v _ hstep ih => exact ReachAny.push v ih hstep
  | pop _ hstep ih => exact ReachAny.pop ih hstep
  | updateElt hd v _ hstep ih => exact ReachAny.updateElt hd v ih hstep
  | updatePriorities _ hstep ih => exact ReachAny.updatePriorities ih hstep

/-- Every state of `ReachAny` is the end of some history. -/
theorem reachAny_runAny {lt : α → α → Bool} {m : Mem α} {q : PairingPQ}
    (h : ReachAny lt m q) : ∃ ops, RunAny lt ops m q := by
  induction h with
  | init => exact ⟨[], RunAny.init⟩
  | push v _ hstep ih =>
    obtain ⟨ops, ih⟩ := ih
    exact ⟨_, RunAny.push v ih hstep⟩
  | pop _ hstep ih =>
    obtain ⟨ops, ih⟩ := ih
    exact ⟨_, RunAny.pop ih hstep⟩
  | updateElt hd v _ hstep ih =>
    obtain ⟨ops, ih⟩ := ih
    exact ⟨_, RunAny.updateElt hd v ih hstep⟩
  | updatePriorities _ hstep ih =>
    obtain ⟨ops, ih⟩ := ih
    exact ⟨_, RunAny.updatePriorities ih hstep⟩

/-- The counter `num_nodes` along any history of calls with a defined result. -/
theorem runAny_count {lt : α → α → Bool} {ops : List (Op α)} {m : Mem α} {q : PairingPQ}
    (h : RunAny lt ops m q) : q.num_nodes + pops ops = pushes ops := by
  induction h with
  | init => rfl
  | @push ops m q m' q' v hprev hstep ih =>
    obtain ⟨T, hT, hm, _, _⟩ := reachAny_inv (runAny_reachAny hprev)
    obtain ⟨m2, q2, T2, hpush, _, _, _, _, _, _, _, _, _, hcnt, _⟩ := push_spec lt hm hT v
    rw [hpush] at hstep
    cases hstep
    simp only [pushes, pops]
    omega
  | @pop ops m q m' q' hprev hstep ih =>
    obtain ⟨T, hT, hm, _, _⟩ := reachAny_inv (runAny_reachAny hprev)
    rcases T with _ | ⟨r, e, c⟩
    · have hroot : q.root = none := hT.1
      simp [PairingPQ.pop, hroot] at hstep
    · obtain ⟨m2, q2, T2, hpop, _, _, _, _, _, _, _, _, _, hcnt, _⟩ := pop_spec lt hm hT
      rw [hpop] at hstep
      cases hstep
      simp only [pushes, pops]
      omega
  | @updateElt ops m q m' q' hd v hprev hstep ih =>
    have := updateElt_size hstep
    simp only [size] at this
    simp only [pushes, pops]
    omega
  | @updatePriorities ops m q m' q' hprev hstep ih =>
    have := updatePriorities_size hstep
    simp only [size] at this
    simp only [pushes, pops]
    omega

theorem rootDead_overwrite (f : Nat → α) {m : Mem α} {q : PairingPQ} (h : RootDead m q) :
    RootDead (overwrite f m) q := by
  intro r nd x hr hnd hx
  cases hc : m.cells r with
  | none => simp [overwrite, hc] at hnd
  | some n0 =>
    simp only [overwrite, hc, Option.map_some', Option.some.injEq] at hnd
    subst hnd
    obtain ⟨h1, h2⟩ := h r n0 x hr hc hx
    exact ⟨by simp [overwrite, h1], h2⟩

/-- Every state reached by calls with a defined result is structurally well formed with a
stale or null parent link at the root, also after its elements were overwritten from
outside. -/
theorem reachAny_wellFormed {lt : α → α → Bool} {m : Mem α} {q : PairingPQ}
    (h : ReachAny lt m q) :
    (WellFormed m q ∧ RootDead m q) ∧
      ∀ f : Nat → α, WellFormed (overwrite f m) q ∧ RootDead (overwrite f m) q := by
  obtain ⟨T, hT, hm, hdead, _⟩ := reachAny_inv h
  refine ⟨⟨⟨hm, T, hT⟩, hdead⟩, fun f => ⟨⟨memOK_overwrite f hm, ?_⟩, rootDead_overwrite f hdead⟩⟩
  rcases T with _ | ⟨r, e, c⟩
  · exact ⟨none, hT⟩
  · exact ⟨_, shape_overwrite f hT⟩

theorem exC1_eq : updateElt intLess exA3.1 exA3.2 0 (-7) = some (exC1.1, exC1.2) :=
  (Option.some_get (by decide : (updateElt intLess exA3.1 exA3.2 0 (-7)).isSome = true)).symm

theorem exC2_eq : push intLess exC1.1 exC1.2 7 = some (exC2.1, exC2.2) :=
  (Option.some_get (by decide : (push intLess exC1.1 exC1.2 7).isSome = true)).symm

theorem exC1_run :
    RunAny intLess [Op.updateElt 0 (-7), Op.push 9, Op.push 1, Op.push 5] exC1.1 exC1.2 :=
  RunAny.updateElt 0 (-7)
    (RunAny.push 9 (RunAny.push 1 (RunAny.push 5 RunAny.init exA1_eq) exA2_eq) exA3_eq) exC1_eq

theorem exC2_run :
    RunAny intLess [Op.push 7, Op.updateElt 0 (-7), Op.push 9, Op.push 1, Op.push 5]
      exC2.1 exC2.2 :=
  RunAny.push 7 exC1_run exC2_eq

/-- The state `exC1` is not in heap order: the node holding `-7` has a child holding `1`. -/
theorem exC1_not_heapOrder : ¬ HeapOrder intLess exC1.1 exC1.2 := by
  intro h
  have h1 : Live exC1.1 exC1.2 1 :=
    ⟨2, rfl, Relation.ReflTransGen.tail
      (Relation.ReflTransGen.single ⟨⟨9, some 0, none, none⟩, rfl, Or.inl rfl⟩)
      ⟨⟨-7, some 1, none, some 2⟩, rfl, Or.inl rfl⟩⟩
  obtain ⟨nd, p, pn, hc, hp, hcp, hlt⟩ := h 1 h1 (by decide)
  have e1 : exC1.1.cells 1 = some ⟨1, none, none, some 0⟩ := rfl
  rw [e1] at hc
  cases hc
  cases hp
  have e0 : exC1.1.cells 0 = some ⟨-7, some 1, none, some 2⟩ := rfl
  rw [e0] at hcp
  cases hcp
  revert hlt
  decide

theorem exC1_live1 : Live exC1.1 exC1.2 1 :=
  ⟨2, rfl, Relation.ReflTransGen.tail
    (Relation.ReflTransGen.single ⟨⟨9, some 0, none, none⟩, rfl, Or.inl rfl⟩)
    ⟨⟨-7, some 1, none, some 2⟩, rfl, Or.inl rfl⟩⟩

/-- C5. Size consistency: after any sequence of calls with a defined result from the empty
heap (whatever the arguments of `updateElt`; `pop` has a defined result only on a
non-empty heap), `size()` is the number of `push`/`addNode` calls minus the number of
`pop` calls, and neither `updateElt` nor `updatePriorities` changes `size()`. -/
theorem size_consistency (lt : α → α → Bool) (ops : List (Op α)) (m : Mem α) (q : PairingPQ)
    (h : RunAny lt ops m q) :
    size q = pushes ops - pops ops ∧ pops ops ≤ pushes ops ∧
      (∀ hd v m' q', updateElt lt m q hd v = some (m', q') → size q' = size q) ∧
      (∀ m' q', updatePriorities lt m q = some (m', q') → size q' = size q) := by
  have hsz := runAny_count h
  refine ⟨by simp only [size]; omega, by omega, ?_, ?_⟩
  · intro hd v m' q' h'
    exact updateElt_size h'
  · intro m' q' h'
    exact updatePriorities_size h'

theorem size_consistency_witness :
    size exC2.2 =
        pushes [Op.push (7 : Int), Op.updateElt 0 (-7), Op.push 9, Op.push 1, Op.push 5] -
        pops [Op.push (7 : Int), Op.updateElt 0 (-7), Op.push 9, Op.push 1, Op.push 5] ∧
      pops [Op.push (7 : Int), Op.updateElt 0 (-7), Op.push 9, Op.push 1, Op.push 5] ≤
        pushes [Op.push (7 : Int), Op.updateElt 0 (-7), Op.push 9, Op.push 1, Op.push 5] ∧
      (∀ hd v m' q', updateElt intLess exC2.1 exC2.2 hd v = some (m', q') →
        size q' = size exC2.2) ∧
      (∀ m' q', updatePriorities intLess exC2.1 exC2.2 = some (m', q') →
        size q' = size exC2.2) :=
  size_consistency intLess _ _ _ exC2_run

/-- C10. Handle stability: for a live handle `h` of any structurally well-formed heap whose
root has a null or stale parent link (every state reached by calls with a defined result
is one, in heap order or not, also after its elements were overwritten from outside),
after `push`, `addNode`, a `pop` that removes another node, `updateElt` on another live
handle, or `updatePriorities`, the element stored at `h` is the one stored before and `h`
is still reachable from the root. -/
theorem handle_stability (lt : α → α → Bool) (m : Mem α) (q : PairingPQ)
    (hwf : WellFormed m q) (hdead : RootDead m q) (hd : Nat) (hlive : Live m q hd) :
    (∀ v m' q', push lt m q v = some (m', q') → eltAt m' hd = eltAt m hd ∧ Live m' q' hd) ∧
    (∀ v m' q' nh, addNode lt m q v = some (m', q', nh) →
      eltAt m' hd = eltAt m hd ∧ Live m' q' hd ∧ nh ≠ hd) ∧
    (∀ m' q', q.root ≠ some hd → pop lt m q = some (m', q') →
      eltAt m' hd = eltAt m hd ∧ Live m' q' hd) ∧
    (∀ h' v m' q', h' ≠ hd → Live m q h' → updateElt lt m q h' v = some (m', q') →
      eltAt m' hd = eltAt m hd ∧ Live m' q' hd) ∧
    (∀ m' q', updatePriorities lt m q = some (m', q') →
      eltAt m' hd = eltAt m hd ∧ Live m' q' hd) := by
  obtain ⟨hm, T, hT⟩ := hwf
  have hmem := (live_iff hT.1 hd).mp hlive
  have hlt_next := shape_lt_next hm hT.1 hd hmem
  have hpushF : ∀ v m' q' nh, addNode lt m q v = some (m', q', nh) →
      eltAt m' hd = eltAt m hd ∧ Live m' q' hd ∧ nh ≠ hd := by
    intro v m' q' nh hp
    obtain ⟨m1, q1, T1, _, hadd, hT1, _, hperm1, _, _, _, hel1, _, _, _⟩ := push_spec lt hm hT v
    rw [hadd] at hp
    cases hp
    have hpermA := hperm1.map Prod.fst
    simp only [tItems_fst, List.map_cons] at hpermA
    exact ⟨hel1 hd (by omega),
      (live_iff hT1.1 hd).mpr (hpermA.symm.subset (List.mem_cons_of_mem _ hmem)), by omega⟩
  refine ⟨?_, hpushF, ?_, ?_, ?_⟩
  · intro v m' q' hp
    obtain ⟨m1, q1, T1, hpush, hadd, _⟩ := push_spec lt hm hT v
    rw [hpush] at hp
    cases hp
    obtain ⟨h1, h2, _⟩ := hpushF v _ _ _ hadd
    exact ⟨h1, h2⟩
  · intro m' q' hnr hp
    rcases T with _ | ⟨r, e, c⟩
    · simp at hmem
    · obtain ⟨m1, q1, T1, hpop, _, hT1, _, hperm1, _, _, _, _, hel1, _, _⟩ := pop_spec lt hm hT
      rw [hpop] at hp
      cases hp
      have hc := live_nonroot hT hlive hnr
      have hdr : hd ≠ r := fun h' => hnr (by rw [h']; exact hT.1.1)
      have hpermA := hperm1.map Prod.fst
      rw [tItems_fst, items_fst] at hpermA
      exact ⟨hel1 hd hdr, (live_iff hT1.1 hd).mpr (hpermA.symm.subset hc)⟩
  · intro h' v m' q' hne hlive' hp
    by_cases hroot : q.root = some h'
    · rw [updateElt_root_none hroot hdead v] at hp
      cases hp
    · rcases T with _ | ⟨r, e, c⟩
      · simp at hmem
      · obtain ⟨m1, q1, T1, _, _, hupd, hT1, _, hperm1, _, _, _, hel1, _, _, _⟩ :=
          updateElt_spec lt hm hT (live_nonroot hT hlive' hroot) v
        rw [hupd] at hp
        cases hp
        have hpermA := hperm1.map Prod.fst
        simp only [tItems_fst, List.map_cons, items_fst, setElt_addrs] at hpermA
        exact ⟨hel1 hd (Ne.symm hne), (live_iff hT1.1 hd).mpr (hpermA.symm.subset hmem)⟩
  · intro m' q' hp
    rcases T with _ | ⟨r, e, c⟩
    · simp at hmem
    · obtain ⟨m1, q1, T1, hupd, hT1, _, hperm1, _, _, _, hel1, _, _⟩ :=
        updatePriorities_spec lt hm hT
      rw [hupd] at hp
      cases hp
      have hpermA := hperm1.map Prod.fst
      simp only [tItems_fst, List.map_cons, items_fst] at hpermA
      exact ⟨hel1 hd, (live_iff hT1.1 hd).mpr (hpermA.symm.subset hmem)⟩

theorem handle_stability_witness :
    (∀ v m' q', push intLess exC1.1 exC1.2 v = some (m', q') →
      eltAt m' 1 = eltAt exC1.1 1 ∧ Live m' q' 1) ∧
    (∀ v m' q' nh, addNode intLess exC1.1 exC1.2 v = some (m', q', nh) →
      eltAt m' 1 = eltAt exC1.1 1 ∧ Live m' q' 1 ∧ nh ≠ 1) ∧
    (∀ m' q', exC1.2.root ≠ some 1 → pop intLess exC1.1 exC1.2 = some (m', q') →
      eltAt m' 1 = eltAt exC1.1 1 ∧ Live m' q' 1) ∧
    (∀ h' v m' q', h' ≠ 1 → Live exC1.1 exC1.2 h' →
      updateElt intLess exC1.1 exC1.2 h' v = some (m', q') →
      eltAt m' 1 = eltAt exC1.1 1 ∧ Live m' q' 1) ∧
    (∀ m' q', updatePriorities intLess exC1.1 exC1.2 = some (m', q') →
      eltAt m' 1 = eltAt exC1.1 1 ∧ Live m' q' 1) :=
  handle_stability intLess exC1.1 exC1.2 (reachAny_wellFormed (runAny_reachAny exC1_run)).1.1
    (reachAny_wellFormed (runAny_reachAny exC1_run)).1.2 1 exC1_live1

/-- C20. The root never has a sibling: in every non-empty state reached from the empty heap
by calls with a defined result (whatever the value passed to `updateElt`), the root is a
live node whose sibling link is null, so the nodes reachable from the root are exactly the
nodes of its own tree (the root and what lies below `root->child`), and the traversal
started at the root visits only those. -/
theorem root_has_no_sibling (lt : α → α → Bool) (m : Mem α)
    (q : PairingPQ) (h : ReachAny lt m q) (r : Nat) (hr : q.root = some r) :
    ∃ nd l, m.cells r = some nd ∧ nd.sibling = none ∧ (∀ a, Live m q a ↔ InTree m r a) ∧
      contents m q = some l ∧ ∀ x ∈ l, InTree m r x.1 := by
  obtain ⟨T, hT, _, _, _⟩ := reachAny_inv h
  rcases T with _ | ⟨r', e, c⟩
  · have hroot : q.root = none := hT.1
    rw [hroot] at hr
    cases hr
  · have hR := hT.1
    obtain ⟨⟨hroot, pp, cp, hc, hrep⟩, _, _⟩ := hT
    rw [hroot] at hr
    cases hr
    have hiff : ∀ a, Live m q a ↔ InTree m r a := by
      intro a
      constructor
      · rintro ⟨r2, hr2, hreach⟩
        rw [hroot] at hr2
        cases hr2
        rcases Relation.ReflTransGen.cases_head hreach with rfl | ⟨b, hb, hrest⟩
        · exact Or.inl rfl
        · obtain ⟨nd, hnd, hl⟩ := hb
          rw [hc] at hnd
          cases hnd
          rcases hl with hl | hl
          · exact Or.inr ⟨_, b, hc, hl, hrest⟩
          · cases hl
      · rintro (rfl | ⟨nd, c0, hnd, hch, hreach⟩)
        · exact ⟨a, hroot, Relation.ReflTransGen.refl⟩
        · exact ⟨r, hroot, Relation.ReflTransGen.head ⟨nd, hnd, Or.inl hch⟩ hreach⟩
    refine ⟨_, tItems (some (r, e, c)), hc, rfl, hiff, contents_shape ⟨hR, ‹_›, ‹_›⟩, ?_⟩
    intro x hx
    apply (hiff x.1).mp
    rw [live_iff hR]
    rw [← tItems_fst]
    exact List.mem_map_of_mem _ hx

theorem root_has_no_sibling_witness :
    ∃ nd l, exC1.1.cells 2 = some nd ∧ nd.sibling = none ∧
      (∀ a, Live exC1.1 exC1.2 a ↔ InTree exC1.1 2 a) ∧
      contents exC1.1 exC1.2 = some l ∧ ∀ x ∈ l, InTree exC1.1 2 x.1 :=
  root_has_no_sibling intLess _ _ (runAny_reachAny exC1_run) 2 (by decide)

end PairingPQ
